import Mathlib

set_option maxHeartbeats 1000000

/-!
Shallow embedding of the physical memory manager (binary buddy allocator)
implemented in src/docs/tests/pmm.py.

Modelling conventions, chosen to match the Python code:
* Addresses, sizes and orders are natural numbers (the Python integers the
  code manipulates are unbounded and never negative at the points where we
  use truncated subtraction; each such point is noted).
* The simulated physical memory that stores the intrusive freelist link
  words is a total function from addresses to words.  Reading an address
  that was never written yields 0, exactly like the dictionary with
  default 0 in the Python code.
* The per order freelist head array of length 32 is modelled as a total
  function from orders to optional head addresses; the code only ever
  touches indices below 32.
* The bit mask operations value AND NOT(a-1), (value + a - 1) AND NOT(a-1)
  and addr AND (size-1) from the source are translated as division and
  modulus arithmetic, which coincides with the masks whenever the
  alignment is a power of two; every alignment the code uses is the power
  of two min_block or a block size derived from it.  The power of two test
  itself keeps the bitwise form of the source.
* The two unbounded while loops that chase link words (remove_specific and
  the freelist walks) receive an explicit fuel argument g_range_end + 1;
  any freelist chain of a well formed state has pairwise distinct
  addresses below g_range_end, so the fuel is never exhausted there.
-/

/-- Status codes of the allocator (class PMMStatus in the source). -/
inductive PMMStatus where
  | OK
  | ERR_OOM
  | ERR_INVALID
  | ERR_NOT_INIT
  | ERR_ALREADY_INIT
  | ERR_NOT_ALIGNED
  | ERR_OUT_OF_RANGE
  | ERR_NOT_FOUND
deriving DecidableEq

open PMMStatus

/-- Constant PMM_MIN_ORDER_PAGE_SIZE from the source. -/
def PMM_MIN_ORDER_PAGE_SIZE : Nat := 4096

/-- Constant PMM_MAX_ORDERS from the source. -/
def PMM_MAX_ORDERS : Nat := 32

/-- is_pow2_u64 from the source: x != 0 and (x AND (x-1)) == 0. -/
def is_pow2_u64 (x : Nat) : Bool := x != 0 && (x &&& (x - 1)) == 0

/-- align_up from the source ((value + alignment - 1) AND NOT (alignment-1)),
written arithmetically; for a power of two alignment the two forms agree. -/
def align_up (value alignment : Nat) : Nat :=
  ((value + alignment - 1) / alignment) * alignment

/-- align_down from the source (value AND NOT (alignment-1)), written
arithmetically; for a power of two alignment the two forms agree. -/
def align_down (value alignment : Nat) : Nat :=
  (value / alignment) * alignment

/-- The allocator state: the fields of class PMM in the source. -/
structure PMM where
  g_inited : Bool
  g_range_start : Nat
  g_range_end : Nat
  g_min_block : Nat
  g_max_order : Nat
  g_order_count : Nat
  g_free_heads : Nat → Option Nat
  memory_state : Nat → Nat
  allocated_blocks : List (Nat × Nat)

/-- The state built by the PMM constructor. -/
def PMM.new : PMM :=
  { g_inited := false
    g_range_start := 0
    g_range_end := 0
    g_min_block := PMM_MIN_ORDER_PAGE_SIZE
    g_max_order := 0
    g_order_count := 0
    g_free_heads := fun _ => none
    memory_state := fun _ => 0
    allocated_blocks := [] }

/-- order_to_size: g_min_block shifted left by the order. -/
def order_to_size (s : PMM) (order : Nat) : Nat := s.g_min_block <<< order

/-- read_next_word: read the link word stored at the start of a block
(missing entries read as 0, like the Python dictionary default). -/
def read_next_word (s : PMM) (block_phys : Nat) : Nat := s.memory_state block_phys

/-- write_next_word: store a link word at the start of a block. -/
def write_next_word (s : PMM) (block_phys next_phys : Nat) : PMM :=
  { s with memory_state := fun a => if a = block_phys then next_phys else s.memory_state a }

/-- Overwrite one entry of the freelist head array. -/
def set_head (s : PMM) (order : Nat) (v : Option Nat) : PMM :=
  { s with g_free_heads := fun o => if o = order then v else s.g_free_heads o }

/-- Python dict assignment d[k] = v on the allocation tracking dict. -/
def dict_set (l : List (Nat × Nat)) (k v : Nat) : List (Nat × Nat) :=
  (k, v) :: l.filter (fun p => p.1 != k)

/-- Python del d[k] (guarded by membership in the source, which makes the
unconditional filter equivalent). -/
def dict_del (l : List (Nat × Nat)) (k : Nat) : List (Nat × Nat) :=
  l.filter (fun p => p.1 != k)

/-- pop_head: pop a block from the freelist of the given order, or none. -/
def pop_head (s : PMM) (order : Nat) : Option Nat × PMM :=
  match s.g_free_heads order with
  | none => (none, s)
  | some head =>
    let next_block := read_next_word s head
    let s1 := set_head s order (if next_block ≠ 0 then some next_block else none)
    let s2 := write_next_word s1 head 0
    (some head, s2)

/-- push_head: push a block onto the freelist of the given order.  The
link word written into the block is the old head address, or 0 when the
list was empty (0 is also the end of list sentinel of the link words). -/
def push_head (s : PMM) (order block_phys : Nat) : PMM :=
  let next_val := match s.g_free_heads order with
    | some h => h
    | none => 0
  let s1 := write_next_word s block_phys next_val
  set_head s1 order (some block_phys)

/-- Loop body of remove_specific: walk the chain with a prev pointer,
unlinking the target when found.  fuel bounds the walk (see module doc). -/
def remove_go (order target : Nat) (prev cur : Option Nat) (fuel : Nat) (s : PMM) :
    Bool × PMM :=
  match fuel with
  | 0 => (false, s)
  | fuel + 1 =>
    match cur with
    | none => (false, s)
    | some c =>
      let nb := read_next_word s c
      let nbo := if nb ≠ 0 then some nb else none
      if c = target then
        match prev with
        | none => (true, set_head s order nbo)
        | some p => (true, write_next_word s p nb)
      else
        remove_go order target (some c) nbo fuel s

/-- remove_specific: remove one specific block from the freelist of the
given order, returning whether it was found. -/
def remove_specific (s : PMM) (order target : Nat) : Bool × PMM :=
  remove_go order target none (s.g_free_heads order) (s.g_range_end + 1) s

/-- buddy_of: ((addr - g_range_start) XOR size) + g_range_start.  Every
caller has already checked g_range_start ≤ addr, so natural subtraction
agrees with the Python integer subtraction. -/
def buddy_of (s : PMM) (addr order : Nat) : Nat :=
  ((addr - s.g_range_start) ^^^ order_to_size s order) + s.g_range_start

/-- Loop of size_to_order: double need until it reaches size_bytes.  The
source loop only terminates when need starts positive; g_min_block is at
least 8 in every initialized state, and the 0 < need guard together with
the structural fuel (size_bytes iterations always suffice, since need at
least doubles while staying below size_bytes) makes the definition total
without changing any reachable behaviour. -/
def size_to_order_go (size_bytes : Nat) : Nat → Nat → Nat → Nat
  | 0, _, order => order
  | fuel + 1, need, order =>
    if 0 < need ∧ need < size_bytes then
      size_to_order_go size_bytes fuel (need <<< 1) (order + 1)
    else order

/-- size_to_order from the source. -/
def size_to_order (s : PMM) (size_bytes : Nat) : Nat :=
  if size_bytes = 0 then 0 else size_to_order_go size_bytes size_bytes s.g_min_block 0

/-- The descending scan of partition_range_into_blocks: the largest order
o at most the bound whose block size fits in remain and divides cur,
defaulting to 0 (the source initializes chosen to 0 and the o = 0 test
cannot change that value). -/
def choose_order_go (s : PMM) (cur remain : Nat) : Nat → Nat
  | 0 => 0
  | o + 1 =>
    if order_to_size s (o + 1) ≤ remain ∧ cur % order_to_size s (o + 1) = 0 then o + 1
    else choose_order_go s cur remain o

/-- Loop of partition_range_into_blocks: greedily push maximal aligned
blocks.  The source loop advances cur by order_to_size of the chosen
order, which is positive exactly when g_min_block is; the 0 < g_min_block
guard (true in every reachable call) and the structural fuel (range_end
iterations always suffice, since cur advances by at least one while
staying below range_end) make the definition total without changing any
reachable behaviour. -/
def partition_go (range_end : Nat) : Nat → Nat → PMM → PMM
  | 0, _, s => s
  | fuel + 1, cur, s =>
    if cur < range_end ∧ 0 < s.g_min_block then
      let remain := range_end - cur
      let chosen := choose_order_go s cur remain s.g_max_order
      let s1 := push_head s chosen cur
      partition_go range_end fuel (cur + order_to_size s1 chosen) s1
    else s

/-- partition_range_into_blocks from the source. -/
def partition_range_into_blocks (s : PMM) (range_start range_end : Nat) : PMM :=
  partition_go range_end range_end range_start s

/-- The max order loop of init: halve the block count, counting steps,
until it is at most 1 (the floor of the base two logarithm).  Structural
fuel: blocks iterations always suffice for the halving loop. -/
def max_order_loop : Nat → Nat → Nat
  | 0, _ => 0
  | fuel + 1, blocks => if blocks > 1 then max_order_loop fuel (blocks / 2) + 1 else 0

/-- init from the source. -/
def init (s : PMM) (range_start_phys range_end_phys min_block_size : Nat) :
    PMMStatus × PMM :=
  if s.g_inited then (ERR_ALREADY_INIT, s)
  else if range_end_phys ≤ range_start_phys then (ERR_INVALID, s)
  else if min_block_size = 0 ∨ is_pow2_u64 min_block_size = false then (ERR_INVALID, s)
  else if min_block_size < 8 then (ERR_INVALID, s)
  else
    let s1 := { s with g_min_block := min_block_size }
    let start_aligned := align_up range_start_phys s1.g_min_block
    let end_aligned := align_down range_end_phys s1.g_min_block
    if end_aligned ≤ start_aligned then (ERR_INVALID, s1)
    else
      let s2 := { s1 with g_range_start := start_aligned, g_range_end := end_aligned }
      let span_trimmed := s2.g_range_end - s2.g_range_start
      let blocks := span_trimmed / s2.g_min_block
      let max_order0 := max_order_loop blocks blocks
      let max_order := if PMM_MAX_ORDERS ≤ max_order0 then PMM_MAX_ORDERS - 1 else max_order0
      let s3 := { s2 with
        g_max_order := max_order
        g_order_count := max_order + 1
        g_free_heads := fun _ => none
        memory_state := fun _ => 0
        allocated_blocks := [] }
      let s4 := partition_range_into_blocks s3 s3.g_range_start s3.g_range_end
      (PMMStatus.OK, { s4 with g_inited := true })

/-- The rounding of a byte count to a multiple of g_min_block performed
identically at the start of alloc and of free. -/
def round_to_min_block (s : PMM) (size_bytes : Nat) : Nat :=
  if size_bytes % s.g_min_block ≠ 0 then align_up size_bytes s.g_min_block else size_bytes

/-- The split loop of alloc_block_of_order: while the current order is
above the requested one, push the upper half one order below (the source
decrements o before computing the half, so the o1 + 1 case recurses at
o1 after pushing block + order_to_size o1). -/
def split_down (s : PMM) (block req_order : Nat) : Nat → PMM
  | 0 => s
  | o1 + 1 =>
    if req_order < o1 + 1 then
      let half := order_to_size s o1
      split_down (push_head s o1 (block + half)) block req_order o1
    else s

/-- The scan of alloc_block_of_order: the first order at least o with a
non empty freelist, indices above gmax meaning failure.  gmax is
g_max_order, which no freelist operation mutates; the structural fuel is
the length of the remaining scan. -/
def find_nonempty_go (s : PMM) (gmax : Nat) : Nat → Nat → Nat
  | 0, o => o
  | fuel + 1, o =>
    if o ≤ gmax then
      match s.g_free_heads o with
      | none => find_nonempty_go s gmax fuel (o + 1)
      | some _ => o
    else o

/-- The scan of alloc_block_of_order, started with exactly enough fuel. -/
def find_nonempty (s : PMM) (gmax o : Nat) : Nat :=
  find_nonempty_go s gmax (gmax + 1 - o) o

/-- alloc_block_of_order from the source. -/
def alloc_block_of_order (s : PMM) (req_order : Nat) : PMMStatus × Nat × PMM :=
  if s.g_inited = false then (ERR_NOT_INIT, 0, s)
  else if s.g_max_order < req_order then (ERR_OOM, 0, s)
  else
    let o := find_nonempty s s.g_max_order req_order
    if s.g_max_order < o then (ERR_OOM, 0, s)
    else
      match pop_head s o with
      | (none, s1) => (ERR_OOM, 0, s1)
      | (some block, s1) =>
        let s2 := split_down s1 block req_order o
        let s3 := write_next_word s2 block 0
        let s4 := { s3 with
          allocated_blocks := dict_set s3.allocated_blocks block (order_to_size s3 req_order) }
        (PMMStatus.OK, block, s4)

/-- alloc from the source. -/
def alloc (s : PMM) (size_bytes : Nat) : PMMStatus × Nat × PMM :=
  if s.g_inited = false then (ERR_NOT_INIT, 0, s)
  else if size_bytes = 0 then (ERR_INVALID, 0, s)
  else
    let rounded := round_to_min_block s size_bytes
    let order := size_to_order s rounded
    if s.g_max_order < order then (ERR_OOM, 0, s)
    else alloc_block_of_order s order

/-- The coalescing loop of free.  gmax is g_max_order, which none of the
freelist operations in the loop mutates, so reading it once is faithful;
the structural fuel gmax - order counts the remaining loop iterations
exactly, so fuel = 0 coincides with the loop exit order ≥ gmax. -/
def free_loop (gmax : Nat) : Nat → PMM → Nat → Nat → Nat → PMMStatus × PMM
  | 0, s, block_addr, order, _ => (PMMStatus.OK, push_head s order block_addr)
  | fuel + 1, s, block_addr, order, block_size =>
    if order < gmax then
      let buddy := buddy_of s block_addr order
      if buddy < s.g_range_start ∨ s.g_range_end < buddy + block_size then
        (PMMStatus.OK, push_head s order block_addr)
      else
        match remove_specific s order buddy with
        | (false, s1) => (PMMStatus.OK, push_head s1 order block_addr)
        | (true, s1) =>
          free_loop gmax fuel s1 (if buddy < block_addr then buddy else block_addr)
            (order + 1) (block_size <<< 1)
    else (PMMStatus.OK, push_head s order block_addr)

/-- free from the source.  phys ≥ g_range_start holds past the range
check, so later natural subtractions inside buddy_of are exact. -/
def free (s : PMM) (phys size_bytes : Nat) : PMMStatus × PMM :=
  if s.g_inited = false then (ERR_NOT_INIT, s)
  else if size_bytes = 0 then (ERR_INVALID, s)
  else if phys < s.g_range_start then (ERR_OUT_OF_RANGE, s)
  else if s.g_range_end ≤ phys then (ERR_OUT_OF_RANGE, s)
  else
    let rounded := round_to_min_block s size_bytes
    let order := size_to_order s rounded
    if s.g_max_order < order then (ERR_INVALID, s)
    else
      let block_size := order_to_size s order
      if phys % block_size ≠ 0 then (ERR_NOT_ALIGNED, s)
      else
        let s1 := { s with allocated_blocks := dict_del s.allocated_blocks phys }
        free_loop s1.g_max_order (s1.g_max_order - order) s1 phys order block_size

/-- mark_free_range from the source. -/
def mark_free_range (s : PMM) (start0 end0 : Nat) : PMMStatus × PMM :=
  if s.g_inited = false then (ERR_NOT_INIT, s)
  else if end0 ≤ start0 then (ERR_INVALID, s)
  else
    let start1 := max start0 s.g_range_start
    let end1 := min end0 s.g_range_end
    if end1 ≤ start1 then (ERR_INVALID, s)
    else
      let start2 := align_up start1 s.g_min_block
      let end2 := align_down end1 s.g_min_block
      if end2 ≤ start2 then (ERR_INVALID, s)
      else (PMMStatus.OK, partition_range_into_blocks s start2 end2)

/-- The inner walk of mark_reserved_range over one order: visit each
chain element (capturing its link word before any mutation), removing and
re-partitioning the blocks that overlap the reserved range. -/
def mark_res_walk (rs re o : Nat) (cur : Option Nat) (fuel : Nat) (s : PMM) : PMM :=
  match fuel with
  | 0 => s
  | fuel + 1 =>
    match cur with
    | none => s
    | some c =>
      let nb := read_next_word s c
      let nxt := if nb ≠ 0 then some nb else none
      let bs := c
      let be := c + order_to_size s o
      if ¬ (be ≤ rs ∨ re ≤ bs) then
        let s1 := (remove_specific s o c).2
        let s2 := if bs < rs then (mark_free_range s1 bs rs).2 else s1
        let s3 := if re < be then (mark_free_range s2 re be).2 else s2
        mark_res_walk rs re o nxt fuel s3
      else
        mark_res_walk rs re o nxt fuel s

/-- The outer loop of mark_reserved_range: orders from g_max_order down
to 0; the argument counts how many orders remain. -/
def mark_res_orders (rs re : Nat) : Nat → PMM → PMM
  | 0, s => s
  | n + 1, s =>
    mark_res_orders rs re n
      (mark_res_walk rs re n (s.g_free_heads n) (s.g_range_end + 1) s)

/-- mark_reserved_range from the source. -/
def mark_reserved_range (s : PMM) (start0 end0 : Nat) : PMMStatus × PMM :=
  if s.g_inited = false then (ERR_NOT_INIT, s)
  else if end0 ≤ start0 then (ERR_INVALID, s)
  else
    let start1 := max start0 s.g_range_start
    let end1 := min end0 s.g_range_end
    if end1 ≤ start1 then (ERR_INVALID, s)
    else
      let start2 := align_down start1 s.g_min_block
      let end2 := align_up end1 s.g_min_block
      (PMMStatus.OK, mark_res_orders start2 end2 (s.g_max_order + 1) s)

/-- One freelist walk of get_free_list_state, with fuel. -/
def walk_chain (s : PMM) (cur : Option Nat) (fuel : Nat) : List Nat :=
  match fuel with
  | 0 => []
  | fuel + 1 =>
    match cur with
    | none => []
    | some c =>
      let nb := read_next_word s c
      c :: walk_chain s (if nb ≠ 0 then some nb else none) fuel

/-- The blocks of one freelist, in chain order. -/
def free_list_at (s : PMM) (order : Nat) : List Nat :=
  walk_chain s (s.g_free_heads order) (s.g_range_end + 1)

/-- get_free_list_state from the source: the blocks reachable from each
of the 32 freelist heads. -/
def get_free_list_state (s : PMM) : List (List Nat) :=
  (List.range PMM_MAX_ORDERS).map (fun o => free_list_at s o)

/-- Total bytes in free blocks reachable from the freelist heads. -/
def free_bytes (s : PMM) : Nat :=
  ((List.range PMM_MAX_ORDERS).map
    (fun o => (free_list_at s o).length * order_to_size s o)).sum

/-- Total bytes of live (allocated, not yet freed) blocks. -/
def live_bytes (s : PMM) : Nat :=
  (s.allocated_blocks.map (fun p => p.2)).sum

/-- All reachable free blocks paired with their sizes. -/
def free_block_list (s : PMM) : List (Nat × Nat) :=
  (List.range PMM_MAX_ORDERS).flatMap
    (fun o => (free_list_at s o).map (fun b => (b, order_to_size s o)))

/-- Two byte intervals given as (address, size) do not overlap. -/
def blk_disjoint (p q : Nat × Nat) : Prop :=
  p.1 + p.2 ≤ q.1 ∨ q.1 + q.2 ≤ p.1

instance : DecidablePred fun pq : (Nat × Nat) × Nat × Nat => blk_disjoint pq.1 pq.2 :=
  fun _ => by unfold blk_disjoint; infer_instance

instance (p q : Nat × Nat) : Decidable (blk_disjoint p q) := by
  unfold blk_disjoint; infer_instance

/-! ### Basic preservation lemmas for the freelist operations -/

/-- The relation: t differs from s at most in the freelist heads and the
link words (all configuration fields and the allocation tracking agree). -/
structure FreelistOnly (s t : PMM) : Prop where
  inited : t.g_inited = s.g_inited
  rstart : t.g_range_start = s.g_range_start
  rend : t.g_range_end = s.g_range_end
  minb : t.g_min_block = s.g_min_block
  maxo : t.g_max_order = s.g_max_order
  ocount : t.g_order_count = s.g_order_count
  alloc : t.allocated_blocks = s.allocated_blocks

theorem FreelistOnly.refl (s : PMM) : FreelistOnly s s := ⟨rfl, rfl, rfl, rfl, rfl, rfl, rfl⟩

theorem FreelistOnly.trans {s t u : PMM} (h1 : FreelistOnly s t) (h2 : FreelistOnly t u) :
    FreelistOnly s u := by
  obtain ⟨a1, b1, c1, d1, e1, f1, g1⟩ := h1
  obtain ⟨a2, b2, c2, d2, e2, f2, g2⟩ := h2
  exact ⟨a2.trans a1, b2.trans b1, c2.trans c1, d2.trans d1, e2.trans e1, f2.trans f1,
    g2.trans g1⟩

theorem freelistOnly_write_next_word (s : PMM) (b v : Nat) :
    FreelistOnly s (write_next_word s b v) := ⟨rfl, rfl, rfl, rfl, rfl, rfl, rfl⟩

theorem freelistOnly_set_head (s : PMM) (o : Nat) (v : Option Nat) :
    FreelistOnly s (set_head s o v) := ⟨rfl, rfl, rfl, rfl, rfl, rfl, rfl⟩

theorem freelistOnly_push_head (s : PMM) (o b : Nat) :
    FreelistOnly s (push_head s o b) := ⟨rfl, rfl, rfl, rfl, rfl, rfl, rfl⟩

theorem freelistOnly_pop_head (s : PMM) (o : Nat) :
    FreelistOnly s (pop_head s o).2 := by
  unfold pop_head
  cases s.g_free_heads o
  · exact FreelistOnly.refl s
  · exact ⟨rfl, rfl, rfl, rfl, rfl, rfl, rfl⟩

theorem freelistOnly_remove_go (o target : Nat) :
    ∀ (fuel : Nat) (prev cur : Option Nat) (s : PMM),
      FreelistOnly s (remove_go o target prev cur fuel s).2 := by
  intro fuel
  induction fuel with
  | zero => intro prev cur s; exact FreelistOnly.refl s
  | succ fuel ih =>
    intro prev cur s
    cases cur with
    | none => exact FreelistOnly.refl s
    | some c =>
      simp only [remove_go]
      split
      · cases prev with
        | none => exact freelistOnly_set_head ..
        | some p => exact freelistOnly_write_next_word ..
      · exact ih ..

theorem freelistOnly_remove_specific (s : PMM) (o target : Nat) :
    FreelistOnly s (remove_specific s o target).2 :=
  freelistOnly_remove_go o target _ none _ s

theorem freelistOnly_split_down (block req : Nat) :
    ∀ (o : Nat) (s : PMM), FreelistOnly s (split_down s block req o) := by
  intro o
  induction o with
  | zero => intro s; exact FreelistOnly.refl s
  | succ o1 ih =>
    intro s
    simp only [split_down]
    split
    · exact (freelistOnly_push_head ..).trans (ih _)
    · exact FreelistOnly.refl s

theorem freelistOnly_partition_go (range_end : Nat) :
    ∀ (fuel cur : Nat) (s : PMM), FreelistOnly s (partition_go range_end fuel cur s) := by
  intro fuel
  induction fuel with
  | zero => intro cur s; exact FreelistOnly.refl s
  | succ fuel ih =>
    intro cur s
    simp only [partition_go]
    split
    · exact (freelistOnly_push_head ..).trans (ih _ _)
    · exact FreelistOnly.refl s

theorem freelistOnly_partition (s : PMM) (lo hi : Nat) :
    FreelistOnly s (partition_range_into_blocks s lo hi) :=
  freelistOnly_partition_go hi hi lo s

theorem freelistOnly_free_loop (gmax : Nat) :
    ∀ (fuel : Nat) (s : PMM) (a o bs : Nat), FreelistOnly s (free_loop gmax fuel s a o bs).2 := by
  intro fuel
  induction fuel with
  | zero => intro s a o bs; exact freelistOnly_push_head s o a
  | succ fuel ih =>
    intro s a o bs
    simp only [free_loop]
    split
    · split
      · exact freelistOnly_push_head ..
      · split
        next s1 heq =>
          have h1 : FreelistOnly s (remove_specific s o (buddy_of s a o)).2 :=
            freelistOnly_remove_specific ..
          rw [heq] at h1
          exact h1.trans (freelistOnly_push_head ..)
        next s1 heq =>
          have h1 : FreelistOnly s (remove_specific s o (buddy_of s a o)).2 :=
            freelistOnly_remove_specific ..
          rw [heq] at h1
          exact h1.trans (ih ..)
    · exact freelistOnly_push_head ..

theorem freelistOnly_mark_free_range (s : PMM) (a b : Nat) :
    FreelistOnly s (mark_free_range s a b).2 := by
  simp only [mark_free_range]
  split
  · exact FreelistOnly.refl s
  · split
    · exact FreelistOnly.refl s
    · split
      · exact FreelistOnly.refl s
      · split
        · exact FreelistOnly.refl s
        · exact freelistOnly_partition ..

theorem FreelistOnly.mfr_step {s t : PMM} {cond : Prop} [Decidable cond] {a b : Nat}
    (h : FreelistOnly s t) :
    FreelistOnly s (if cond then (mark_free_range t a b).2 else t) := by
  split
  · exact h.trans (freelistOnly_mark_free_range ..)
  · exact h

theorem freelistOnly_mark_res_walk (rs re o : Nat) :
    ∀ (fuel : Nat) (cur : Option Nat) (s : PMM),
      FreelistOnly s (mark_res_walk rs re o cur fuel s) := by
  intro fuel
  induction fuel with
  | zero => intro cur s; exact FreelistOnly.refl s
  | succ fuel ih =>
    intro cur s
    cases cur with
    | none => exact FreelistOnly.refl s
    | some c =>
      simp only [mark_res_walk]
      split
      · exact ((((freelistOnly_remove_specific s o c).mfr_step).mfr_step).trans (ih ..))
      · exact ih ..

theorem freelistOnly_mark_res_orders (rs re : Nat) :
    ∀ (n : Nat) (s : PMM), FreelistOnly s (mark_res_orders rs re n s) := by
  intro n
  induction n with
  | zero => intro s; exact FreelistOnly.refl s
  | succ n ih =>
    intro s
    exact (freelistOnly_mark_res_walk rs re n _ _ s).trans (ih _)

/-- The coalescing loop of free always reports success. -/
theorem free_loop_status (gmax : Nat) :
    ∀ (fuel : Nat) (s : PMM) (a o bs : Nat), (free_loop gmax fuel s a o bs).1 = PMMStatus.OK := by
  intro fuel
  induction fuel with
  | zero => intro s a o bs; rfl
  | succ fuel ih =>
    intro s a o bs
    simp only [free_loop]
    split
    · split
      · rfl
      · split
        · rfl
        · exact ih ..
    · rfl

/-- Popping from an empty freelist returns none and leaves the state alone. -/
theorem pop_head_none {s : PMM} {o : Nat} (h : s.g_free_heads o = none) :
    pop_head s o = (none, s) := by
  unfold pop_head
  rw [h]

/-- Popping from a freelist with head h returns h. -/
theorem pop_head_some {s : PMM} {o h : Nat} (hh : s.g_free_heads o = some h) :
    pop_head s o =
      (some h,
        write_next_word
          (set_head s o (if read_next_word s h ≠ 0 then some (read_next_word s h) else none))
          h 0) := by
  unfold pop_head
  rw [hh]

/-! ### Error path analysis for alloc, free, the mark operations and init -/

theorem pop_head_fst_none {s : PMM} {o : Nat} (h : (pop_head s o).1 = none) :
    (pop_head s o).2 = s := by
  unfold pop_head at *
  cases hh : s.g_free_heads o with
  | none => rfl
  | some v => rw [hh] at h; simp at h

theorem alloc_block_ok_or_id (s : PMM) (r : Nat) :
    (alloc_block_of_order s r).1 = PMMStatus.OK ∨
      ((alloc_block_of_order s r).2.1 = 0 ∧ (alloc_block_of_order s r).2.2 = s) := by
  unfold alloc_block_of_order
  dsimp only
  split
  · exact Or.inr ⟨rfl, rfl⟩
  · split
    · exact Or.inr ⟨rfl, rfl⟩
    · split
      · exact Or.inr ⟨rfl, rfl⟩
      · split
        next s1 heq =>
          refine Or.inr ⟨rfl, ?_⟩
          have h1 : (pop_head s (find_nonempty s s.g_max_order r)).1 = none := by
            rw [heq]
          have h2 := pop_head_fst_none h1
          rw [heq] at h2
          exact h2
        next b s1 heq => exact Or.inl rfl

theorem alloc_ok_or_id (s : PMM) (n : Nat) :
    (alloc s n).1 = PMMStatus.OK ∨ ((alloc s n).2.1 = 0 ∧ (alloc s n).2.2 = s) := by
  unfold alloc
  dsimp only
  split
  · exact Or.inr ⟨rfl, rfl⟩
  · split
    · exact Or.inr ⟨rfl, rfl⟩
    · split
      · exact Or.inr ⟨rfl, rfl⟩
      · exact alloc_block_ok_or_id ..

theorem free_ok_or_id (s : PMM) (a n : Nat) :
    (free s a n).1 = PMMStatus.OK ∨ (free s a n).2 = s := by
  unfold free
  dsimp only
  split
  · exact Or.inr rfl
  · split
    · exact Or.inr rfl
    · split
      · exact Or.inr rfl
      · split
        · exact Or.inr rfl
        · split
          · exact Or.inr rfl
          · split
            · exact Or.inr rfl
            · exact Or.inl (free_loop_status ..)

theorem mark_free_ok_or_id (s : PMM) (a b : Nat) :
    (mark_free_range s a b).1 = PMMStatus.OK ∨ (mark_free_range s a b).2 = s := by
  unfold mark_free_range
  dsimp only
  split
  · exact Or.inr rfl
  · split
    · exact Or.inr rfl
    · split
      · exact Or.inr rfl
      · split
        · exact Or.inr rfl
        · exact Or.inl rfl

theorem mark_reserved_ok_or_id (s : PMM) (a b : Nat) :
    (mark_reserved_range s a b).1 = PMMStatus.OK ∨ (mark_reserved_range s a b).2 = s := by
  unfold mark_reserved_range
  dsimp only
  split
  · exact Or.inr rfl
  · split
    · exact Or.inr rfl
    · split
      · exact Or.inr rfl
      · exact Or.inl rfl

/-- C10: whenever alloc reports anything but OK, the address part of the
returned pair is 0 (and, in fact, the state is also untouched). -/
theorem C10_alloc_fail_addr_zero (s : PMM) (size_bytes : Nat)
    (h : (alloc s size_bytes).1 ≠ PMMStatus.OK) : (alloc s size_bytes).2.1 = 0 :=
  ((alloc_ok_or_id s size_bytes).resolve_left h).1

theorem C10_witness :
    (alloc PMM.new 4096).1 ≠ PMMStatus.OK ∧ (alloc PMM.new 4096).2.1 = 0 :=
  ⟨by decide, C10_alloc_fail_addr_zero PMM.new 4096 (by decide)⟩

theorem round_to_min_block_zero (s : PMM) : round_to_min_block s 0 = 0 := by
  simp [round_to_min_block]

theorem size_to_order_zero (s : PMM) : size_to_order s 0 = 0 := by
  simp [size_to_order]

/-- A 128 KiB instance used as concrete witness state: init(0x1000, 0x21000, 4096). -/
def pmm128 : PMM := (init PMM.new 0x1000 0x21000 4096).2

/-- C9: in an initialized state, an alloc whose inferred order exceeds
g_max_order fails with OOM, while a free at any in range address whose
inferred order exceeds g_max_order fails with INVALID. -/
theorem C9_oversize_asymmetry :
    (∀ (s : PMM) (n : Nat), s.g_inited = true →
        s.g_max_order < size_to_order s (round_to_min_block s n) →
        alloc s n = (PMMStatus.ERR_OOM, 0, s)) ∧
    (∀ (s : PMM) (a n : Nat), s.g_inited = true →
        s.g_range_start ≤ a → a < s.g_range_end →
        s.g_max_order < size_to_order s (round_to_min_block s n) →
        free s a n = (PMMStatus.ERR_INVALID, s)) := by
  constructor
  · intro s n hi ho
    have hn : n ≠ 0 := by
      intro h0
      rw [h0, round_to_min_block_zero, size_to_order_zero] at ho
      omega
    simp [alloc, hi, hn, ho]
  · intro s a n hi hs ha ho
    have hn : n ≠ 0 := by
      intro h0
      rw [h0, round_to_min_block_zero, size_to_order_zero] at ho
      omega
    simp [free, hi, hn, Nat.not_lt.mpr hs, Nat.not_le.mpr ha, ho]

theorem C9_witness :
    pmm128.g_inited = true ∧
    pmm128.g_max_order <
      size_to_order pmm128
        (round_to_min_block pmm128 (order_to_size pmm128 pmm128.g_max_order + 1)) ∧
    alloc pmm128 (order_to_size pmm128 pmm128.g_max_order + 1) =
      (PMMStatus.ERR_OOM, 0, pmm128) ∧
    free pmm128 0x1000 (order_to_size pmm128 pmm128.g_max_order + 1) =
      (PMMStatus.ERR_INVALID, pmm128) :=
  ⟨by decide, by decide,
    C9_oversize_asymmetry.1 pmm128 _ (by decide) (by decide),
    C9_oversize_asymmetry.2 pmm128 0x1000 _ (by decide) (by decide) (by decide) (by decide)⟩

/-- C6: the exact error ladder of free, plus the three boundary instances
on a concrete initialized state with base 0x1000 and limit 0x21000. -/
theorem C6_free_error_ladder :
    (∀ (s : PMM) (a n : Nat),
      (s.g_inited = false → free s a n = (PMMStatus.ERR_NOT_INIT, s)) ∧
      (s.g_inited = true → n = 0 → free s a n = (PMMStatus.ERR_INVALID, s)) ∧
      (s.g_inited = true → n ≠ 0 → (a < s.g_range_start ∨ s.g_range_end ≤ a) →
        free s a n = (PMMStatus.ERR_OUT_OF_RANGE, s)) ∧
      (s.g_inited = true → n ≠ 0 → s.g_range_start ≤ a → a < s.g_range_end →
        s.g_max_order < size_to_order s (round_to_min_block s n) →
        free s a n = (PMMStatus.ERR_INVALID, s)) ∧
      (s.g_inited = true → n ≠ 0 → s.g_range_start ≤ a → a < s.g_range_end →
        size_to_order s (round_to_min_block s n) ≤ s.g_max_order →
        a % order_to_size s (size_to_order s (round_to_min_block s n)) ≠ 0 →
        free s a n = (PMMStatus.ERR_NOT_ALIGNED, s)) ∧
      (s.g_inited = true → n ≠ 0 → s.g_range_start ≤ a → a < s.g_range_end →
        size_to_order s (round_to_min_block s n) ≤ s.g_max_order →
        a % order_to_size s (size_to_order s (round_to_min_block s n)) = 0 →
        (free s a n).1 = PMMStatus.OK)) ∧
    free pmm128 0x2000 0 = (PMMStatus.ERR_INVALID, pmm128) ∧
    free pmm128 (pmm128.g_range_start - 1) 4096 = (PMMStatus.ERR_OUT_OF_RANGE, pmm128) ∧
    free pmm128 (pmm128.g_range_start + 1) 4096 = (PMMStatus.ERR_NOT_ALIGNED, pmm128) := by
  refine ⟨?_, by rfl, by rfl, by rfl⟩
  intro s a n
  refine ⟨?_, ?_, ?_, ?_, ?_, ?_⟩
  · intro h; simp [free, h]
  · intro hi h0; simp [free, hi, h0]
  · intro hi hn hor
    by_cases hlt : a < s.g_range_start
    · simp [free, hi, hn, hlt]
    · have hge : s.g_range_end ≤ a := by
        rcases hor with h | h
        · exact absurd h hlt
        · exact h
      simp [free, hi, hn, hlt, hge]
  · intro hi hn hs ha ho
    simp [free, hi, hn, Nat.not_lt.mpr hs, Nat.not_le.mpr ha, ho]
  · intro hi hn hs ha ho halign
    simp [free, hi, hn, Nat.not_lt.mpr hs, Nat.not_le.mpr ha, Nat.not_lt.mpr ho, halign]
  · intro hi hn hs ha ho halign
    simp only [free, hi, Bool.true_eq_false, if_false, hn, if_neg hn,
      if_neg (Nat.not_lt.mpr hs), if_neg (Nat.not_le.mpr ha), if_neg (Nat.not_lt.mpr ho)]
    rw [if_neg (by simpa using halign)]
    exact free_loop_status ..

theorem C6_witness :
    pmm128.g_inited = true ∧ free pmm128 0x4000 0 = (PMMStatus.ERR_INVALID, pmm128) :=
  ⟨by decide, (C6_free_error_ladder.1 pmm128 0x4000 0).2.1 (by decide) rfl⟩

/-- Amended C4: every misuse or OOM error of alloc, free and the two mark
operations leaves the state untouched, and so do the errors of init,
except the INVALID return taken when the aligned range is empty, which
has already overwritten g_min_block with the argument. -/
theorem init_cases (s : PMM) (a b m : Nat) :
    (init s a b m).1 = PMMStatus.OK ∨ (init s a b m).2 = s ∨
      ((init s a b m).1 = PMMStatus.ERR_INVALID ∧ align_down b m ≤ align_up a m ∧
        (init s a b m).2 = { s with g_min_block := m }) := by
  unfold init
  dsimp only
  split
  · exact Or.inr (Or.inl rfl)
  · split
    · exact Or.inr (Or.inl rfl)
    · split
      · exact Or.inr (Or.inl rfl)
      · split
        · exact Or.inr (Or.inl rfl)
        · split
          · exact Or.inr (Or.inr ⟨rfl, by assumption, rfl⟩)
          · exact Or.inl rfl

theorem C4_error_no_side_effects :
    (∀ (s : PMM) (n : Nat), (alloc s n).1 ≠ PMMStatus.OK → (alloc s n).2.2 = s) ∧
    (∀ (s : PMM) (a n : Nat), (free s a n).1 ≠ PMMStatus.OK → (free s a n).2 = s) ∧
    (∀ (s : PMM) (a b : Nat),
      (mark_reserved_range s a b).1 ≠ PMMStatus.OK → (mark_reserved_range s a b).2 = s) ∧
    (∀ (s : PMM) (a b : Nat),
      (mark_free_range s a b).1 ≠ PMMStatus.OK → (mark_free_range s a b).2 = s) ∧
    (∀ (s : PMM) (a b m : Nat), (init s a b m).1 ≠ PMMStatus.OK →
      (init s a b m).2 = s ∨
      ((init s a b m).1 = PMMStatus.ERR_INVALID ∧ align_down b m ≤ align_up a m ∧
        (init s a b m).2 = { s with g_min_block := m })) := by
  refine ⟨?_, ?_, ?_, ?_, ?_⟩
  · intro s n h; exact ((alloc_ok_or_id s n).resolve_left h).2
  · intro s a n h; exact (free_ok_or_id s a n).resolve_left h
  · intro s a b h; exact (mark_reserved_ok_or_id s a b).resolve_left h
  · intro s a b h; exact (mark_free_ok_or_id s a b).resolve_left h
  · intro s a b m h; exact (init_cases s a b m).resolve_left h

theorem C4_counterexample :
    (init PMM.new 0 7 8).1 = PMMStatus.ERR_INVALID ∧
    (init PMM.new 0 7 8).2.g_min_block = 8 ∧ PMM.new.g_min_block = 4096 := by
  refine ⟨by decide, by decide, by decide⟩

theorem C4_witness :
    (alloc PMM.new 4096).1 ≠ PMMStatus.OK ∧ (alloc PMM.new 4096).2.2 = PMM.new :=
  ⟨by decide, C4_error_no_side_effects.1 PMM.new 4096 (by decide)⟩

/-! ### Concrete traces for the scenario claims -/

/-- Run a list of allocations, collecting the returned statuses and addresses. -/
def run_allocs (s : PMM) : List Nat → List (PMMStatus × Nat) × PMM
  | [] => ([], s)
  | n :: rest =>
    let r := alloc s n
    let t := run_allocs r.2.2 rest
    ((r.1, r.2.1) :: t.1, t.2)

/-- Run a list of frees, collecting the returned statuses. -/
def run_frees (s : PMM) : List (Nat × Nat) → List PMMStatus × PMM
  | [] => ([], s)
  | (a, n) :: rest =>
    let r := free s a n
    let t := run_frees r.2 rest
    (r.1 :: t.1, t.2)

/-- The scenario of C1 at base 0: init(0x0, 0x10000, 4096). -/
def c1_init : PMM := (init PMM.new 0x0 0x10000 4096).2

def c1_allocs : List (PMMStatus × Nat) × PMM := run_allocs c1_init (List.replicate 8 4096)

def c1_free_order : List (Nat × Nat) :=
  [(0x0, 4096), (0x2000, 4096), (0x4000, 4096), (0x6000, 4096),
   (0x1000, 4096), (0x3000, 4096), (0x5000, 4096), (0x7000, 4096)]

def c1_final : PMM := (run_frees c1_allocs.2 c1_free_order).2

/-- C1 counterexample: at base 0x0 the claimed scenario does not coalesce
back to a single order 4 block at 0x0.  All eight allocations succeed at
the addresses 0x0000 .. 0x7000, all eight frees (even indices first, then
odd) return OK, yet the final freelists have an empty order 4 list and
keep fragments at orders 0, 1, 2 and 3; the block at address 0x0 was
silently dropped when another block was pushed onto a list whose head
address 0x0 is indistinguishable from the end of list link word 0. -/
theorem C1_counterexample :
    (init PMM.new 0x0 0x10000 4096).1 = PMMStatus.OK ∧
    c1_allocs.1 =
      [(PMMStatus.OK, 0x0), (PMMStatus.OK, 0x1000), (PMMStatus.OK, 0x2000),
       (PMMStatus.OK, 0x3000), (PMMStatus.OK, 0x4000), (PMMStatus.OK, 0x5000),
       (PMMStatus.OK, 0x6000), (PMMStatus.OK, 0x7000)] ∧
    (run_frees c1_allocs.2 c1_free_order).1 = List.replicate 8 PMMStatus.OK ∧
    c1_final.allocated_blocks = [] ∧
    free_list_at c1_final 4 = [] ∧
    free_list_at c1_final 0 = [0x1000] ∧
    free_list_at c1_final 1 = [0x2000] ∧
    free_list_at c1_final 2 = [0x4000] ∧
    free_list_at c1_final 3 = [0x8000] ∧
    get_free_list_state c1_final ≠ get_free_list_state c1_init := by
  refine ⟨by decide, by decide, by decide, by decide, by decide, by decide, by decide,
    by decide, by decide, by decide⟩

/-- The same scenario shifted to the nonzero base 0x10000. -/
def c1b_init : PMM := (init PMM.new 0x10000 0x20000 4096).2

def c1b_allocs : List (PMMStatus × Nat) × PMM := run_allocs c1b_init (List.replicate 8 4096)

def c1b_free_order : List (Nat × Nat) :=
  [(0x10000, 4096), (0x12000, 4096), (0x14000, 4096), (0x16000, 4096),
   (0x11000, 4096), (0x13000, 4096), (0x15000, 4096), (0x17000, 4096)]

def c1b_final : PMM := (run_frees c1b_allocs.2 c1b_free_order).2

/-- Amended C1: the coalescence completeness scenario at a nonzero base.
For init(0x10000, 0x20000, 4096), allocating eight 4096 byte blocks
(returned at 0x10000 .. 0x17000) and freeing the even indexed ones and
then the odd indexed ones returns the freelists to exactly the state
immediately after init: a single order 4 free block at 0x10000. -/
theorem C1_amended_nonzero_base :
    (init PMM.new 0x10000 0x20000 4096).1 = PMMStatus.OK ∧
    c1b_allocs.1 =
      [(PMMStatus.OK, 0x10000), (PMMStatus.OK, 0x11000), (PMMStatus.OK, 0x12000),
       (PMMStatus.OK, 0x13000), (PMMStatus.OK, 0x14000), (PMMStatus.OK, 0x15000),
       (PMMStatus.OK, 0x16000), (PMMStatus.OK, 0x17000)] ∧
    (run_frees c1b_allocs.2 c1b_free_order).1 = List.replicate 8 PMMStatus.OK ∧
    c1b_final.allocated_blocks = [] ∧
    free_list_at c1b_init 4 = [0x10000] ∧
    get_free_list_state c1b_final = get_free_list_state c1b_init ∧
    free_block_list c1b_final = [(0x10000, 0x10000)] := by
  refine ⟨by decide, by decide, by decide, by decide, by decide, by decide, by decide⟩

/-- The two block instance of the conservation counterexamples:
init(0x1000, 0x3000, 4096) manages 0x2000 bytes in one order 1 block. -/
def c2_init : PMM := (init PMM.new 0x1000 0x3000 4096).2

def c2_final : PMM := (free c2_init 0x1000 4096).2

/-- C2 counterexample: a single free call (of a block that was never
allocated, which the claim quantification admits) makes the reachable
free bytes exceed the managed span: the freed order 0 block coalesces
with the managed ranges own order 1 block image and is pushed at order 1
while the order 1 block had only been half consumed.  After the call the
freelists hold 0x3000 bytes although limit - base = 0x2000 and no live
allocation exists. -/
theorem C2_counterexample :
    (init PMM.new 0x1000 0x3000 4096).1 = PMMStatus.OK ∧
    c2_init.g_range_end - c2_init.g_range_start = 0x2000 ∧
    free_bytes c2_init = 0x2000 ∧
    (free c2_init 0x1000 4096).1 = PMMStatus.OK ∧
    live_bytes c2_final = 0 ∧
    free_bytes c2_final = 0x3000 := by
  refine ⟨by decide, by decide, by decide, by decide, by decide, by decide⟩

/-- C8 counterexample: after the same init and single free call, the
reachable free blocks are the order 0 block (0x1000, size 0x1000) and the
order 1 block (0x1000, size 0x2000), whose byte intervals overlap. -/
theorem C8_counterexample :
    (init PMM.new 0x1000 0x3000 4096).1 = PMMStatus.OK ∧
    (free c2_init 0x1000 4096).1 = PMMStatus.OK ∧
    free_block_list c2_final = [(0x1000, 0x1000), (0x1000, 0x2000)] ∧
    ¬ blk_disjoint (0x1000, 0x1000) (0x1000, 0x2000) := by
  refine ⟨by decide, by decide, by decide, by decide⟩

/-- States of the C3 counterexample. -/
def c3_res : PMM := (mark_reserved_range pmm128 0x5000 0x7000).2

def c3_freed : PMM := (free c3_res 0x5000 4096).2

/-- C3 counterexample: after init(0x1000, 0x21000, 4096) and a successful
mark_reserved_range(0x5000, 0x7000), a free call into the reserved range
(not matching any live allocation, which the claim quantification admits)
re-publishes reserved memory, and the next alloc(4096) returns 0x5000,
whose block [0x5000, 0x6000) lies inside the reserved [0x5000, 0x7000). -/
theorem C3_counterexample :
    (init PMM.new 0x1000 0x21000 4096).1 = PMMStatus.OK ∧
    (mark_reserved_range pmm128 0x5000 0x7000).1 = PMMStatus.OK ∧
    (free c3_res 0x5000 4096).1 = PMMStatus.OK ∧
    (alloc c3_freed 4096).1 = PMMStatus.OK ∧
    (alloc c3_freed 4096).2.1 = 0x5000 ∧
    round_to_min_block c3_freed 4096 = 0x1000 ∧
    ¬ blk_disjoint (0x5000, 0x1000) (0x5000, 0x2000) := by
  refine ⟨by decide, by decide, by decide, by decide, by decide, by decide, by decide⟩

/-! ### init: validation and postcondition (C5) -/

/-- The bitwise power of two test of the source agrees with the
mathematical notion. -/
theorem is_pow2_u64_iff (x : Nat) : is_pow2_u64 x = true ↔ ∃ k, x = 2 ^ k := by
  constructor
  · intro h
    simp only [is_pow2_u64, Bool.and_eq_true, bne_iff_ne, beq_iff_eq, ne_eq] at h
    obtain ⟨hx, hand⟩ := h
    refine ⟨x.log2, ?_⟩
    have h1 : 2 ^ x.log2 ≤ x := Nat.log2_self_le hx
    have h2 : x < 2 ^ (x.log2 + 1) := Nat.lt_log2_self
    rw [pow_succ] at h2
    by_contra hne
    have ht1 : x.testBit x.log2 = true := by
      rw [Nat.testBit_to_div_mod]
      have hd : x / 2 ^ x.log2 = 1 := Nat.div_eq_of_lt_le (by omega) (by omega)
      simp [hd]
    have ht2 : (x - 1).testBit x.log2 = true := by
      rw [Nat.testBit_to_div_mod]
      have hgt : 2 ^ x.log2 < x := by
        rcases Nat.lt_or_ge (2 ^ x.log2) x with h | h
        · exact h
        · exact absurd (Nat.le_antisymm h1 h).symm hne
      have hd : (x - 1) / 2 ^ x.log2 = 1 := Nat.div_eq_of_lt_le (by omega) (by omega)
      simp [hd]
    have hb : (x &&& (x - 1)).testBit x.log2 = true := by
      rw [Nat.testBit_land, ht1, ht2]
      rfl
    rw [hand, Nat.zero_testBit] at hb
    exact Bool.false_ne_true hb
  · rintro ⟨k, rfl⟩
    simp only [is_pow2_u64, Bool.and_eq_true, bne_iff_ne, beq_iff_eq, ne_eq]
    refine ⟨(Nat.two_pow_pos k).ne', ?_⟩
    · apply Nat.eq_of_testBit_eq
      intro i
      rw [Nat.testBit_land, Nat.zero_testBit, Nat.testBit_two_pow,
        Nat.testBit_two_pow_sub_one]
      by_cases h : k = i
      · subst h; simp
      · simp [h]

/-- The max order computed by init from the aligned range. -/
def init_max_order (a b m : Nat) : Nat :=
  let blocks := (align_down b m - align_up a m) / m
  let m0 := max_order_loop blocks blocks
  if PMM_MAX_ORDERS ≤ m0 then PMM_MAX_ORDERS - 1 else m0

/-- The state from which a successful init runs the greedy partition:
parameters recorded, freelists, link words and allocation tracking
cleared. -/
def init_cleared (s : PMM) (a b m : Nat) : PMM :=
  { s with
    g_inited := false
    g_min_block := m
    g_range_start := align_up a m
    g_range_end := align_down b m
    g_max_order := init_max_order a b m
    g_order_count := init_max_order a b m + 1
    g_free_heads := fun _ => none
    memory_state := fun _ => 0
    allocated_blocks := [] }

/-- C5: init validation and postcondition.  ALREADY_INIT when initialized;
for an uninitialized state, INVALID exactly for the five listed argument
defects (checking them in order); otherwise OK with the recorded aligned
bounds and the freelists produced by the greedy partition of the aligned
range; and the one block short range init(a, a + m - 1, m) always fails
INVALID on an uninitialized state. -/
theorem C5_init_spec :
    (∀ (s : PMM) (a b m : Nat), s.g_inited = true →
      init s a b m = (PMMStatus.ERR_ALREADY_INIT, s)) ∧
    (∀ (s : PMM) (a b m : Nat), s.g_inited = false →
      ((init s a b m).1 = PMMStatus.ERR_INVALID ↔
        (b ≤ a ∨ m = 0 ∨ (¬ ∃ k, m = 2 ^ k) ∨ m < 8 ∨ align_down b m ≤ align_up a m))) ∧
    (∀ (s : PMM) (a b m : Nat), s.g_inited = false →
      ¬ (b ≤ a ∨ m = 0 ∨ (¬ ∃ k, m = 2 ^ k) ∨ m < 8 ∨ align_down b m ≤ align_up a m) →
      (init s a b m).1 = PMMStatus.OK ∧
      (init s a b m).2.g_inited = true ∧
      (init s a b m).2.g_range_start = align_up a m ∧
      (init s a b m).2.g_range_end = align_down b m ∧
      (init s a b m).2.g_min_block = m ∧
      (init s a b m).2.allocated_blocks = [] ∧
      (init s a b m).2.g_free_heads =
        (partition_range_into_blocks (init_cleared s a b m) (align_up a m)
          (align_down b m)).g_free_heads ∧
      (init s a b m).2.memory_state =
        (partition_range_into_blocks (init_cleared s a b m) (align_up a m)
          (align_down b m)).memory_state) ∧
    (∀ (s : PMM) (a m : Nat), s.g_inited = false →
      (init s a (a + m - 1) m).1 = PMMStatus.ERR_INVALID) := by
  refine ⟨?_, ?_, ?_, ?_⟩
  · intro s a b m hi
    simp [init, hi]
  · intro s a b m hi
    constructor
    · intro h
      by_contra hall
      push_neg at hall
      obtain ⟨h1, h2, h3, h4, h5⟩ := hall
      have hp : is_pow2_u64 m = true := (is_pow2_u64_iff m).mpr h3
      simp [init, hi, Nat.not_le.mpr h1, h2, hp, Nat.not_lt.mpr h4, Nat.not_le.mpr h5] at h
    · intro h
      by_cases h1 : b ≤ a
      · simp [init, hi, h1]
      by_cases hm : m = 0 ∨ is_pow2_u64 m = false
      · simp only [init, hi, Bool.false_eq_true, if_false, if_neg h1, if_pos hm]
      by_cases h4 : m < 8
      · simp [init, hi, h1, hm, h4]
      have h5 : align_down b m ≤ align_up a m := by
        rcases h with h | h | h | h | h
        · exact absurd h h1
        · exact absurd (Or.inl h) hm
        · exfalso
          apply h
          refine (is_pow2_u64_iff m).mp ?_
          rcases Bool.eq_false_or_eq_true (is_pow2_u64 m) with ht | hf
          · exact ht
          · exact absurd (Or.inr hf) hm
        · exact absurd h h4
        · exact h
      simp [init, hi, h1, hm, h4, h5]
  · intro s a b m hi hall
    push_neg at hall
    obtain ⟨h1, h2, h3, h4, h5⟩ := hall
    have hp : is_pow2_u64 m = true := (is_pow2_u64_iff m).mpr h3
    simp only [init, hi, Bool.false_eq_true, if_false, if_neg (Nat.not_le.mpr h1),
      if_neg (by simp [h2, hp] : ¬ (m = 0 ∨ is_pow2_u64 m = false)),
      if_neg (Nat.not_lt.mpr h4)]
    rw [if_neg (Nat.not_le.mpr h5)]
    have hP := freelistOnly_partition (init_cleared s a b m) (align_up a m) (align_down b m)
    exact ⟨rfl, rfl, hP.rstart, hP.rend, hP.minb, hP.alloc, rfl, rfl⟩
  · intro s a m hi
    by_cases h1 : a + m - 1 ≤ a
    · simp [init, hi, h1]
    by_cases hm : m = 0 ∨ is_pow2_u64 m = false
    · simp only [init, hi, Bool.false_eq_true, if_false, if_neg h1, if_pos hm]
    by_cases h4 : m < 8
    · simp [init, hi, h1, hm, h4]
    have h5 : align_down (a + m - 1) m ≤ align_up a m := by
      unfold align_down align_up
      exact Nat.le_refl _
    simp [init, hi, h1, hm, h4, h5]

theorem C5_witness :
    PMM.new.g_inited = false ∧
    (init PMM.new 0x1000 0x21000 4096).1 = PMMStatus.OK ∧
    (init PMM.new 0x1000 0x21000 4096).2.g_range_start = align_up 0x1000 4096 :=
  ⟨rfl,
    ((C5_init_spec.2.2.1 PMM.new 0x1000 0x21000 4096 rfl
      (by
        push_neg
        exact ⟨by norm_num, by norm_num, ⟨12, by norm_num⟩, by norm_num, by decide⟩)).1),
    ((C5_init_spec.2.2.1 PMM.new 0x1000 0x21000 4096 rfl
      (by
        push_neg
        exact ⟨by norm_num, by norm_num, ⟨12, by norm_num⟩, by norm_num, by decide⟩)).2.2.1)⟩

/-! ### alloc: find and split characterization (C7) -/

theorem set_head_heads (s : PMM) (o : Nat) (v : Option Nat) (j : Nat) :
    (set_head s o v).g_free_heads j = if j = o then v else s.g_free_heads j := rfl

theorem push_head_heads (s : PMM) (o b j : Nat) :
    (push_head s o b).g_free_heads j = if j = o then some b else s.g_free_heads j := rfl

theorem write_next_word_mem (s : PMM) (b v a : Nat) :
    (write_next_word s b v).memory_state a = if a = b then v else s.memory_state a := rfl

theorem find_go_gt (s : PMM) (gmax : Nat) :
    ∀ (fuel o : Nat), gmax + 1 ≤ fuel + o →
      (∀ j, o ≤ j → j ≤ gmax → s.g_free_heads j = none) →
      gmax < find_nonempty_go s gmax fuel o := by
  intro fuel
  induction fuel with
  | zero =>
    intro o hle _
    simp only [find_nonempty_go]
    omega
  | succ fuel ih =>
    intro o hle hall
    simp only [find_nonempty_go]
    split
    next ho =>
      rw [hall o le_rfl ho]
      exact ih (o + 1) (by omega) (fun j hj1 hj2 => hall j (by omega) hj2)
    next ho => omega

theorem find_go_least (s : PMM) (gmax : Nat) :
    ∀ (fuel o k : Nat), o ≤ k → k ≤ gmax → s.g_free_heads k ≠ none →
      (∀ j, o ≤ j → j < k → s.g_free_heads j = none) →
      gmax + 1 ≤ fuel + o →
      find_nonempty_go s gmax fuel o = k := by
  intro fuel
  induction fuel with
  | zero =>
    intro o k h1 h2 _ _ h5
    omega
  | succ fuel ih =>
    intro o k h1 h2 hk hall hle
    simp only [find_nonempty_go]
    rw [if_pos (by omega : o ≤ gmax)]
    by_cases heq : o = k
    · subst heq
      cases hh : s.g_free_heads o with
      | none => exact absurd hh hk
      | some v => rfl
    · have hnone : s.g_free_heads o = none := hall o le_rfl (by omega)
      rw [hnone]
      exact ih (o + 1) k (by omega) h2 hk (fun j hj1 hj2 => hall j (by omega) hj2) (by omega)

theorem split_down_heads (a req : Nat) :
    ∀ (k : Nat) (s : PMM), req ≤ k → ∀ (j : Nat),
      (split_down s a req k).g_free_heads j =
        if req ≤ j ∧ j < k then some (a + order_to_size s j) else s.g_free_heads j := by
  intro k
  induction k with
  | zero =>
    intro s _ j
    simp only [split_down]
    rw [if_neg (by omega : ¬ (req ≤ j ∧ j < 0))]
  | succ k ih =>
    intro s hreq j
    simp only [split_down]
    by_cases hr : req < k + 1
    · rw [if_pos hr]
      rw [ih (push_head s k (a + order_to_size s k)) (by omega) j]
      rw [push_head_heads]
      by_cases hj : j = k
      · subst hj
        rw [if_neg (by omega : ¬ (req ≤ j ∧ j < j)), if_pos rfl,
          if_pos (⟨by omega, by omega⟩ : req ≤ j ∧ j < j + 1)]
      · rw [if_neg hj]
        by_cases h2 : req ≤ j ∧ j < k
        · rw [if_pos h2, if_pos (⟨h2.1, by omega⟩ : req ≤ j ∧ j < k + 1)]
          rfl
        · rw [if_neg h2, if_neg (by omega : ¬ (req ≤ j ∧ j < k + 1))]
    · rw [if_neg hr, if_neg (by omega : ¬ (req ≤ j ∧ j < k + 1))]

/-- The concrete state of the first scenario: init(0x0, 0x8000, 4096). -/
def c7_init : PMM := (init PMM.new 0x0 0x8000 4096).2

/-- C7: the find and split behaviour of alloc on any initialized state.
If every freelist from the requested order up to g_max_order is empty the
call fails OOM without touching the state.  Otherwise, with k the first
non empty order at or above the requested order o and a the head of F[k],
alloc returns OK with address a, the link word of a is cleared, each
order j in [o, k) gains the upper half a + S(j) as its new head, F[k]
loses its head, and every other freelist is untouched.  Concretely, after
init(0x0, 0x8000, 4096) the first alloc(4096) returns 0x0000 and the
second returns 0x1000. -/
theorem C7_alloc_find_and_split :
    (∀ (s : PMM) (n : Nat), s.g_inited = true → n ≠ 0 →
      (∀ k, size_to_order s (round_to_min_block s n) ≤ k → k ≤ s.g_max_order →
        s.g_free_heads k = none) →
      alloc s n = (PMMStatus.ERR_OOM, 0, s)) ∧
    (∀ (s : PMM) (n k a : Nat), s.g_inited = true → n ≠ 0 →
      size_to_order s (round_to_min_block s n) ≤ k → k ≤ s.g_max_order →
      s.g_free_heads k = some a →
      (∀ j, size_to_order s (round_to_min_block s n) ≤ j → j < k →
        s.g_free_heads j = none) →
      (alloc s n).1 = PMMStatus.OK ∧ (alloc s n).2.1 = a ∧
      (alloc s n).2.2.memory_state a = 0 ∧
      (∀ j, (alloc s n).2.2.g_free_heads j =
        if size_to_order s (round_to_min_block s n) ≤ j ∧ j < k then
          some (a + order_to_size s j)
        else if j = k then
          (if s.memory_state a ≠ 0 then some (s.memory_state a) else none)
        else s.g_free_heads j)) ∧
    (alloc c7_init 4096).1 = PMMStatus.OK ∧ (alloc c7_init 4096).2.1 = 0x0 ∧
    (alloc (alloc c7_init 4096).2.2 4096).1 = PMMStatus.OK ∧
    (alloc (alloc c7_init 4096).2.2 4096).2.1 = 0x1000 := by
  refine ⟨?_, ?_, by decide, by decide, by decide, by decide⟩
  · intro s n hi hn hall
    by_cases ho : s.g_max_order < size_to_order s (round_to_min_block s n)
    · simp [alloc, hi, hn, ho]
    · simp only [alloc, hi, Bool.false_eq_true, if_false, if_neg hn, if_neg ho]
      unfold alloc_block_of_order
      rw [hi]
      simp only [Bool.true_eq_false, if_false]
      rw [if_neg ho]
      have hgt : s.g_max_order < find_nonempty s s.g_max_order
          (size_to_order s (round_to_min_block s n)) :=
        find_go_gt s s.g_max_order _ _ (by omega) hall
      rw [if_pos hgt]
  · intro s n k a hi hn hok hkmax hk hleast
    have ho : ¬ s.g_max_order < size_to_order s (round_to_min_block s n) := by omega
    have hfind : find_nonempty s s.g_max_order (size_to_order s (round_to_min_block s n)) = k :=
      find_go_least s s.g_max_order _ _ k hok hkmax (by rw [hk]; exact Option.some_ne_none a)
        hleast (by omega)
    simp only [alloc, hi, Bool.false_eq_true, if_false, if_neg hn, if_neg ho]
    unfold alloc_block_of_order
    rw [hi]
    simp only [Bool.true_eq_false, if_false]
    rw [if_neg ho, hfind, if_neg (by omega : ¬ s.g_max_order < k), pop_head_some hk]
    refine ⟨rfl, rfl, by simp [write_next_word], ?_⟩
    intro j
    have hsplit := split_down_heads a (size_to_order s (round_to_min_block s n)) k
      (write_next_word
        (set_head s k (if read_next_word s a ≠ 0 then some (read_next_word s a) else none))
        a 0) hok j
    calc (split_down
        (write_next_word
          (set_head s k (if read_next_word s a ≠ 0 then some (read_next_word s a) else none))
          a 0) a (size_to_order s (round_to_min_block s n)) k).g_free_heads j
        = _ := hsplit
      _ = if size_to_order s (round_to_min_block s n) ≤ j ∧ j < k then
            some (a + order_to_size s j)
          else if j = k then
            (if s.memory_state a ≠ 0 then some (s.memory_state a) else none)
          else s.g_free_heads j := by
        have hw : (write_next_word
            (set_head s k (if read_next_word s a ≠ 0 then some (read_next_word s a) else none))
            a 0).g_free_heads j =
            if j = k then (if read_next_word s a ≠ 0 then some (read_next_word s a) else none)
            else s.g_free_heads j := rfl
        rw [hw]
        by_cases h1 : size_to_order s (round_to_min_block s n) ≤ j ∧ j < k
        · rw [if_pos h1, if_pos h1]
          rfl
        · rw [if_neg h1, if_neg h1]
          by_cases hj : j = k
          · rw [if_pos hj, if_pos hj]
            rfl
          · rw [if_neg hj, if_neg hj]

theorem C7_witness :
    c7_init.g_inited = true ∧ c7_init.g_free_heads 3 = some 0 ∧
    (alloc c7_init 4096).1 = PMMStatus.OK ∧ (alloc c7_init 4096).2.1 = 0 :=
  ⟨by decide, by decide,
    (C7_alloc_find_and_split.2.1 c7_init 4096 3 0 (by decide) (by decide) (by decide)
      (by decide) (by decide) (fun j _ hj => by interval_cases j <;> decide)).1,
    (C7_alloc_find_and_split.2.1 c7_init 4096 3 0 (by decide) (by decide) (by decide)
      (by decide) (by decide) (fun j _ hj => by interval_cases j <;> decide)).2.1⟩

/-! ### The structural invariant of reachable freelist states

The abstraction: a family L of per order block lists, linked to the
concrete state by the chain representation predicate below.  All the
invariant lemmas are stated for regions with positive base, where no
block address can collide with the 0 end of list sentinel. -/

/-- The walk from head through the link words mem reads exactly the list
l: a some head is the first element, the link word of each element leads
to the next one, and the link word 0 of the last element ends the walk. -/
def ChainRepr (mem : Nat → Nat) : Option Nat → List Nat → Prop
  | none, [] => True
  | none, _ :: _ => False
  | some _, [] => False
  | some h, x :: l => h = x ∧ ChainRepr mem (if mem x = 0 then none else some (mem x)) l

theorem ChainRepr_none {mem : Nat → Nat} {l : List Nat}
    (h : ChainRepr mem none l) : l = [] := by
  cases l with
  | nil => rfl
  | cons x t => exact absurd h (by simp [ChainRepr])

theorem ChainRepr_some {mem : Nat → Nat} {h0 : Nat} {l : List Nat}
    (h : ChainRepr mem (some h0) l) :
    ∃ t, l = h0 :: t ∧ ChainRepr mem (if mem h0 = 0 then none else some (mem h0)) t := by
  cases l with
  | nil => exact absurd h (by simp [ChainRepr])
  | cons x t =>
    obtain ⟨h1, h2⟩ := h
    subst h1
    exact ⟨t, rfl, h2⟩

/-- The chain representation only reads the link words of its own
elements. -/
theorem ChainRepr_congr {mem mem' : Nat → Nat} :
    ∀ {l : List Nat} {head : Option Nat}, ChainRepr mem head l →
      (∀ x ∈ l, mem' x = mem x) → ChainRepr mem' head l := by
  intro l
  induction l with
  | nil => intro head h _; cases head with
    | none => trivial
    | some v => exact absurd h (by simp [ChainRepr])
  | cons x t ih =>
    intro head h hag
    cases head with
    | none => exact absurd h (by simp [ChainRepr])
    | some v =>
      obtain ⟨h1, h2⟩ := h
      refine ⟨h1, ?_⟩
      rw [hag x (List.mem_cons_self x t)]
      exact ih h2 (fun y hy => hag y (List.mem_cons_of_mem x hy))

/-- With fuel exceeding the length, the fueled walk reads exactly the
represented list. -/
theorem walk_chain_eq (s : PMM) :
    ∀ (l : List Nat) (head : Option Nat) (fuel : Nat),
      ChainRepr s.memory_state head l → l.length < fuel →
      walk_chain s head fuel = l := by
  intro l
  induction l with
  | nil =>
    intro head fuel h hf
    cases head with
    | none =>
      cases fuel with
      | zero => rfl
      | succ fuel => rfl
    | some v => exact absurd h (by simp [ChainRepr])
  | cons x t ih =>
    intro head fuel h hf
    cases head with
    | none => exact absurd h (by simp [ChainRepr])
    | some v =>
      obtain ⟨h1, h2⟩ := h
      cases fuel with
      | zero => omega
      | succ fuel =>
        simp only [walk_chain, read_next_word]
        rw [h1]
        have hite : (if s.memory_state x ≠ 0 then some (s.memory_state x) else none) =
            (if s.memory_state x = 0 then none else some (s.memory_state x)) := by
          by_cases hz : s.memory_state x = 0 <;> simp [hz]
        rw [hite]
        rw [ih _ fuel h2 (by simpa using hf)]

/-- Pointwise update of the per order list family. -/
def upd (L : Nat → List Nat) (o : Nat) (l : List Nat) : Nat → List Nat :=
  fun o2 => if o2 = o then l else L o2

theorem upd_same (L : Nat → List Nat) (o : Nat) (l : List Nat) : upd L o l o = l := by
  simp [upd]

theorem upd_other (L : Nat → List Nat) (o : Nat) (l : List Nat) {o2 : Nat} (h : o2 ≠ o) :
    upd L o l o2 = L o2 := by
  simp [upd, h]

/-- The blocks of one order as address and size pairs. -/
def blocks_at (B : Nat) (L : Nat → List Nat) (o : Nat) : List (Nat × Nat) :=
  (L o).map (fun b => (b, B <<< o))

/-- All abstract free blocks, orders 0 to 31. -/
def abs_blocks (B : Nat) (L : Nat → List Nat) : List (Nat × Nat) :=
  (List.range PMM_MAX_ORDERS).flatMap (blocks_at B L)

/-- All abstract free blocks together with the live allocations. -/
def all_blocks (B : Nat) (L : Nat → List Nat) (alloc : List (Nat × Nat)) :
    List (Nat × Nat) :=
  abs_blocks B L ++ alloc

/-- Decomposition of the order range at one order. -/
theorem range32_split {o : Nat} (ho : o < PMM_MAX_ORDERS) :
    List.range PMM_MAX_ORDERS =
      List.range o ++ o :: List.range' (o + 1) (PMM_MAX_ORDERS - (o + 1)) := by
  rw [List.range_eq_range', List.range_eq_range']
  have h1 : o :: List.range' (o + 1) (PMM_MAX_ORDERS - (o + 1)) =
      List.range' o (PMM_MAX_ORDERS - o) := by
    have h2 : PMM_MAX_ORDERS - o = (PMM_MAX_ORDERS - (o + 1)) + 1 := by
      unfold PMM_MAX_ORDERS at *
      omega
    rw [h2, List.range'_succ]
  rw [h1]
  have h3 := List.range'_append 0 o (PMM_MAX_ORDERS - o) 1
  simp only [Nat.zero_add, Nat.one_mul] at h3
  rw [h3]
  congr 1
  unfold PMM_MAX_ORDERS at *
  omega

theorem abs_blocks_split {B : Nat} {L : Nat → List Nat} {o : Nat} (ho : o < PMM_MAX_ORDERS) :
    abs_blocks B L =
      (List.range o).flatMap (blocks_at B L) ++ blocks_at B L o ++
        (List.range' (o + 1) (PMM_MAX_ORDERS - (o + 1))).flatMap (blocks_at B L) := by
  rw [abs_blocks, range32_split ho]
  simp [List.flatMap_append, List.flatMap_cons, List.append_assoc]

/-- Updating one order only changes the middle piece of the split. -/
theorem abs_blocks_upd {B : Nat} {L : Nat → List Nat} {o : Nat} (l : List Nat)
    (ho : o < PMM_MAX_ORDERS) :
    abs_blocks B (upd L o l) =
      (List.range o).flatMap (blocks_at B L) ++ (l.map (fun b => (b, B <<< o))) ++
        (List.range' (o + 1) (PMM_MAX_ORDERS - (o + 1))).flatMap (blocks_at B L) := by
  rw [abs_blocks_split (B := B) (L := upd L o l) ho]
  have h1 : (List.range o).flatMap (blocks_at B (upd L o l)) =
      (List.range o).flatMap (blocks_at B L) := by
    apply List.flatMap_congr
    intro x hx
    have : x ≠ o := by have := List.mem_range.mp hx; omega
    simp [blocks_at, upd, this]
  have h2 : (List.range' (o + 1) (PMM_MAX_ORDERS - (o + 1))).flatMap (blocks_at B (upd L o l)) =
      (List.range' (o + 1) (PMM_MAX_ORDERS - (o + 1))).flatMap (blocks_at B L) := by
    apply List.flatMap_congr
    intro x hx
    have hx2 := List.mem_range'.mp hx
    have : x ≠ o := by omega
    simp [blocks_at, upd, this]
  rw [h1, h2]
  simp [blocks_at, upd_same]

theorem blk_disjoint_symm : ∀ {p q : Nat × Nat}, blk_disjoint p q → blk_disjoint q p := by
  intro p q h
  unfold blk_disjoint at *
  omega

/-- The structural invariant tying a state with positive base to its
per order abstraction L: the chains represent the lists, orders above
g_max_order are empty, and all blocks (free and live) lie in the managed
range, are min_block aligned, carry power of two block sizes of order at
most g_max_order, and are pairwise disjoint. -/
structure PMMInv (s : PMM) (L : Nat → List Nat) : Prop where
  base_pos : 0 < s.g_range_start
  maxlt : s.g_max_order < PMM_MAX_ORDERS
  pow2B : ∃ m, s.g_min_block = 2 ^ m
  baseAl : s.g_min_block ∣ s.g_range_start
  limitAl : s.g_min_block ∣ s.g_range_end
  chains : ∀ o, ChainRepr s.memory_state (s.g_free_heads o) (L o)
  hi_empty : ∀ o, s.g_max_order < o → L o = []
  fit : ∀ p ∈ all_blocks s.g_min_block L s.allocated_blocks,
      s.g_range_start ≤ p.1 ∧ p.1 + p.2 ≤ s.g_range_end ∧ s.g_min_block ∣ p.1 ∧
      ∃ o, o ≤ s.g_max_order ∧ p.2 = s.g_min_block <<< o
  disj : (all_blocks s.g_min_block L s.allocated_blocks).Pairwise blk_disjoint

theorem PMMInv.Bpos {s : PMM} {L : Nat → List Nat} (h : PMMInv s L) : 0 < s.g_min_block := by
  obtain ⟨m, hm⟩ := h.pow2B
  rw [hm]
  exact Nat.two_pow_pos m

theorem size_pos {B : Nat} (hB : 0 < B) (o : Nat) : 0 < B <<< o := by
  rw [Nat.shiftLeft_eq]
  exact Nat.mul_pos hB (Nat.two_pow_pos o)

theorem PMMInv.order_le {s : PMM} {L : Nat → List Nat} (h : PMMInv s L) {o x : Nat}
    (hx : x ∈ L o) : o ≤ s.g_max_order := by
  by_contra hc
  rw [h.hi_empty o (by omega)] at hx
  exact absurd hx (List.not_mem_nil x)

theorem mem_abs_blocks {B : Nat} {L : Nat → List Nat} {o x : Nat}
    (ho : o < PMM_MAX_ORDERS) (hx : x ∈ L o) : (x, B <<< o) ∈ abs_blocks B L := by
  rw [abs_blocks_split ho]
  simp only [List.mem_append]
  refine Or.inl (Or.inr ?_)
  exact List.mem_map.mpr ⟨x, hx, rfl⟩

theorem PMMInv.mem_all {s : PMM} {L : Nat → List Nat} (h : PMMInv s L) {o x : Nat}
    (hx : x ∈ L o) :
    (x, s.g_min_block <<< o) ∈ all_blocks s.g_min_block L s.allocated_blocks := by
  have ho : o < PMM_MAX_ORDERS := by
    have h1 := h.order_le hx
    have h2 := h.maxlt
    omega
  exact List.mem_append.mpr (Or.inl (mem_abs_blocks ho hx))

/-- Every abstract free block comes from some order list. -/
theorem mem_abs_blocks_elim {B : Nat} {L : Nat → List Nat} {p : Nat × Nat}
    (hp : p ∈ abs_blocks B L) :
    ∃ o, o < PMM_MAX_ORDERS ∧ p.1 ∈ L o ∧ p.2 = B <<< o := by
  unfold abs_blocks at hp
  rw [List.mem_flatMap] at hp
  obtain ⟨o, ho, hmem⟩ := hp
  rw [List.mem_range] at ho
  unfold blocks_at at hmem
  rw [List.mem_map] at hmem
  obtain ⟨b, hb, hbe⟩ := hmem
  exact ⟨o, ho, by rw [← hbe]; exact hb, by rw [← hbe]⟩

/-- Block addresses are pairwise distinct (sizes are positive). -/
theorem PMMInv.addr_ne {s : PMM} {L : Nat → List Nat} (h : PMMInv s L) :
    (all_blocks s.g_min_block L s.allocated_blocks).Pairwise
      (fun p q => p.1 ≠ q.1) := by
  refine List.Pairwise.imp_of_mem ?_ h.disj
  intro p q hp hq hd
  obtain ⟨_, _, _, op, hop, hps⟩ := h.fit p hp
  obtain ⟨_, _, _, oq, hoq, hqs⟩ := h.fit q hq
  have h1 : 0 < p.2 := by rw [hps]; exact size_pos h.Bpos op
  have h2 : 0 < q.2 := by rw [hqs]; exact size_pos h.Bpos oq
  unfold blk_disjoint at hd
  omega

theorem blocks_at_sublist {B : Nat} {L : Nat → List Nat} (alloc : List (Nat × Nat))
    {o : Nat} (ho : o < PMM_MAX_ORDERS) :
    (blocks_at B L o).Sublist (all_blocks B L alloc) := by
  unfold all_blocks
  refine List.Sublist.trans ?_ (List.sublist_append_left _ _)
  rw [abs_blocks_split ho]
  exact ((List.sublist_append_right _ _).trans (List.sublist_append_left _ _))

/-- Each order list has no duplicates. -/
theorem PMMInv.nodup_at {s : PMM} {L : Nat → List Nat} (h : PMMInv s L) (o : Nat) :
    (L o).Nodup := by
  by_cases ho : o ≤ s.g_max_order
  · have ho2 : o < PMM_MAX_ORDERS := by have := h.maxlt; omega
    have hp : (blocks_at s.g_min_block L o).Pairwise (fun p q => p.1 ≠ q.1) :=
      List.Pairwise.sublist (blocks_at_sublist s.allocated_blocks ho2) h.addr_ne
    unfold blocks_at at hp
    rw [List.pairwise_map] at hp
    exact List.Pairwise.imp (fun hne => hne) hp
  · rw [h.hi_empty o (by omega)]
    exact List.nodup_nil

/-- The head of a freelist of a state with positive base is never the
sentinel address 0. -/
theorem PMMInv.head_ne_zero {s : PMM} {L : Nat → List Nat} (h : PMMInv s L) {o x : Nat}
    (hx : x ∈ L o) : x ≠ 0 := by
  have h1 := (h.fit _ (h.mem_all hx)).1
  have h2 := h.base_pos
  omega

theorem ite_ne_zero_comm (v : Nat) :
    (if v ≠ 0 then some v else none) = (if v = 0 then none else some v) := by
  by_cases h : v = 0 <;> simp [h]

theorem mem_abs_post {B : Nat} {L : Nat → List Nat} {o o' x : Nat}
    (h1 : o < o') (h2 : o' < PMM_MAX_ORDERS) (hx : x ∈ L o') :
    (x, B <<< o') ∈
      (List.range' (o + 1) (PMM_MAX_ORDERS - (o + 1))).flatMap (blocks_at B L) := by
  rw [List.mem_flatMap]
  refine ⟨o', ?_, List.mem_map.mpr ⟨x, hx, rfl⟩⟩
  rw [List.mem_range']
  exact ⟨o' - (o + 1), by omega, by omega⟩

/-- The same address cannot sit on two different order lists. -/
theorem PMMInv.cross_order {s : PMM} {L : Nat → List Nat} (h : PMMInv s L)
    {o o' x : Nat} (hx : x ∈ L o) (hx' : x ∈ L o') (hne : o ≠ o') : False := by
  have hwlog : ∀ (a b : Nat), a < b → x ∈ L a → x ∈ L b → False := by
    intro a b hab hxa hxb
    have hb32 : b < PMM_MAX_ORDERS := by
      have h1 := h.order_le hxb
      have h2 := h.maxlt
      omega
    have ha32 : a < PMM_MAX_ORDERS := by omega
    have hd := h.disj
    unfold all_blocks at hd
    rw [abs_blocks_split (B := s.g_min_block) (L := L) ha32] at hd
    rw [List.append_assoc, List.pairwise_append] at hd
    obtain ⟨_, _, hrel⟩ := hd
    have hmem1 : (x, s.g_min_block <<< a) ∈
        (List.range a).flatMap (blocks_at s.g_min_block L) ++ blocks_at s.g_min_block L a := by
      rw [List.mem_append]
      exact Or.inr (List.mem_map.mpr ⟨x, hxa, rfl⟩)
    have hmem2 : (x, s.g_min_block <<< b) ∈
        (List.range' (a + 1) (PMM_MAX_ORDERS - (a + 1))).flatMap (blocks_at s.g_min_block L) ++
          s.allocated_blocks := by
      rw [List.mem_append]
      exact Or.inl (mem_abs_post hab hb32 hxb)
    have hdis := hrel _ hmem1 _ hmem2
    unfold blk_disjoint at hdis
    have hp1 : 0 < s.g_min_block <<< a := size_pos h.Bpos a
    have hp2 : 0 < s.g_min_block <<< b := size_pos h.Bpos b
    simp only at hdis
    omega
  rcases Nat.lt_or_ge o o' with hlt | hge
  · exact hwlog o o' hlt hx hx'
  · exact hwlog o' o (by omega) hx' hx

/-- A fresh address (one disjoint from every block) is on no order list. -/
theorem PMMInv.fresh {s : PMM} {L : Nat → List Nat} (h : PMMInv s L) {b sz : Nat}
    (hsz : 0 < sz)
    (hdisj : ∀ q ∈ all_blocks s.g_min_block L s.allocated_blocks, blk_disjoint (b, sz) q) :
    ∀ o, b ∉ L o := by
  intro o hb
  have hq := hdisj _ (h.mem_all hb)
  have hp : 0 < s.g_min_block <<< o := size_pos h.Bpos o
  unfold blk_disjoint at hq
  simp only at hq
  omega

/-- The permutation produced by prepending a block to one order list. -/
theorem all_blocks_cons_perm {B : Nat} {L : Nat → List Nat} (alloc : List (Nat × Nat))
    {o : Nat} (b : Nat) (ho : o < PMM_MAX_ORDERS) :
    (all_blocks B (upd L o (b :: L o)) alloc).Perm
      ((b, B <<< o) :: all_blocks B L alloc) := by
  unfold all_blocks
  rw [abs_blocks_upd _ ho, abs_blocks_split (B := B) (L := L) ho]
  simp only [List.map_cons, List.cons_append, List.append_assoc]
  exact List.perm_middle

/-- Pushing a fresh, in range, aligned block of order at most g_max_order
preserves the invariant, prepending the block to its order list. -/
theorem push_head_inv {s : PMM} {L : Nat → List Nat} (h : PMMInv s L) {o b : Nat}
    (ho : o ≤ s.g_max_order)
    (hlo : s.g_range_start ≤ b) (hhi : b + s.g_min_block <<< o ≤ s.g_range_end)
    (hal : s.g_min_block ∣ b)
    (hdisj : ∀ q ∈ all_blocks s.g_min_block L s.allocated_blocks,
      blk_disjoint (b, s.g_min_block <<< o) q) :
    PMMInv (push_head s o b) (upd L o (b :: L o)) := by
  have ho32 : o < PMM_MAX_ORDERS := by have := h.maxlt; omega
  have hfresh : ∀ o', b ∉ L o' :=
    h.fresh (size_pos h.Bpos o) hdisj
  have hperm := all_blocks_cons_perm (B := s.g_min_block) (L := L) s.allocated_blocks b ho32
  refine ⟨h.base_pos, h.maxlt, h.pow2B, h.baseAl, h.limitAl, ?_, ?_, ?_, ?_⟩
  · intro o'
    by_cases heq : o' = o
    · subst heq
      rw [upd_same]
      have hhead : (push_head s o' b).g_free_heads o' = some b := by
        rw [push_head_heads, if_pos rfl]
      rw [hhead]
      refine ⟨rfl, ?_⟩
      have hmem : (push_head s o' b).memory_state b =
          (match s.g_free_heads o' with | some h0 => h0 | none => 0) := by
        simp [push_head, write_next_word, set_head]
      cases hh : s.g_free_heads o' with
      | none =>
        have hnil : L o' = [] := ChainRepr_none (hh ▸ h.chains o')
        simp only [hmem, hh]
        rw [hnil]
        simp [ChainRepr]
      | some h0 =>
        obtain ⟨t, ht, _⟩ := ChainRepr_some (hh ▸ h.chains o')
        have hh0 : h0 ∈ L o' := by rw [ht]; exact List.mem_cons_self h0 t
        have hnz : h0 ≠ 0 := h.head_ne_zero hh0
        simp only [hmem, hh]
        rw [if_neg hnz]
        refine ChainRepr_congr (hh ▸ h.chains o') ?_
        intro x hx
        have hxb : x ≠ b := fun hxe => hfresh o' (hxe ▸ hx)
        simp [push_head, write_next_word, set_head, hxb]
    · rw [upd_other L o _ heq]
      have hheads : (push_head s o b).g_free_heads o' = s.g_free_heads o' := by
        simp [push_head, write_next_word, set_head, heq]
      rw [hheads]
      refine ChainRepr_congr (h.chains o') ?_
      intro x hx
      have hxb : x ≠ b := fun hxe => hfresh o' (hxe ▸ hx)
      simp [push_head, write_next_word, set_head, hxb]
  · intro o' hgt
    have hmax : (push_head s o b).g_max_order = s.g_max_order := rfl
    rw [hmax] at hgt
    have hne : o' ≠ o := by omega
    rw [upd_other L o _ hne]
    exact h.hi_empty o' hgt
  · intro p hp
    have hp2 := hperm.mem_iff.mp hp
    rcases List.mem_cons.mp hp2 with hpe | hpo
    · subst hpe
      exact ⟨hlo, hhi, hal, o, ho, rfl⟩
    · exact h.fit p hpo
  · exact (List.Perm.pairwise_iff (fun hab => blk_disjoint_symm hab) hperm).mpr
      (List.Pairwise.cons hdisj h.disj)

theorem all_blocks_uncons_perm {B : Nat} {L : Nat → List Nat} (alloc : List (Nat × Nat))
    {o : Nat} (ho : o < PMM_MAX_ORDERS) {h0 : Nat} {t : List Nat} (he : L o = h0 :: t) :
    (all_blocks B L alloc).Perm
      ((h0, B <<< o) :: all_blocks B (upd L o t) alloc) := by
  unfold all_blocks
  rw [abs_blocks_split (B := B) (L := L) ho, abs_blocks_upd _ ho]
  unfold blocks_at
  rw [he]
  simp only [List.map_cons, List.cons_append, List.append_assoc]
  exact List.perm_middle

/-- Popping the head of a non empty freelist preserves the invariant,
removing the head block from its order list. -/
theorem pop_head_inv {s : PMM} {L : Nat → List Nat} (h : PMMInv s L) {o h0 : Nat}
    (hh : s.g_free_heads o = some h0) :
    ∃ t, L o = h0 :: t ∧ (pop_head s o).1 = some h0 ∧
      PMMInv (pop_head s o).2 (upd L o t) ∧
      (all_blocks s.g_min_block L s.allocated_blocks).Perm
        ((h0, s.g_min_block <<< o) ::
          all_blocks s.g_min_block (upd L o t) s.allocated_blocks) := by
  obtain ⟨t, ht, hcont⟩ := ChainRepr_some (hh ▸ h.chains o)
  have hh0L : h0 ∈ L o := by rw [ht]; exact List.mem_cons_self h0 t
  have ho32 : o < PMM_MAX_ORDERS := by
    have h1 := h.order_le hh0L
    have h2 := h.maxlt
    omega
  have hnotint : h0 ∉ t := by
    have hnd := h.nodup_at o
    rw [ht] at hnd
    exact (List.nodup_cons.mp hnd).1
  have hperm := all_blocks_uncons_perm (B := s.g_min_block) (L := L)
    s.allocated_blocks ho32 ht
  have hpop := pop_head_some hh
  refine ⟨t, ht, by rw [hpop], ?_, hperm⟩
  rw [hpop]
  have hmemst : ∀ x, x ≠ h0 →
      (write_next_word
        (set_head s o (if read_next_word s h0 ≠ 0 then some (read_next_word s h0) else none))
        h0 0).memory_state x = s.memory_state x := by
    intro x hx
    simp [write_next_word, set_head, hx]
  refine ⟨h.base_pos, h.maxlt, h.pow2B, h.baseAl, h.limitAl, ?_, ?_, ?_, ?_⟩
  · intro o2
    by_cases heq : o2 = o
    · subst heq
      rw [upd_same]
      have hheads : (write_next_word
          (set_head s o2 (if read_next_word s h0 ≠ 0 then some (read_next_word s h0) else none))
          h0 0).g_free_heads o2 =
          (if s.memory_state h0 = 0 then none else some (s.memory_state h0)) := by
        simp only [write_next_word, set_head, read_next_word, if_true]
        rw [ite_ne_zero_comm]
      rw [hheads]
      exact ChainRepr_congr hcont (fun x hx => hmemst x (fun he => hnotint (he ▸ hx)))
    · rw [upd_other L o _ heq]
      have hheads : (write_next_word
          (set_head s o (if read_next_word s h0 ≠ 0 then some (read_next_word s h0) else none))
          h0 0).g_free_heads o2 = s.g_free_heads o2 := by
        simp [write_next_word, set_head, heq]
      rw [hheads]
      refine ChainRepr_congr (h.chains o2) ?_
      intro x hx
      refine hmemst x (fun he => ?_)
      exact h.cross_order (he ▸ hx) hh0L heq
  · intro o2 hgt
    have hmax : (write_next_word
        (set_head s o (if read_next_word s h0 ≠ 0 then some (read_next_word s h0) else none))
        h0 0).g_max_order = s.g_max_order := rfl
    rw [hmax] at hgt
    by_cases heq : o2 = o
    · subst heq
      exact absurd (h.order_le hh0L) (by omega)
    · rw [upd_other L o _ heq]
      exact h.hi_empty o2 hgt
  · intro p hp
    have hpold : p ∈ all_blocks s.g_min_block L s.allocated_blocks :=
      hperm.symm.mem_iff.mp (List.mem_cons_of_mem _ hp)
    exact h.fit p hpold
  · have hd := (List.Perm.pairwise_iff (fun hab => blk_disjoint_symm hab) hperm).mp h.disj
    exact (List.pairwise_cons.mp hd).2

theorem ChainRepr_nil_none {mem : Nat → Nat} {cur : Option Nat}
    (h : ChainRepr mem cur []) : cur = none := by
  cases cur with
  | none => rfl
  | some v => exact absurd h (by simp [ChainRepr])

theorem length_le_of_nodup_of_lt {l : List Nat} {n : Nat} (hnd : l.Nodup)
    (hlt : ∀ x ∈ l, x < n) : l.length ≤ n := by
  classical
  have h1 : l.toFinset.card = l.length := List.toFinset_card_of_nodup hnd
  have h2 : l.toFinset ⊆ Finset.range n := by
    intro x hx
    rw [List.mem_toFinset] at hx
    exact Finset.mem_range.mpr (hlt x hx)
  have h3 := Finset.card_le_card h2
  rw [Finset.card_range] at h3
  omega

theorem PMMInv.len_le {s : PMM} {L : Nat → List Nat} (h : PMMInv s L) (o : Nat) :
    (L o).length ≤ s.g_range_end := by
  refine length_le_of_nodup_of_lt (h.nodup_at o) ?_
  intro x hx
  obtain ⟨_, h2, _, _⟩ := h.fit _ (h.mem_all hx)
  have hsz : 0 < s.g_min_block <<< o := size_pos h.Bpos o
  simp only at h2
  omega

/-- The removal walk that never meets its target leaves the state alone. -/
theorem remove_go_not_found {s : PMM} {o target : Nat} :
    ∀ (l₂ : List Nat) (prev cur : Option Nat) (fuel : Nat),
      ChainRepr s.memory_state cur l₂ → target ∉ l₂ → l₂.length < fuel →
      remove_go o target prev cur fuel s = (false, s) := by
  intro l₂
  induction l₂ with
  | nil =>
    intro prev cur fuel hc _ hf
    rw [ChainRepr_nil_none hc]
    cases fuel with
    | zero => omega
    | succ fuel => rfl
  | cons a rest ih =>
    intro prev cur fuel hc hni hf
    cases cur with
    | none => exact absurd hc (by simp [ChainRepr])
    | some v =>
      obtain ⟨h1, h2⟩ := hc
      cases fuel with
      | zero => omega
      | succ fuel =>
        simp only [remove_go, read_next_word]
        rw [h1]
        rw [if_neg (fun he => hni (by rw [← he]; exact List.mem_cons_self a rest))]
        rw [ite_ne_zero_comm]
        exact ih (some a) _ fuel h2 (fun hm => hni (List.mem_cons_of_mem a hm))
          (by simpa using hf)

/-- The removal walk that meets its target unlinks it: the new state
rewrites the link word of the predecessor (the last element before the
target, or the argument prev when the target heads the remaining chain),
or the list head when there is no predecessor at all. -/
theorem remove_go_found {s : PMM} {o target : Nat} :
    ∀ (m₁ : List Nat) (prev cur : Option Nat) (fuel : Nat) (m₂ : List Nat),
      ChainRepr s.memory_state cur (m₁ ++ target :: m₂) →
      target ∉ m₁ →
      (m₁ ++ target :: m₂).length < fuel →
      remove_go o target prev cur fuel s =
        (true, match m₁.getLast? with
          | some p => write_next_word s p (s.memory_state target)
          | none => match prev with
            | some p => write_next_word s p (s.memory_state target)
            | none => set_head s o
                (if s.memory_state target = 0 then none
                 else some (s.memory_state target))) := by
  intro m₁
  induction m₁ with
  | nil =>
    intro prev cur fuel m₂ hc _ hf
    simp only [List.nil_append] at hc hf
    cases cur with
    | none => exact absurd hc (by simp [ChainRepr])
    | some v =>
      obtain ⟨h1, _⟩ := hc
      cases fuel with
      | zero => omega
      | succ fuel =>
        simp only [remove_go, read_next_word]
        rw [h1, if_pos rfl]
        cases prev with
        | none => simp [List.getLast?_nil, ite_ne_zero_comm]
        | some p => simp [List.getLast?_nil]
  | cons a rest ih =>
    intro prev cur fuel m₂ hc hni hf
    rw [List.cons_append] at hc hf
    cases cur with
    | none => exact absurd hc (by simp [ChainRepr])
    | some v =>
      obtain ⟨h1, h2⟩ := hc
      cases fuel with
      | zero => simp at hf
      | succ fuel =>
        simp only [remove_go, read_next_word]
        rw [h1]
        have hane : ¬ (a = target) := by
          intro he
          apply hni
          rw [he]
          exact List.mem_cons_self target rest
        rw [if_neg hane]
        rw [ite_ne_zero_comm]
        rw [ih (some a) _ fuel m₂ h2 (fun hm => hni (List.mem_cons_of_mem a hm))
          (by simp at hf ⊢; omega)]
        cases hr : rest.getLast? with
        | some p => rw [List.getLast?_cons, hr]; rfl
        | none =>
          have : rest = [] := List.getLast?_eq_none_iff.mp hr
          subst this
          rfl

theorem perm_cons_middle {α : Type} (x : α) (A M C : List α) :
    (A ++ (M ++ (x :: C))).Perm (x :: (A ++ (M ++ C))) := by
  have h1 : A ++ (M ++ (x :: C)) = (A ++ M) ++ (x :: C) := by rw [List.append_assoc]
  have h2 : x :: (A ++ (M ++ C)) = x :: ((A ++ M) ++ C) := by rw [List.append_assoc]
  rw [h1, h2]
  exact List.perm_middle

theorem all_blocks_middle_perm {B : Nat} {L : Nat → List Nat} (alloc : List (Nat × Nat))
    {o : Nat} (ho : o < PMM_MAX_ORDERS) {m₁ : List Nat} {t : Nat} {m₂ : List Nat}
    (he : L o = m₁ ++ t :: m₂) :
    (all_blocks B L alloc).Perm
      ((t, B <<< o) :: all_blocks B (upd L o (m₁ ++ m₂)) alloc) := by
  unfold all_blocks
  rw [abs_blocks_split (B := B) (L := L) ho, abs_blocks_upd _ ho]
  unfold blocks_at
  rw [he]
  simp only [List.map_append, List.map_cons, List.cons_append, List.append_assoc]
  exact perm_cons_middle _ _ _ _

/-- Rewriting the link word of the predecessor of an unlinked chain
element produces the chain without that element. -/
theorem ChainRepr_unlink {mem : Nat → Nat} {target : Nat} :
    ∀ (l₁ : List Nat) (head : Option Nat) (p : Nat) (l₂ : List Nat),
      ChainRepr mem head (l₁ ++ p :: target :: l₂) →
      (l₁ ++ p :: target :: l₂).Nodup →
      ChainRepr (fun a => if a = p then mem target else mem a) head (l₁ ++ p :: l₂) := by
  intro l₁
  induction l₁ with
  | nil =>
    intro head p l₂ hc hnd
    simp only [List.nil_append] at hc hnd ⊢
    cases head with
    | none => exact absurd hc (by simp [ChainRepr])
    | some v =>
      obtain ⟨h1, h2⟩ := hc
      refine ⟨h1, ?_⟩
      by_cases hz : mem p = 0
      · rw [hz] at h2
        simp only [if_pos] at h2
        exact absurd h2 (by simp [ChainRepr])
      · rw [if_neg hz] at h2
        obtain ⟨h3, h4⟩ := h2
        have hpl : p ∉ target :: l₂ := (List.nodup_cons.mp hnd).1
        have hmp : (fun a => if a = p then mem target else mem a) p = mem target := by simp
        rw [hmp]
        have hcongr : ChainRepr (fun a => if a = p then mem target else mem a)
            (if mem target = 0 then none else some (mem target)) l₂ := by
          refine ChainRepr_congr h4 ?_
          intro x hx
          have hxp : x ≠ p := fun he => hpl (he ▸ List.mem_cons_of_mem target hx)
          simp [hxp]
        exact hcongr
  | cons x rest ih =>
    intro head p l₂ hc hnd
    rw [List.cons_append] at hc hnd ⊢
    cases head with
    | none => exact absurd hc (by simp [ChainRepr])
    | some v =>
      obtain ⟨h1, h2⟩ := hc
      refine ⟨h1, ?_⟩
      have hxp : x ≠ p := by
        have hx1 := (List.nodup_cons.mp hnd).1
        intro he
        apply hx1
        rw [he]
        exact List.mem_append_right rest (List.mem_cons_self p (target :: l₂))
      have hmx : (fun a => if a = p then mem target else mem a) x = mem x := by simp [hxp]
      rw [hmx]
      exact ih _ p l₂ h2 (List.nodup_cons.mp hnd).2

theorem remove_specific_not_found {s : PMM} {L : Nat → List Nat} (h : PMMInv s L)
    {o target : Nat} (hni : target ∉ L o) :
    remove_specific s o target = (false, s) := by
  unfold remove_specific
  exact remove_go_not_found (L o) none _ _ (h.chains o) hni
    (by have := h.len_le o; omega)

/-- Removing a present block from its freelist succeeds and preserves the
invariant, erasing the block from its order list. -/
theorem remove_specific_found {s : PMM} {L : Nat → List Nat} (h : PMMInv s L)
    {o target : Nat} (hmem : target ∈ L o) :
    (remove_specific s o target).1 = true ∧
    PMMInv (remove_specific s o target).2 (upd L o ((L o).erase target)) ∧
    (all_blocks s.g_min_block L s.allocated_blocks).Perm
      ((target, s.g_min_block <<< o) ::
        all_blocks s.g_min_block (upd L o ((L o).erase target)) s.allocated_blocks) := by
  classical
  obtain ⟨m₁, m₂, hsplit⟩ := List.append_of_mem hmem
  have hnd : (L o).Nodup := h.nodup_at o
  have hndsp : (m₁ ++ target :: m₂).Nodup := hsplit ▸ hnd
  have hni1 : target ∉ m₁ := by
    intro hin
    obtain ⟨_, _, hdisj2⟩ := List.nodup_append.mp hndsp
    exact hdisj2 hin (List.mem_cons_self _ _)
  have herase : (L o).erase target = m₁ ++ m₂ := by
    rw [hsplit, List.erase_append_right _ hni1, List.erase_cons_head]
  have ho32 : o < PMM_MAX_ORDERS := by
    have h1 := h.order_le hmem
    have h2 := h.maxlt
    omega
  have holec : o ≤ s.g_max_order := h.order_le hmem
  have hlen : (m₁ ++ target :: m₂).length < s.g_range_end + 1 := by
    have := h.len_le o
    rw [hsplit] at this
    omega
  have hchain : ChainRepr s.memory_state (s.g_free_heads o) (m₁ ++ target :: m₂) :=
    hsplit ▸ h.chains o
  have hfound := remove_go_found (s := s) (o := o) m₁ none (s.g_free_heads o)
    (s.g_range_end + 1) m₂ hchain hni1 hlen
  have hperm := all_blocks_middle_perm (B := s.g_min_block) s.allocated_blocks ho32 hsplit
  have hfit : ∀ p ∈ all_blocks s.g_min_block (upd L o (m₁ ++ m₂)) s.allocated_blocks,
      s.g_range_start ≤ p.1 ∧ p.1 + p.2 ≤ s.g_range_end ∧ s.g_min_block ∣ p.1 ∧
      ∃ oo, oo ≤ s.g_max_order ∧ p.2 = s.g_min_block <<< oo := by
    intro p hp
    exact h.fit p (hperm.symm.mem_iff.mp (List.mem_cons_of_mem _ hp))
  have hdisj : (all_blocks s.g_min_block (upd L o (m₁ ++ m₂)) s.allocated_blocks).Pairwise
      blk_disjoint := by
    have hd := (List.Perm.pairwise_iff (fun hab => blk_disjoint_symm hab) hperm).mp h.disj
    exact (List.pairwise_cons.mp hd).2
  have hhiempty : ∀ o2, s.g_max_order < o2 → upd L o (m₁ ++ m₂) o2 = L o2 := by
    intro o2 hgt
    exact upd_other L o _ (by omega)
  rw [herase]
  unfold remove_specific
  rw [hfound]
  cases hm : m₁.getLast? with
  | none =>
    have hm1 : m₁ = [] := List.getLast?_eq_none_iff.mp hm
    subst hm1
    simp only [List.nil_append] at hsplit hchain hperm hfit hdisj ⊢
    have hhiempty2 : ∀ o2, s.g_max_order < o2 → upd L o m₂ o2 = L o2 := by
      intro o2 hgt
      exact upd_other L o _ (by omega)
    refine ⟨trivial, ?_, hperm⟩
    cases hh : s.g_free_heads o with
    | none => exact absurd (hh ▸ hchain) (by simp [ChainRepr])
    | some v =>
      obtain ⟨h1, h2⟩ := hh ▸ hchain
      refine ⟨h.base_pos, h.maxlt, h.pow2B, h.baseAl, h.limitAl, ?_, ?_, hfit, hdisj⟩
      · intro o2
        by_cases heq : o2 = o
        · subst heq
          rw [upd_same]
          have hheads : (set_head s o2
              (if s.memory_state target = 0 then none
               else some (s.memory_state target))).g_free_heads o2 =
              (if s.memory_state target = 0 then none
               else some (s.memory_state target)) := by
            simp [set_head]
          rw [hheads]
          exact h2
        · rw [upd_other L o _ heq]
          have hheads : (set_head s o
              (if s.memory_state target = 0 then none
               else some (s.memory_state target))).g_free_heads o2 = s.g_free_heads o2 := by
            simp [set_head, heq]
          rw [hheads]
          exact h.chains o2
      · intro o2 hgt
        have hmax : (set_head s o
            (if s.memory_state target = 0 then none
             else some (s.memory_state target))).g_max_order = s.g_max_order := rfl
        rw [hmax] at hgt
        rw [hhiempty2 o2 hgt]
        exact h.hi_empty o2 hgt
  | some p =>
    have hm1 : m₁ ≠ [] := by
      intro h0
      rw [h0] at hm
      simp at hm
    have hpl : m₁.getLast hm1 = p := by
      rw [List.getLast?_eq_getLast m₁ hm1] at hm
      exact Option.some_injective _ hm
    have hmdecomp : m₁ = m₁.dropLast ++ [p] := by
      rw [← hpl]
      exact (List.dropLast_append_getLast hm1).symm
    have hpm : p ∈ m₁ := by
      rw [hmdecomp]
      exact List.mem_append_right _ (List.mem_cons_self p [])
    have hpL : p ∈ L o := by
      rw [hsplit]
      exact List.mem_append_left _ hpm
    refine ⟨rfl, ?_, hperm⟩
    refine ⟨h.base_pos, h.maxlt, h.pow2B, h.baseAl, h.limitAl, ?_, ?_, hfit, hdisj⟩
    · intro o2
      by_cases heq : o2 = o
      · subst heq
        rw [upd_same]
        have hunlink := ChainRepr_unlink m₁.dropLast (s.g_free_heads o2) p m₂
          (by
            have he2 : m₁.dropLast ++ p :: target :: m₂ = m₁ ++ target :: m₂ := by
              rw [hmdecomp]
              simp [List.append_assoc]
            rw [he2]
            exact hchain)
          (by
            have he2 : m₁.dropLast ++ p :: target :: m₂ = m₁ ++ target :: m₂ := by
              rw [hmdecomp]
              simp [List.append_assoc]
            rw [he2]
            exact hndsp)
        have he3 : m₁.dropLast ++ p :: m₂ = m₁ ++ m₂ := by
          rw [hmdecomp]
          simp [List.append_assoc]
        rw [he3] at hunlink
        have hmm : (write_next_word s p (s.memory_state target)).memory_state =
            (fun a => if a = p then s.memory_state target else s.memory_state a) := rfl
        have hhh : (write_next_word s p (s.memory_state target)).g_free_heads o2 =
            s.g_free_heads o2 := rfl
        rw [hmm, hhh]
        exact hunlink
      · rw [upd_other L o _ heq]
        have hhh : (write_next_word s p (s.memory_state target)).g_free_heads o2 =
            s.g_free_heads o2 := rfl
        rw [hhh]
        refine ChainRepr_congr (h.chains o2) ?_
        intro x hx
        have hxp : x ≠ p := by
          intro he
          exact h.cross_order (he ▸ hx) hpL heq
        simp [write_next_word, hxp]
    · intro o2 hgt
      have hmax : (write_next_word s p (s.memory_state target)).g_max_order =
          s.g_max_order := rfl
      rw [hmax] at hgt
      rw [hhiempty o2 hgt]
      exact h.hi_empty o2 hgt

/-- Total bytes of the blocks (free and live) of an abstraction. -/
def blocks_bytes (B : Nat) (L : Nat → List Nat) (alloc : List (Nat × Nat)) : Nat :=
  ((all_blocks B L alloc).map (fun p => p.2)).sum

theorem blk_disjoint_mono {a sz a2 sz2 : Nat} {q : Nat × Nat} (h : blk_disjoint (a, sz) q)
    (h1 : a ≤ a2) (h2 : a2 + sz2 ≤ a + sz) : blk_disjoint (a2, sz2) q := by
  unfold blk_disjoint at *
  simp only at *
  omega

theorem shift_succ_eq (B k : Nat) : B <<< (k + 1) = B <<< k + B <<< k := by
  simp only [Nat.shiftLeft_eq, pow_succ]
  ring

theorem dvd_shift (B k : Nat) : B ∣ B <<< k := by
  rw [Nat.shiftLeft_eq]
  exact ⟨2 ^ k, rfl⟩

theorem blocks_bytes_perm {B : Nat} {L L' : Nat → List Nat}
    {alloc alloc' : List (Nat × Nat)} {x : Nat × Nat}
    (h : (all_blocks B L alloc).Perm (x :: all_blocks B L' alloc')) :
    blocks_bytes B L alloc = x.2 + blocks_bytes B L' alloc' := by
  unfold blocks_bytes
  have := (h.map (fun p => p.2)).sum_eq
  simpa using this

/-- The split loop: splitting an in hand block of order k down to order
req preserves the invariant; every upper half is pushed, the in hand
block shrinks to order req, total block bytes grow by exactly the
difference, and every new block lies inside the original in hand block. -/
theorem split_down_inv :
    ∀ (k : Nat) (s : PMM) (L : Nat → List Nat) (a req : Nat),
      PMMInv s L → req ≤ k → k ≤ s.g_max_order →
      s.g_range_start ≤ a → a + s.g_min_block <<< k ≤ s.g_range_end →
      s.g_min_block ∣ a →
      (∀ q ∈ all_blocks s.g_min_block L s.allocated_blocks,
        blk_disjoint (a, s.g_min_block <<< k) q) →
      ∃ L', PMMInv (split_down s a req k) L' ∧
        (∀ q ∈ all_blocks s.g_min_block L' s.allocated_blocks,
          blk_disjoint (a, s.g_min_block <<< req) q) ∧
        blocks_bytes s.g_min_block L' s.allocated_blocks + (s.g_min_block <<< req) =
          blocks_bytes s.g_min_block L s.allocated_blocks + (s.g_min_block <<< k) ∧
        (∀ p ∈ all_blocks s.g_min_block L' s.allocated_blocks,
          p ∈ all_blocks s.g_min_block L s.allocated_blocks ∨
            (a ≤ p.1 ∧ p.1 + p.2 ≤ a + s.g_min_block <<< k)) := by
  intro k
  induction k with
  | zero =>
    intro s L a req h hreq hkmax hlo hhi hal hdisj
    have hreq0 : req = 0 := by omega
    subst hreq0
    exact ⟨L, h, hdisj, rfl, fun p hp => Or.inl hp⟩
  | succ k ih =>
    intro s L a req h hreq hkmax hlo hhi hal hdisj
    by_cases hr : req < k + 1
    · have hstep : split_down s a req (k + 1) =
          split_down (push_head s k (a + s.g_min_block <<< k)) a req k := by
        simp only [split_down]
        rw [if_pos hr]
        rfl
      have hSsucc := shift_succ_eq s.g_min_block k
      have hXY : s.g_min_block <<< k ≤ s.g_min_block <<< (k + 1) := by
        rw [hSsucc]
        exact Nat.le_add_right _ _
      have hpush : PMMInv (push_head s k (a + s.g_min_block <<< k))
          (upd L k ((a + s.g_min_block <<< k) :: L k)) :=
        push_head_inv h (b := a + s.g_min_block <<< k) (o := k)
          (by omega)
          (Nat.le_trans hlo (Nat.le_add_right a _))
          (by rw [hSsucc] at hhi; rw [Nat.add_assoc]; exact hhi)
          (Nat.dvd_add hal (dvd_shift s.g_min_block k))
          (fun q hq => blk_disjoint_mono (hdisj q hq) (Nat.le_add_right a _)
            (by rw [hSsucc, ← Nat.add_assoc]))
      have hpperm := all_blocks_cons_perm (B := s.g_min_block) (L := L) (o := k)
        s.allocated_blocks (a + s.g_min_block <<< k)
        (by have := h.maxlt; omega)
      obtain ⟨L', hInv', hdisj', hsum', hcover'⟩ :=
        ih (push_head s k (a + s.g_min_block <<< k))
          (upd L k ((a + s.g_min_block <<< k) :: L k)) a req
          hpush
          (by omega)
          (show k ≤ s.g_max_order by omega)
          (show s.g_range_start ≤ a from hlo)
          (show a + s.g_min_block <<< k ≤ s.g_range_end from
            Nat.le_trans (Nat.add_le_add_left hXY a) hhi)
          (show s.g_min_block ∣ a from hal)
          (by
            intro q hq
            show blk_disjoint (a, s.g_min_block <<< k) q
            have hq2 := hpperm.mem_iff.mp
              (show q ∈ all_blocks s.g_min_block
                (upd L k ((a + s.g_min_block <<< k) :: L k)) s.allocated_blocks from hq)
            rcases List.mem_cons.mp hq2 with hqe | hqo
            · subst hqe
              exact Or.inl (Nat.le_refl _)
            · exact blk_disjoint_mono (hdisj q hqo) (Nat.le_refl a)
                (Nat.add_le_add_left hXY a))
      have hdisj2 : ∀ q ∈ all_blocks s.g_min_block L' s.allocated_blocks,
          blk_disjoint (a, s.g_min_block <<< req) q := hdisj'
      have hsum2 : blocks_bytes s.g_min_block L' s.allocated_blocks +
          s.g_min_block <<< req =
          blocks_bytes s.g_min_block (upd L k ((a + s.g_min_block <<< k) :: L k))
            s.allocated_blocks + s.g_min_block <<< k := hsum'
      have hcover2 : ∀ p ∈ all_blocks s.g_min_block L' s.allocated_blocks,
          p ∈ all_blocks s.g_min_block (upd L k ((a + s.g_min_block <<< k) :: L k))
            s.allocated_blocks ∨
          (a ≤ p.1 ∧ p.1 + p.2 ≤ a + s.g_min_block <<< k) := hcover'
      rw [hstep]
      refine ⟨L', hInv', hdisj2, ?_, ?_⟩
      · have hsum3 : blocks_bytes s.g_min_block
            (upd L k ((a + s.g_min_block <<< k) :: L k)) s.allocated_blocks =
            s.g_min_block <<< k + blocks_bytes s.g_min_block L s.allocated_blocks :=
          blocks_bytes_perm hpperm
        rw [hsum2, hsum3, hSsucc]
        ring
      · intro p hp
        rcases hcover2 p hp with hpo | hpin
        · have hp2 := hpperm.mem_iff.mp hpo
          rcases List.mem_cons.mp hp2 with hpe | hpold
          · subst hpe
            refine Or.inr ⟨Nat.le_add_right a _, ?_⟩
            show a + s.g_min_block <<< k + s.g_min_block <<< k ≤
              a + s.g_min_block <<< (k + 1)
            rw [hSsucc, ← Nat.add_assoc]
          · exact Or.inl hpold
        · exact Or.inr ⟨hpin.1, Nat.le_trans hpin.2 (Nat.add_le_add_left hXY a)⟩
    · have hstep : split_down s a req (k + 1) = s := by
        simp only [split_down]
        rw [if_neg hr]
      have hreqe : req = k + 1 := by omega
      subst hreqe
      rw [hstep]
      exact ⟨L, h, hdisj, rfl, fun p hp => Or.inl hp⟩

/-- Membership of one byte address in an address and size block. -/
def in_blk (p : Nat × Nat) (t : Nat) : Prop := p.1 ≤ t ∧ t < p.1 + p.2

instance (p : Nat × Nat) (t : Nat) : Decidable (in_blk p t) := by
  unfold in_blk
  exact inferInstance

/-- For blocks of positive size, interval disjointness is pointwise
disjointness. -/
theorem blk_disjoint_iff_pointwise {p q : Nat × Nat} (hp : 0 < p.2) (hq : 0 < q.2) :
    blk_disjoint p q ↔ ∀ t, in_blk p t → ¬ in_blk q t := by
  unfold blk_disjoint in_blk
  constructor
  · intro hd t
    omega
  · intro hpt
    have h2 := hpt (max p.1 q.1)
    omega

theorem shift_le_shift (B : Nat) {o o' : Nat} (h : o ≤ o') : B <<< o ≤ B <<< o' := by
  rw [Nat.shiftLeft_eq, Nat.shiftLeft_eq]
  exact Nat.mul_le_mul_left B (Nat.pow_le_pow_right (by omega) h)

theorem shift_lt_imp {B a b : Nat} (h : B <<< a < B <<< b) : a < b := by
  by_contra hab
  have h2 : B <<< b ≤ B <<< a := shift_le_shift B (by omega)
  omega

theorem shift_inj {B o o' : Nat} (hB : 0 < B) (h : B <<< o = B <<< o') : o = o' := by
  rw [Nat.shiftLeft_eq, Nat.shiftLeft_eq] at h
  have h2 : (2 : Nat) ^ o = 2 ^ o' := Nat.eq_of_mul_eq_mul_left hB h
  exact Nat.pow_right_injective (by omega) h2

theorem shift_shift_one (B o : Nat) : (B <<< o) <<< 1 = B <<< (o + 1) := by
  rw [Nat.shiftLeft_eq, Nat.shiftLeft_eq, Nat.shiftLeft_eq, pow_succ 2 o, pow_one]
  ring

/-- XOR with a power of two either adds it (bit clear) or subtracts it
(bit set). -/
theorem xor_two_pow_flip : ∀ (t x : Nat), x ^^^ 2 ^ t = x + 2 ^ t ∨ (x ^^^ 2 ^ t) + 2 ^ t = x := by
  intro t
  induction t with
  | zero =>
    intro x
    simp only [pow_zero]
    have hdiv : (x ^^^ 1) / 2 = x / 2 := by
      have h := Nat.xor_div_two (a := x) (b := 1)
      simpa using h
    have hmod : ((x ^^^ 1) % 2 = 1) ↔ ¬ (x % 2 = 1) := by
      have h := Nat.xor_mod_two_eq_one (a := x) (b := 1)
      simpa using h
    have e1 := Nat.div_add_mod (x ^^^ 1) 2
    have e2 := Nat.div_add_mod x 2
    omega
  | succ t ih =>
    intro x
    have hdiv : (x ^^^ 2 ^ (t + 1)) / 2 = (x / 2) ^^^ 2 ^ t := by
      rw [Nat.xor_div_two]
      congr 1
      rw [pow_succ]
      exact Nat.mul_div_cancel _ (by omega)
    have hmod : ((x ^^^ 2 ^ (t + 1)) % 2 = 1) ↔ (x % 2 = 1) := by
      rw [Nat.xor_mod_two_eq_one]
      have h2 : 2 ^ (t + 1) % 2 = 0 := by
        rw [pow_succ]
        omega
      rw [h2]
      simp
    have e1 := Nat.div_add_mod (x ^^^ 2 ^ (t + 1)) 2
    have e2 := Nat.div_add_mod x 2
    have hp : (2 : Nat) ^ (t + 1) = 2 ^ t * 2 := pow_succ 2 t
    have hih := ih (x / 2)
    omega

/-- The buddy address is always the adjacent interval of the same size,
above or below. -/
theorem buddy_adjacent {s : PMM} {addr o : Nat} (hB : ∃ m, s.g_min_block = 2 ^ m)
    (hba : s.g_range_start ≤ addr) :
    buddy_of s addr o = addr + s.g_min_block <<< o ∨
    buddy_of s addr o + s.g_min_block <<< o = addr := by
  obtain ⟨m, hm⟩ := hB
  unfold buddy_of order_to_size
  rw [hm, Nat.shiftLeft_eq, ← pow_add]
  have hflip := xor_two_pow_flip (m + o) (addr - s.g_range_start)
  omega

theorem le_align_up {B : Nat} (hB : 0 < B) (v : Nat) : v ≤ align_up v B := by
  unfold align_up
  have hd := Nat.div_add_mod (v + B - 1) B
  have hm : (v + B - 1) % B < B := Nat.mod_lt _ hB
  have hc : B * ((v + B - 1) / B) = ((v + B - 1) / B) * B := Nat.mul_comm _ _
  omega

theorem align_up_dvd (v B : Nat) : B ∣ align_up v B :=
  ⟨(v + B - 1) / B, Nat.mul_comm _ _⟩

theorem align_up_eq_self {B v : Nat} (hB : 0 < B) (h : B ∣ v) : align_up v B = v := by
  obtain ⟨c, rfl⟩ := h
  unfold align_up
  have he : B * c + B - 1 = B * c + (B - 1) := by omega
  rw [he, Nat.mul_add_div hB, Nat.div_eq_of_lt (by omega), Nat.add_zero]
  exact Nat.mul_comm c B

theorem align_down_le (v B : Nat) : align_down v B ≤ v :=
  Nat.div_mul_le_self v B

theorem align_down_dvd (v B : Nat) : B ∣ align_down v B :=
  ⟨v / B, Nat.mul_comm _ _⟩

theorem align_down_eq_self {B v : Nat} (hB : 0 < B) (h : B ∣ v) : align_down v B = v := by
  obtain ⟨c, rfl⟩ := h
  unfold align_down
  rw [Nat.mul_div_cancel_left c hB]
  exact Nat.mul_comm c B

theorem align_up_le {B v w : Nat} (hB : 0 < B) (hd : B ∣ w) (hvw : v ≤ w) :
    align_up v B ≤ w := by
  obtain ⟨c, rfl⟩ := hd
  unfold align_up
  have h1 : v + B - 1 < B * (c + 1) := by
    have he : B * (c + 1) = B * c + B := by ring
    omega
  have h2 : (v + B - 1) / B < c + 1 := Nat.div_lt_of_lt_mul h1
  calc ((v + B - 1) / B) * B ≤ c * B := Nat.mul_le_mul_right B (by omega)
    _ = B * c := Nat.mul_comm _ _

theorem align_down_ge {B v w : Nat} (hB : 0 < B) (hd : B ∣ w) (hwv : w ≤ v) :
    w ≤ align_down v B := by
  obtain ⟨c, rfl⟩ := hd
  unfold align_down
  have h1 : c ≤ v / B := (Nat.le_div_iff_mul_le hB).mpr (by rw [Nat.mul_comm]; exact hwv)
  calc B * c = c * B := Nat.mul_comm _ _
    _ ≤ (v / B) * B := Nat.mul_le_mul_right B h1

/-- Deleting a present key from the allocation dict splits off exactly its
entry, when entries have positive sizes and are pairwise disjoint. -/
theorem dict_del_perm {alloc : List (Nat × Nat)} {a sz : Nat}
    (hmem : (a, sz) ∈ alloc) (hpos : ∀ p ∈ alloc, 0 < p.2)
    (hdisj : alloc.Pairwise blk_disjoint) :
    alloc.Perm ((a, sz) :: dict_del alloc a) := by
  induction alloc with
  | nil => cases hmem
  | cons p rest ih =>
    rcases List.mem_cons.mp hmem with he | hr
    · subst he
      have hkeys : ∀ q ∈ rest, q.1 ≠ a := by
        intro q hq hqa
        have hd := (List.pairwise_cons.mp hdisj).1 q hq
        have hp1 := hpos _ (List.mem_cons_self (a, sz) rest)
        have hp2 := hpos q (List.mem_cons_of_mem _ hq)
        unfold blk_disjoint at hd
        simp only at hd hp1
        omega
      have hfil : dict_del ((a, sz) :: rest) a = rest := by
        unfold dict_del
        rw [List.filter_cons]
        simp only [bne_self_eq_false, Bool.false_eq_true, if_false]
        exact List.filter_eq_self.mpr fun q hq => by simpa using hkeys q hq
      rw [hfil]
    · have hd1 := (List.pairwise_cons.mp hdisj).1 _ hr
      have hpa := hpos _ (List.mem_cons_of_mem _ hr)
      have hpp := hpos p (List.mem_cons_self p rest)
      have hpka : p.1 ≠ a := by
        unfold blk_disjoint at hd1
        simp only at hd1 hpa
        intro he2
        omega
      have hih := ih hr (fun q hq => hpos q (List.mem_cons_of_mem _ hq))
        (List.pairwise_cons.mp hdisj).2
      have hfil : dict_del (p :: rest) a = p :: dict_del rest a := by
        unfold dict_del
        rw [List.filter_cons]
        simp [hpka]
      rw [hfil]
      exact (hih.cons p).trans (List.Perm.swap _ _ _)

/-- Setting a fresh key in the allocation dict is a plain cons. -/
theorem dict_set_eq_cons {alloc : List (Nat × Nat)} {k v : Nat}
    (hk : ∀ q ∈ alloc, q.1 ≠ k) : dict_set alloc k v = (k, v) :: alloc := by
  unfold dict_set
  congr 1
  exact List.filter_eq_self.mpr fun q hq => by simpa using hk q hq

/-- Every block of an invariant abstraction has positive size. -/
theorem PMMInv.blk_pos {s : PMM} {L : Nat → List Nat} (h : PMMInv s L) {p : Nat × Nat}
    (hp : p ∈ all_blocks s.g_min_block L s.allocated_blocks) : 0 < p.2 := by
  obtain ⟨-, -, -, o, -, ho⟩ := h.fit p hp
  rw [ho]
  exact size_pos h.Bpos o

theorem shift_shift (B a b : Nat) : (B <<< a) <<< b = B <<< (a + b) := by
  rw [Nat.shiftLeft_eq, Nat.shiftLeft_eq, Nat.shiftLeft_eq, pow_add]
  ring

/-- The doubling loop of size_to_order stops at a size that covers the
request, whenever the fuel bounds the doublings needed. -/
theorem size_to_order_go_ge (size : Nat) :
    ∀ (fuel need order : Nat), 0 < need → size ≤ need <<< fuel →
      size ≤ need <<< (size_to_order_go size fuel need order - order) ∧
      order ≤ size_to_order_go size fuel need order := by
  intro fuel
  induction fuel with
  | zero =>
    intro need order hpos hle
    constructor
    · show size ≤ need <<< (order - order)
      simpa using hle
    · exact Nat.le_refl _
  | succ fuel ih =>
    intro need order hpos hle
    simp only [size_to_order_go]
    by_cases hc : 0 < need ∧ need < size
    · rw [if_pos hc]
      have hle2 : size ≤ (need <<< 1) <<< fuel := by
        rw [shift_shift]
        have he : 1 + fuel = fuel + 1 := by omega
        rw [he]
        exact hle
      have hpos2 : 0 < need <<< 1 := size_pos hpos 1
      obtain ⟨h1, h2⟩ := ih (need <<< 1) (order + 1) hpos2 hle2
      refine ⟨?_, by omega⟩
      rw [shift_shift] at h1
      have he2 : 1 + (size_to_order_go size fuel (need <<< 1) (order + 1) - (order + 1)) =
          size_to_order_go size fuel (need <<< 1) (order + 1) - order := by omega
      rw [he2] at h1
      exact h1
    · rw [if_neg hc]
      have hns : size ≤ need := by
        rcases Nat.lt_or_ge need size with hlt | hge
        · exact absurd ⟨hpos, hlt⟩ hc
        · exact hge
      refine ⟨?_, Nat.le_refl _⟩
      simpa using hns

/-- The rounded request never exceeds the block size of its inferred
order. -/
theorem size_le_order_size {s : PMM} (hB : 0 < s.g_min_block) (r : Nat) :
    r ≤ order_to_size s (size_to_order s r) := by
  unfold size_to_order order_to_size
  by_cases hz : r = 0
  · subst hz
    simp
  · rw [if_neg hz]
    have hfuel : r ≤ s.g_min_block <<< r := by
      have h1 : r < 2 ^ r := Nat.lt_two_pow r
      have h2 : 2 ^ r ≤ s.g_min_block * 2 ^ r := by
        have := Nat.mul_le_mul_right (2 ^ r) hB
        simpa using this
      rw [Nat.shiftLeft_eq]
      omega
    have h := (size_to_order_go_ge r r s.g_min_block 0 hB hfuel).1
    simpa using h

theorem choose_order_go_le (s : PMM) (cur remain : Nat) :
    ∀ bound, choose_order_go s cur remain bound ≤ bound := by
  intro bound
  induction bound with
  | zero => exact Nat.le_refl _
  | succ b ih =>
    simp only [choose_order_go]
    split
    · exact Nat.le_refl _
    · exact Nat.le_trans ih (by omega)

theorem choose_order_go_spec (s : PMM) (cur remain : Nat) :
    ∀ bound, choose_order_go s cur remain bound = 0 ∨
      (order_to_size s (choose_order_go s cur remain bound) ≤ remain ∧
       cur % order_to_size s (choose_order_go s cur remain bound) = 0) := by
  intro bound
  induction bound with
  | zero => exact Or.inl rfl
  | succ b ih =>
    simp only [choose_order_go]
    split
    · next hc => exact Or.inr hc
    · exact ih

/-- The greedy choice always yields a block size fitting the remaining
span and dividing the cursor, given min block divisibility of both ends. -/
theorem choose_order_fits {s : PMM} (hB : 0 < s.g_min_block) {cur rend : Nat}
    (hcur : s.g_min_block ∣ cur) (hrend : s.g_min_block ∣ rend) (hlt : cur < rend) :
    order_to_size s (choose_order_go s cur (rend - cur) s.g_max_order) ≤ rend - cur ∧
    cur % order_to_size s (choose_order_go s cur (rend - cur) s.g_max_order) = 0 := by
  rcases choose_order_go_spec s cur (rend - cur) s.g_max_order with h0 | hs
  · rw [h0]
    unfold order_to_size
    constructor
    · have hdr : s.g_min_block ∣ rend - cur := Nat.dvd_sub' hrend hcur
      have hge : s.g_min_block ≤ rend - cur := Nat.le_of_dvd (by omega) hdr
      simpa using hge
    · obtain ⟨c, rfl⟩ := hcur
      simp [Nat.mul_mod_right]
  · exact hs

/-- The greedy partition loop preserves the invariant, adds exactly the
partitioned span to the block bytes, covers only the partitioned range
with new blocks, and leaves freelists of larger block sizes unchanged. -/
theorem partition_go_inv (rend : Nat) :
    ∀ (fuel cur : Nat) (s : PMM) (L : Nat → List Nat),
      PMMInv s L →
      s.g_min_block ∣ cur → s.g_min_block ∣ rend →
      s.g_range_start ≤ cur → rend ≤ s.g_range_end →
      rend - cur ≤ fuel →
      (∀ q ∈ all_blocks s.g_min_block L s.allocated_blocks,
        blk_disjoint (cur, rend - cur) q) →
      ∃ L', PMMInv (partition_go rend fuel cur s) L' ∧
        blocks_bytes s.g_min_block L' s.allocated_blocks =
          blocks_bytes s.g_min_block L s.allocated_blocks + (rend - cur) ∧
        (∀ p ∈ all_blocks s.g_min_block L' s.allocated_blocks,
          p ∈ all_blocks s.g_min_block L s.allocated_blocks ∨
          (cur ≤ p.1 ∧ p.1 + p.2 ≤ rend)) ∧
        (∀ o2, rend - cur < s.g_min_block <<< o2 → L' o2 = L o2) := by
  intro fuel
  induction fuel with
  | zero =>
    intro cur s L h hcur hrend hlo hhi hfuel hdisj
    have hz : rend - cur = 0 := by omega
    exact ⟨L, h, by omega, fun p hp => Or.inl hp, fun o2 _ => rfl⟩
  | succ fuel ih =>
    intro cur s L h hcur hrend hlo hhi hfuel hdisj
    by_cases hlt : cur < rend
    · obtain ⟨ch, hch⟩ : ∃ c, choose_order_go s cur (rend - cur) s.g_max_order = c :=
        ⟨_, rfl⟩
      obtain ⟨hfit, hmod⟩ := choose_order_fits h.Bpos hcur hrend hlt
      rw [hch] at hfit hmod
      have hSe : order_to_size s ch = s.g_min_block <<< ch := rfl
      rw [hSe] at hfit
      have hchle : ch ≤ s.g_max_order := hch ▸ choose_order_go_le s cur (rend - cur) _
      have hSpos : 0 < s.g_min_block <<< ch := size_pos h.Bpos ch
      have hsteq : partition_go rend (fuel + 1) cur s =
          partition_go rend fuel (cur + s.g_min_block <<< ch) (push_head s ch cur) := by
        simp only [partition_go]
        rw [if_pos ⟨hlt, h.Bpos⟩, hch]
        rfl
      have hpush : PMMInv (push_head s ch cur) (upd L ch (cur :: L ch)) :=
        push_head_inv h (b := cur) (o := ch) hchle hlo (by omega) hcur
          (fun q hq => blk_disjoint_mono (hdisj q hq) (Nat.le_refl cur) (by omega))
      have hperm := all_blocks_cons_perm (B := s.g_min_block) (L := L) (o := ch)
        s.allocated_blocks cur (by have := h.maxlt; omega)
      obtain ⟨L', hI, hbytes, hcov, hut⟩ :=
        ih (cur + s.g_min_block <<< ch) (push_head s ch cur) (upd L ch (cur :: L ch))
          hpush
          (show s.g_min_block ∣ cur + s.g_min_block <<< ch from
            Nat.dvd_add hcur (dvd_shift _ _))
          (show s.g_min_block ∣ rend from hrend)
          (show s.g_range_start ≤ cur + s.g_min_block <<< ch by omega)
          (show rend ≤ s.g_range_end from hhi)
          (by omega)
          (by
            intro q hq
            show blk_disjoint (cur + s.g_min_block <<< ch,
              rend - (cur + s.g_min_block <<< ch)) q
            have hq2 := hperm.mem_iff.mp
              (show q ∈ all_blocks s.g_min_block
                (upd L ch (cur :: L ch)) s.allocated_blocks from hq)
            rcases List.mem_cons.mp hq2 with hqe | hqo
            · subst hqe
              exact Or.inr (by omega)
            · exact blk_disjoint_mono (hdisj q hqo) (by omega) (by omega))
      have hbytes2 : blocks_bytes s.g_min_block L' s.allocated_blocks =
          blocks_bytes s.g_min_block (upd L ch (cur :: L ch)) s.allocated_blocks +
            (rend - (cur + s.g_min_block <<< ch)) := hbytes
      have hpb : blocks_bytes s.g_min_block (upd L ch (cur :: L ch)) s.allocated_blocks =
          s.g_min_block <<< ch + blocks_bytes s.g_min_block L s.allocated_blocks :=
        blocks_bytes_perm hperm
      rw [hsteq]
      refine ⟨L', hI, by omega, ?_, ?_⟩
      · intro p hp
        have hp2 : p ∈ all_blocks s.g_min_block L' s.allocated_blocks := hp
        rcases hcov p hp2 with hpo | hpin
        · have hp3 := hperm.mem_iff.mp hpo
          rcases List.mem_cons.mp hp3 with hpe | hpold
          · subst hpe
            exact Or.inr ⟨Nat.le_refl _, by simp only; omega⟩
          · exact Or.inl hpold
        · exact Or.inr ⟨by omega, by omega⟩
      · intro o2 ho2
        have h1 : L' o2 = upd L ch (cur :: L ch) o2 :=
          hut o2 (show rend - (cur + s.g_min_block <<< ch) < s.g_min_block <<< o2 by omega)
        have hne : o2 ≠ ch := by
          intro he
          subst he
          omega
        rw [h1, upd_other L ch _ hne]
    · have hz : rend - cur = 0 := by omega
      have hsteq : partition_go rend (fuel + 1) cur s = s := by
        simp only [partition_go]
        rw [if_neg]
        intro hcc
        exact hlt hcc.1
      rw [hsteq]
      exact ⟨L, h, by omega, fun p hp => Or.inl hp, fun o2 _ => rfl⟩

/-- mark_free_range preserves the invariant when its range does not touch
any current block; new blocks stay inside the given range and freelists of
block sizes above the range span are unchanged. -/
theorem mark_free_range_inv {s : PMM} {L : Nat → List Nat} (h : PMMInv s L) {a b : Nat}
    (hdisj : ∀ q ∈ all_blocks s.g_min_block L s.allocated_blocks,
      blk_disjoint (a, b - a) q) :
    ∃ L', PMMInv (mark_free_range s a b).2 L' ∧
      (∀ p ∈ all_blocks s.g_min_block L' s.allocated_blocks,
        p ∈ all_blocks s.g_min_block L s.allocated_blocks ∨
        (a ≤ p.1 ∧ p.1 + p.2 ≤ b)) ∧
      (∀ o2, b - a < s.g_min_block <<< o2 → L' o2 = L o2) := by
  unfold mark_free_range
  dsimp only
  split
  · exact ⟨L, h, fun p hp => Or.inl hp, fun o2 _ => rfl⟩
  · next hinit =>
    split
    · exact ⟨L, h, fun p hp => Or.inl hp, fun o2 _ => rfl⟩
    · next hba =>
      split
      · exact ⟨L, h, fun p hp => Or.inl hp, fun o2 _ => rfl⟩
      · next hlt1 =>
        split
        · exact ⟨L, h, fun p hp => Or.inl hp, fun o2 _ => rfl⟩
        · next hlt2 =>
          have hab : a < b := by omega
          have hcur2 : a ≤ align_up (max a s.g_range_start) s.g_min_block :=
            Nat.le_trans (Nat.le_max_left a _) (le_align_up h.Bpos _)
          have hbase2 : s.g_range_start ≤ align_up (max a s.g_range_start) s.g_min_block :=
            Nat.le_trans (Nat.le_max_right a _) (le_align_up h.Bpos _)
          have hrend2 : align_down (min b s.g_range_end) s.g_min_block ≤ min b s.g_range_end :=
            align_down_le _ _
          have hlt3 : ¬ align_down (min b s.g_range_end) s.g_min_block ≤
              align_up (max a s.g_range_start) s.g_min_block := hlt2
          obtain ⟨L', hI, hbytes, hcov, hut⟩ :=
            partition_go_inv (align_down (min b s.g_range_end) s.g_min_block)
              (align_down (min b s.g_range_end) s.g_min_block)
              (align_up (max a s.g_range_start) s.g_min_block) s L h
              (align_up_dvd _ _) (align_down_dvd _ _)
              hbase2
              (Nat.le_trans hrend2 (Nat.min_le_right b _))
              (Nat.sub_le _ _)
              (fun q hq => blk_disjoint_mono (hdisj q hq)
                hcur2
                (by
                  have hminb := Nat.min_le_left b s.g_range_end
                  omega))
          refine ⟨L', hI, ?_, ?_⟩
          · intro p hp
            rcases hcov p hp with hpo | hpin
            · exact Or.inl hpo
            · refine Or.inr ⟨by omega, ?_⟩
              have hminb := Nat.min_le_left b s.g_range_end
              omega
          · intro o2 ho2
            apply hut
            have hminb := Nat.min_le_left b s.g_range_end
            omega

/-- The configuration fields every public operation leaves unchanged on an
initialized allocator. -/
structure CoreSame (s t : PMM) : Prop where
  inited : t.g_inited = s.g_inited
  rstart : t.g_range_start = s.g_range_start
  rend : t.g_range_end = s.g_range_end
  minb : t.g_min_block = s.g_min_block
  maxo : t.g_max_order = s.g_max_order

theorem CoreSame.same (s : PMM) : CoreSame s s := ⟨rfl, rfl, rfl, rfl, rfl⟩

theorem CoreSame.comp {s t u : PMM} (h1 : CoreSame s t) (h2 : CoreSame t u) :
    CoreSame s u :=
  ⟨h2.inited.trans h1.inited, h2.rstart.trans h1.rstart, h2.rend.trans h1.rend,
   h2.minb.trans h1.minb, h2.maxo.trans h1.maxo⟩

theorem FreelistOnly.core {s t : PMM} (h : FreelistOnly s t) : CoreSame s t :=
  ⟨h.inited, h.rstart, h.rend, h.minb, h.maxo⟩

theorem alloc_block_core (s : PMM) (r : Nat) :
    CoreSame s (alloc_block_of_order s r).2.2 := by
  unfold alloc_block_of_order
  dsimp only
  split
  · exact CoreSame.same s
  · split
    · exact CoreSame.same s
    · split
      · exact CoreSame.same s
      · split
        next s1 heq =>
          have h1 : FreelistOnly s (pop_head s (find_nonempty s s.g_max_order r)).2 :=
            freelistOnly_pop_head ..
          rw [heq] at h1
          exact h1.core
        next b s1 heq =>
          have h1 : FreelistOnly s (pop_head s (find_nonempty s s.g_max_order r)).2 :=
            freelistOnly_pop_head ..
          rw [heq] at h1
          have h2 := (freelistOnly_split_down b r (find_nonempty s s.g_max_order r) s1)
          have h3 := freelistOnly_write_next_word
            (split_down s1 b r (find_nonempty s s.g_max_order r)) b 0
          have hc := (h1.trans (h2.trans h3)).core
          exact ⟨hc.inited, hc.rstart, hc.rend, hc.minb, hc.maxo⟩

theorem alloc_core (s : PMM) (n : Nat) : CoreSame s (alloc s n).2.2 := by
  unfold alloc
  dsimp only
  split
  · exact CoreSame.same s
  · split
    · exact CoreSame.same s
    · split
      · exact CoreSame.same s
      · exact alloc_block_core ..

theorem free_core (s : PMM) (a n : Nat) : CoreSame s (free s a n).2 := by
  unfold free
  dsimp only
  split
  · exact CoreSame.same s
  · split
    · exact CoreSame.same s
    · split
      · exact CoreSame.same s
      · split
        · exact CoreSame.same s
        · split
          · exact CoreSame.same s
          · split
            · exact CoreSame.same s
            · have h1 : CoreSame s
                  { s with allocated_blocks := dict_del s.allocated_blocks a } :=
                ⟨rfl, rfl, rfl, rfl, rfl⟩
              exact h1.comp (freelistOnly_free_loop ..).core

theorem mark_free_core (s : PMM) (a b : Nat) : CoreSame s (mark_free_range s a b).2 :=
  (freelistOnly_mark_free_range ..).core

theorem mark_res_core (s : PMM) (a b : Nat) : CoreSame s (mark_reserved_range s a b).2 := by
  unfold mark_reserved_range
  dsimp only
  split
  · exact CoreSame.same s
  · split
    · exact CoreSame.same s
    · split
      · exact CoreSame.same s
      · exact (freelistOnly_mark_res_orders ..).core

theorem find_go_ge (s : PMM) (gmax : Nat) :
    ∀ (fuel o : Nat), o ≤ find_nonempty_go s gmax fuel o := by
  intro fuel
  induction fuel with
  | zero => intro o; exact Nat.le_refl _
  | succ fuel ih =>
    intro o
    simp only [find_nonempty_go]
    split
    · split
      · exact Nat.le_trans (by omega) (ih (o + 1))
      · exact Nat.le_refl _
    · exact Nat.le_refl _

theorem find_go_some (s : PMM) (gmax : Nat) :
    ∀ (fuel o : Nat), gmax + 1 ≤ fuel + o →
      find_nonempty_go s gmax fuel o ≤ gmax →
      s.g_free_heads (find_nonempty_go s gmax fuel o) ≠ none := by
  intro fuel
  induction fuel with
  | zero =>
    intro o hle hres
    simp only [find_nonempty_go] at hres ⊢
    omega
  | succ fuel ih =>
    intro o hle hres
    simp only [find_nonempty_go] at hres ⊢
    by_cases ho : o ≤ gmax
    · rw [if_pos ho] at hres ⊢
      cases hh : s.g_free_heads o with
      | none =>
        rw [hh] at hres
        have hres2 : find_nonempty_go s gmax fuel (o + 1) ≤ gmax := hres
        show s.g_free_heads (find_nonempty_go s gmax fuel (o + 1)) ≠ none
        exact ih (o + 1) (by omega) hres2
      | some v =>
        show s.g_free_heads o ≠ none
        rw [hh]
        simp
    · rw [if_neg ho] at hres
      omega

/-- Writing the link word of an address on no freelist preserves the
invariant. -/
theorem write_fresh_inv {s : PMM} {L : Nat → List Nat} (h : PMMInv s L) {b v : Nat}
    (hb : ∀ o, b ∉ L o) : PMMInv (write_next_word s b v) L := by
  refine ⟨h.base_pos, h.maxlt, h.pow2B, h.baseAl, h.limitAl, ?_, h.hi_empty, h.fit, h.disj⟩
  intro o
  refine ChainRepr_congr (h.chains o) ?_
  intro x hx
  have hxb : x ≠ b := fun he => hb o (he ▸ hx)
  simp [write_next_word, hxb]

/-- The permutation produced by prepending an allocation entry. -/
theorem all_blocks_alloc_cons_perm (B : Nat) (L : Nat → List Nat)
    (alloc : List (Nat × Nat)) (x : Nat × Nat) :
    (all_blocks B L (x :: alloc)).Perm (x :: all_blocks B L alloc) := by
  unfold all_blocks
  exact List.perm_middle

/-- Recording a fresh, in range, aligned allocation entry of order at most
g_max_order preserves the invariant. -/
theorem push_alloc_inv {s : PMM} {L : Nat → List Nat} (h : PMMInv s L) {b r : Nat}
    (hr : r ≤ s.g_max_order)
    (hlo : s.g_range_start ≤ b) (hhi : b + s.g_min_block <<< r ≤ s.g_range_end)
    (hal : s.g_min_block ∣ b)
    (hdisj : ∀ q ∈ all_blocks s.g_min_block L s.allocated_blocks,
      blk_disjoint (b, s.g_min_block <<< r) q) :
    PMMInv { s with allocated_blocks := (b, s.g_min_block <<< r) :: s.allocated_blocks } L := by
  have hperm := all_blocks_alloc_cons_perm s.g_min_block L s.allocated_blocks
    (b, s.g_min_block <<< r)
  refine ⟨h.base_pos, h.maxlt, h.pow2B, h.baseAl, h.limitAl, h.chains, h.hi_empty, ?_, ?_⟩
  · intro p hp
    have hp2 := hperm.mem_iff.mp hp
    rcases List.mem_cons.mp hp2 with hpe | hpo
    · subst hpe
      exact ⟨hlo, hhi, hal, r, hr, rfl⟩
    · exact h.fit p hpo
  · exact (List.Perm.pairwise_iff (fun hab => blk_disjoint_symm hab) hperm).mpr
      (List.Pairwise.cons hdisj h.disj)

/-- alloc_block_of_order preserves the invariant and the total block
bytes, never creates block space outside the old blocks, and on success
records the returned address as a live allocation of the requested
order. -/
theorem alloc_block_inv {s : PMM} {L : Nat → List Nat} (h : PMMInv s L) (r : Nat) :
    ∃ L', PMMInv (alloc_block_of_order s r).2.2 L' ∧
      blocks_bytes s.g_min_block L' (alloc_block_of_order s r).2.2.allocated_blocks =
        blocks_bytes s.g_min_block L s.allocated_blocks ∧
      (∀ p ∈ all_blocks s.g_min_block L' (alloc_block_of_order s r).2.2.allocated_blocks,
        ∀ t, in_blk p t →
          ∃ q ∈ all_blocks s.g_min_block L s.allocated_blocks, in_blk q t) ∧
      ((alloc_block_of_order s r).1 = PMMStatus.OK →
        ((alloc_block_of_order s r).2.1, s.g_min_block <<< r) ∈
          (alloc_block_of_order s r).2.2.allocated_blocks) := by
  unfold alloc_block_of_order
  dsimp only
  split
  · exact ⟨L, h, rfl, fun p hp t ht => ⟨p, hp, ht⟩, fun hOK => PMMStatus.noConfusion hOK⟩
  · split
    · exact ⟨L, h, rfl, fun p hp t ht => ⟨p, hp, ht⟩, fun hOK => PMMStatus.noConfusion hOK⟩
    · next hrle =>
      obtain ⟨o, ho⟩ : ∃ v, find_nonempty s s.g_max_order r = v := ⟨_, rfl⟩
      rw [ho]
      split
      · exact ⟨L, h, rfl, fun p hp t ht => ⟨p, hp, ht⟩, fun hOK => PMMStatus.noConfusion hOK⟩
      · next hfle =>
        have hrle2 : r ≤ s.g_max_order := by omega
        have hole : o ≤ s.g_max_order := by omega
        have hreqo : r ≤ o := by
          have h1 := find_go_ge s s.g_max_order (s.g_max_order + 1 - r) r
          have h2 : find_nonempty s s.g_max_order r =
              find_nonempty_go s s.g_max_order (s.g_max_order + 1 - r) r := rfl
          rw [h2] at ho
          omega
        have hsome : s.g_free_heads o ≠ none := by
          have h2 : find_nonempty s s.g_max_order r =
              find_nonempty_go s s.g_max_order (s.g_max_order + 1 - r) r := rfl
          rw [h2] at ho
          rw [← ho]
          exact find_go_some s s.g_max_order _ r (by omega) (by omega)
        obtain ⟨h0, hh⟩ := Option.ne_none_iff_exists'.mp hsome
        obtain ⟨tl, htl, hpop1, hpopInv, hpopPerm⟩ := pop_head_inv h hh
        have hmem0 : h0 ∈ L o := by rw [htl]; exact List.mem_cons_self h0 tl
        obtain ⟨hlo0, hhi0, hal0, -⟩ := h.fit (h0, s.g_min_block <<< o) (h.mem_all hmem0)
        simp only at hlo0 hhi0 hal0
        have hdisj0 : ∀ q ∈ all_blocks s.g_min_block (upd L o tl) s.allocated_blocks,
            blk_disjoint (h0, s.g_min_block <<< o) q := by
          have hpw := (List.Perm.pairwise_iff
            (fun hab => blk_disjoint_symm hab) hpopPerm).mp h.disj
          exact (List.pairwise_cons.mp hpw).1
        rw [pop_head_some hh] at hpopInv
        split
        next s1 heq =>
          rw [pop_head_some hh] at heq
          simp at heq
        next b s1 heq =>
          rw [pop_head_some hh] at heq
          injection heq with h1 h2
          injection h1 with hb
          subst hb
          subst h2
          obtain ⟨L2, hI2, hdisj2, hsum2, hcov2⟩ :=
            split_down_inv o
              (write_next_word
                (set_head s o
                  (if read_next_word s h0 ≠ 0 then some (read_next_word s h0) else none))
                h0 0)
              (upd L o tl) h0 r
              hpopInv (by omega) hole hlo0 hhi0 hal0 hdisj0
          have hdisj3 : ∀ q ∈ all_blocks s.g_min_block L2 s.allocated_blocks,
              blk_disjoint (h0, s.g_min_block <<< r) q := hdisj2
          have hsum3 : blocks_bytes s.g_min_block L2 s.allocated_blocks +
              s.g_min_block <<< r =
              blocks_bytes s.g_min_block (upd L o tl) s.allocated_blocks +
                s.g_min_block <<< o := hsum2
          have hcov3 : ∀ p ∈ all_blocks s.g_min_block L2 s.allocated_blocks,
              p ∈ all_blocks s.g_min_block (upd L o tl) s.allocated_blocks ∨
              (h0 ≤ p.1 ∧ p.1 + p.2 ≤ h0 + s.g_min_block <<< o) := hcov2
          obtain ⟨u, hu⟩ : ∃ u, split_down
              (write_next_word
                (set_head s o
                  (if read_next_word s h0 ≠ 0 then some (read_next_word s h0) else none))
                h0 0)
              h0 r o = u := ⟨_, rfl⟩
          have hfu : FreelistOnly
              (write_next_word
                (set_head s o
                  (if read_next_word s h0 ≠ 0 then some (read_next_word s h0) else none))
                h0 0) u := by
            rw [← hu]
            exact freelistOnly_split_down h0 r o _
          have humin : u.g_min_block = s.g_min_block := hfu.minb
          have hualloc : u.allocated_blocks = s.allocated_blocks := hfu.alloc
          have humax : u.g_max_order = s.g_max_order := hfu.maxo
          have hurs : u.g_range_start = s.g_range_start := hfu.rstart
          have hure : u.g_range_end = s.g_range_end := hfu.rend
          rw [hu] at hI2 ⊢
          have hSr : 0 < s.g_min_block <<< r := size_pos h.Bpos r
          have hdisj4 : ∀ q ∈ all_blocks u.g_min_block L2 u.allocated_blocks,
              blk_disjoint (h0, s.g_min_block <<< r) q := by
            rw [humin, hualloc]
            exact hdisj3
          have hfresh : ∀ o2, h0 ∉ L2 o2 := PMMInv.fresh hI2 hSr hdisj4
          have hI3 : PMMInv (write_next_word u h0 0) L2 := write_fresh_inv hI2 hfresh
          have hkeys : ∀ q ∈ s.allocated_blocks, q.1 ≠ h0 := by
            intro q hq hqk
            have hqall : q ∈ all_blocks s.g_min_block L2 s.allocated_blocks :=
              List.mem_append.mpr (Or.inr hq)
            have hqd := hdisj3 q hqall
            have hqpos : 0 < q.2 :=
              h.blk_pos (List.mem_append.mpr (Or.inr hq))
            unfold blk_disjoint at hqd
            omega
          have hds : dict_set (write_next_word u h0 0).allocated_blocks h0
              (order_to_size (write_next_word u h0 0) r) =
              (h0, s.g_min_block <<< r) :: s.allocated_blocks := by
            show dict_set u.allocated_blocks h0 (u.g_min_block <<< r) = _
            rw [hualloc, humin]
            exact dict_set_eq_cons hkeys
          rw [hds]
          have hI4 : PMMInv
              { write_next_word u h0 0 with
                allocated_blocks :=
                  (h0, (write_next_word u h0 0).g_min_block <<< r) ::
                    (write_next_word u h0 0).allocated_blocks } L2 :=
            push_alloc_inv hI3
              (by show r ≤ u.g_max_order; rw [humax]; exact hrle2)
              (by show u.g_range_start ≤ h0; rw [hurs]; exact hlo0)
              (by
                show h0 + u.g_min_block <<< r ≤ u.g_range_end
                rw [humin, hure]
                have hmono : s.g_min_block <<< r ≤ s.g_min_block <<< o :=
                  shift_le_shift _ hreqo
                omega)
              (by show u.g_min_block ∣ h0; rw [humin]; exact hal0)
              (by
                show ∀ q ∈ all_blocks u.g_min_block L2 u.allocated_blocks,
                  blk_disjoint (h0, u.g_min_block <<< r) q
                rw [humin, hualloc]
                exact hdisj3)
          rw [(show (write_next_word u h0 0).g_min_block = s.g_min_block from humin),
            (show (write_next_word u h0 0).allocated_blocks = s.allocated_blocks
              from hualloc)] at hI4
          refine ⟨L2, hI4, ?_, ?_, ?_⟩
          · have hb1 : blocks_bytes s.g_min_block L2
                ((h0, s.g_min_block <<< r) :: s.allocated_blocks) =
                s.g_min_block <<< r + blocks_bytes s.g_min_block L2 s.allocated_blocks :=
              blocks_bytes_perm (all_blocks_alloc_cons_perm _ _ _ _)
            have hb2 : blocks_bytes s.g_min_block L s.allocated_blocks =
                s.g_min_block <<< o +
                  blocks_bytes s.g_min_block (upd L o tl) s.allocated_blocks :=
              blocks_bytes_perm hpopPerm
            show blocks_bytes s.g_min_block L2
                ((h0, s.g_min_block <<< r) :: s.allocated_blocks) =
              blocks_bytes s.g_min_block L s.allocated_blocks
            omega
          · intro p hp t ht
            have hp2 := (all_blocks_alloc_cons_perm s.g_min_block L2 s.allocated_blocks
              (h0, s.g_min_block <<< r)).mem_iff.mp hp
            rcases List.mem_cons.mp hp2 with hpe | hpo
            · refine ⟨(h0, s.g_min_block <<< o), h.mem_all hmem0, ?_⟩
              subst hpe
              unfold in_blk at ht ⊢
              have hmono : s.g_min_block <<< r ≤ s.g_min_block <<< o :=
                shift_le_shift _ hreqo
              simp only at ht ⊢
              omega
            · rcases hcov3 p hpo with hpold | hpin
              · exact ⟨p, hpopPerm.mem_iff.mpr (List.mem_cons_of_mem _ hpold), ht⟩
              · refine ⟨(h0, s.g_min_block <<< o), h.mem_all hmem0, ?_⟩
                unfold in_blk at ht ⊢
                simp only
                omega
          · intro _
            exact List.mem_cons_self _ _

/-- Pushing the in hand block: invariant, byte accounting and coverage,
shared by every exit path of the coalescing loop of free. -/
theorem free_push_case {s : PMM} {L : Nat → List Nat} (h : PMMInv s L) {addr order : Nat}
    (ho : order ≤ s.g_max_order)
    (hlo : s.g_range_start ≤ addr) (hhi : addr + s.g_min_block <<< order ≤ s.g_range_end)
    (hal : s.g_min_block ∣ addr)
    (hdisj : ∀ q ∈ all_blocks s.g_min_block L s.allocated_blocks,
      blk_disjoint (addr, s.g_min_block <<< order) q) :
    ∃ L', PMMInv (push_head s order addr) L' ∧
      blocks_bytes s.g_min_block L' (push_head s order addr).allocated_blocks =
        blocks_bytes s.g_min_block L s.allocated_blocks + s.g_min_block <<< order ∧
      (∀ p ∈ all_blocks s.g_min_block L' (push_head s order addr).allocated_blocks,
        ∀ t, in_blk p t → in_blk (addr, s.g_min_block <<< order) t ∨
          ∃ q ∈ all_blocks s.g_min_block L s.allocated_blocks, in_blk q t) := by
  have hperm := all_blocks_cons_perm (B := s.g_min_block) (L := L) (o := order)
    s.allocated_blocks addr (by have := h.maxlt; omega)
  refine ⟨upd L order (addr :: L order), push_head_inv h ho hlo hhi hal hdisj, ?_, ?_⟩
  · have hb := blocks_bytes_perm (B := s.g_min_block) hperm
    show blocks_bytes s.g_min_block (upd L order (addr :: L order)) s.allocated_blocks = _
    omega
  · intro p hp t ht
    have hp2 := hperm.mem_iff.mp hp
    rcases List.mem_cons.mp hp2 with hpe | hpo
    · subst hpe
      exact Or.inl ht
    · exact Or.inr ⟨p, hpo, ht⟩

/-- The coalescing loop of free preserves the invariant, adds exactly the
in hand block bytes, and creates block space only from the in hand block
and existing blocks. -/
theorem free_loop_inv (gmax : Nat) :
    ∀ (fuel : Nat) (s : PMM) (L : Nat → List Nat) (addr order : Nat),
      PMMInv s L → gmax = s.g_max_order → fuel + order ≤ gmax →
      s.g_range_start ≤ addr → addr + s.g_min_block <<< order ≤ s.g_range_end →
      s.g_min_block ∣ addr →
      (∀ q ∈ all_blocks s.g_min_block L s.allocated_blocks,
        blk_disjoint (addr, s.g_min_block <<< order) q) →
      ∃ L', PMMInv (free_loop gmax fuel s addr order (s.g_min_block <<< order)).2 L' ∧
        blocks_bytes s.g_min_block L'
            (free_loop gmax fuel s addr order (s.g_min_block <<< order)).2.allocated_blocks =
          blocks_bytes s.g_min_block L s.allocated_blocks + s.g_min_block <<< order ∧
        (∀ p ∈ all_blocks s.g_min_block L'
            (free_loop gmax fuel s addr order (s.g_min_block <<< order)).2.allocated_blocks,
          ∀ t, in_blk p t → in_blk (addr, s.g_min_block <<< order) t ∨
            ∃ q ∈ all_blocks s.g_min_block L s.allocated_blocks, in_blk q t) := by
  intro fuel
  induction fuel with
  | zero =>
    intro s L addr order h hgm hfo hlo hhi hal hdisj
    exact free_push_case h (by omega) hlo hhi hal hdisj
  | succ fuel ih =>
    intro s L addr order h hgm hfo hlo hhi hal hdisj
    have hog : order < gmax := by omega
    have hSsucc := shift_succ_eq s.g_min_block order
    have hadj := @buddy_adjacent s addr order h.pow2B hlo
    have hSpos : 0 < s.g_min_block <<< order := size_pos h.Bpos order
    simp only [free_loop]
    rw [if_pos hog]
    by_cases hout : buddy_of s addr order < s.g_range_start ∨
        s.g_range_end < buddy_of s addr order + s.g_min_block <<< order
    · rw [if_pos hout]
      exact free_push_case h (by omega) hlo hhi hal hdisj
    · rw [if_neg hout]
      push_neg at hout
      split
      next s1 heq =>
        by_cases hbm : buddy_of s addr order ∈ L order
        · obtain ⟨hfound, -, -⟩ := remove_specific_found h hbm
          rw [heq] at hfound
          simp at hfound
        · have hrs := remove_specific_not_found h hbm
          rw [hrs] at heq
          injection heq with h1 h2
          subst h2
          exact free_push_case h (by omega) hlo hhi hal hdisj
      next s1 heq =>
        by_cases hbm : buddy_of s addr order ∈ L order
        · obtain ⟨-, hremInv, hremPerm⟩ := remove_specific_found h hbm
          have hs1 : s1 = (remove_specific s order (buddy_of s addr order)).2 := by
            rw [heq]
          subst hs1
          have hfr := freelistOnly_remove_specific s order (buddy_of s addr order)
          have hpw := (List.Perm.pairwise_iff
            (fun hab => blk_disjoint_symm hab) hremPerm).mp h.disj
          have hbd : ∀ q ∈ all_blocks s.g_min_block
              (upd L order ((L order).erase (buddy_of s addr order)))
              s.allocated_blocks,
              blk_disjoint (buddy_of s addr order, s.g_min_block <<< order) q :=
            (List.pairwise_cons.mp hpw).1
          have hmemb : (buddy_of s addr order, s.g_min_block <<< order) ∈
              all_blocks s.g_min_block L s.allocated_blocks :=
            hremPerm.mem_iff.mpr (List.mem_cons_self _ _)
          have hdisjb : ∀ q ∈ all_blocks s.g_min_block
              (upd L order ((L order).erase (buddy_of s addr order)))
              s.allocated_blocks,
              blk_disjoint (addr, s.g_min_block <<< order) q :=
            fun q hq => hdisj q (hremPerm.mem_iff.mpr (List.mem_cons_of_mem _ hq))
          obtain ⟨L2, hI2, hbytes2, hcov2⟩ :=
            ih (remove_specific s order (buddy_of s addr order)).2
              (upd L order ((L order).erase (buddy_of s addr order)))
              (if buddy_of s addr order < addr then buddy_of s addr order else addr)
              (order + 1)
              hremInv
              (by rw [hfr.maxo]; exact hgm)
              (by
                have he : (remove_specific s order (buddy_of s addr order)).2.g_max_order =
                    s.g_max_order := hfr.maxo
                omega)
              (by
                rw [hfr.rstart]
                split
                · exact hout.1
                · exact hlo)
              (by
                rw [hfr.minb, hfr.rend]
                split <;> omega)
              (by
                rw [hfr.minb]
                split
                next hba =>
                  rcases hadj with he1 | he2
                  · omega
                  · have hbe : buddy_of s addr order =
                        addr - s.g_min_block <<< order := by omega
                    rw [hbe]
                    exact Nat.dvd_sub' hal (dvd_shift _ _)
                next hba => exact hal
              )
              (by
                intro q hq
                have hq2 : q ∈ all_blocks s.g_min_block
                    (upd L order ((L order).erase (buddy_of s addr order)))
                    s.allocated_blocks := by
                  rw [← hfr.minb, ← hfr.alloc]
                  exact hq
                have hd1 := hdisjb q hq2
                have hd2 := hbd q hq2
                have hqpos : 0 < q.2 :=
                  h.blk_pos (hremPerm.mem_iff.mpr (List.mem_cons_of_mem _ hq2))
                rw [hfr.minb]
                unfold blk_disjoint at hd1 hd2 ⊢
                split <;> omega)
          rw [hfr.minb] at hI2 hbytes2 hcov2
          rw [hfr.alloc] at hbytes2 hcov2
          rw [shift_shift_one]
          refine ⟨L2, hI2, ?_, ?_⟩
          · have hb3 : blocks_bytes s.g_min_block L s.allocated_blocks =
                s.g_min_block <<< order +
                  blocks_bytes s.g_min_block
                    (upd L order ((L order).erase (buddy_of s addr order)))
                    s.allocated_blocks :=
              blocks_bytes_perm hremPerm
            omega
          · intro p hp t ht
            rcases hcov2 p hp t ht with hin | hex
            · unfold in_blk at hin ⊢
              simp only at hin ⊢
              by_cases hsplit2 : addr ≤ t ∧ t < addr + s.g_min_block <<< order
              · exact Or.inl (by omega)
              · refine Or.inr ⟨(buddy_of s addr order, s.g_min_block <<< order), hmemb, ?_⟩
                simp only
                split at hin <;> omega
            · obtain ⟨q, hq, hqt⟩ := hex
              exact Or.inr ⟨q, hremPerm.mem_iff.mpr (List.mem_cons_of_mem _ hq), hqt⟩
        · have hrs := remove_specific_not_found h hbm
          rw [hrs] at heq
          simp at heq

/-- free preserves the invariant and the total block bytes whenever the
call errors out or frees a live allocation of the matching size class;
block space is never created outside the old blocks. -/
theorem free_inv {s : PMM} {L : Nat → List Nat} (h : PMMInv s L) {a n : Nat}
    (hok : (free s a n).1 ≠ PMMStatus.OK ∨
      (a, order_to_size s (size_to_order s (round_to_min_block s n))) ∈
        s.allocated_blocks) :
    ∃ L', PMMInv (free s a n).2 L' ∧
      blocks_bytes s.g_min_block L' (free s a n).2.allocated_blocks =
        blocks_bytes s.g_min_block L s.allocated_blocks ∧
      (∀ p ∈ all_blocks s.g_min_block L' (free s a n).2.allocated_blocks,
        ∀ t, in_blk p t →
          ∃ q ∈ all_blocks s.g_min_block L s.allocated_blocks, in_blk q t) := by
  rcases hok with hne | hmem
  · rcases free_ok_or_id s a n with hOK | hid
    · exact absurd hOK hne
    · rw [hid]
      exact ⟨L, h, rfl, fun p hp t ht => ⟨p, hp, ht⟩⟩
  · unfold free
    dsimp only
    split
    · exact ⟨L, h, rfl, fun p hp t ht => ⟨p, hp, ht⟩⟩
    · split
      · exact ⟨L, h, rfl, fun p hp t ht => ⟨p, hp, ht⟩⟩
      · split
        · exact ⟨L, h, rfl, fun p hp t ht => ⟨p, hp, ht⟩⟩
        · split
          · exact ⟨L, h, rfl, fun p hp t ht => ⟨p, hp, ht⟩⟩
          · split
            · exact ⟨L, h, rfl, fun p hp t ht => ⟨p, hp, ht⟩⟩
            · next horder =>
              split
              · exact ⟨L, h, rfl, fun p hp t ht => ⟨p, hp, ht⟩⟩
              · next halign =>
                have hmem2 : (a,
                    s.g_min_block <<< size_to_order s (round_to_min_block s n)) ∈
                    s.allocated_blocks := hmem
                have hmemall : (a,
                    s.g_min_block <<< size_to_order s (round_to_min_block s n)) ∈
                    all_blocks s.g_min_block L s.allocated_blocks :=
                  List.mem_append.mpr (Or.inr hmem2)
                obtain ⟨hlo0, hhi0, hal0, -⟩ := h.fit _ hmemall
                simp only at hlo0 hhi0 hal0
                have hpos : ∀ p ∈ s.allocated_blocks, 0 < p.2 :=
                  fun p hp => h.blk_pos (List.mem_append.mpr (Or.inr hp))
                have hpw : s.allocated_blocks.Pairwise blk_disjoint :=
                  ((List.pairwise_append.mp h.disj).2).1
                have hperm := dict_del_perm hmem2 hpos hpw
                have happ : (all_blocks s.g_min_block L s.allocated_blocks).Perm
                    ((a, s.g_min_block <<< size_to_order s (round_to_min_block s n)) ::
                      all_blocks s.g_min_block L (dict_del s.allocated_blocks a)) :=
                  (List.Perm.append_left (abs_blocks s.g_min_block L) hperm).trans
                    List.perm_middle
                have hI1 : PMMInv
                    { s with allocated_blocks := dict_del s.allocated_blocks a } L := by
                  refine ⟨h.base_pos, h.maxlt, h.pow2B, h.baseAl, h.limitAl, h.chains,
                    h.hi_empty, ?_, ?_⟩
                  · intro p hp
                    exact h.fit p (happ.symm.mem_iff.mp (List.mem_cons_of_mem _ hp))
                  · have hd := (List.Perm.pairwise_iff
                      (fun hab => blk_disjoint_symm hab) happ).mp h.disj
                    exact (List.pairwise_cons.mp hd).2
                have hdisj1 : ∀ q ∈ all_blocks s.g_min_block L
                    (dict_del s.allocated_blocks a),
                    blk_disjoint
                      (a, s.g_min_block <<< size_to_order s (round_to_min_block s n)) q := by
                  have hd := (List.Perm.pairwise_iff
                    (fun hab => blk_disjoint_symm hab) happ).mp h.disj
                  exact (List.pairwise_cons.mp hd).1
                have horder2 : size_to_order s (round_to_min_block s n) ≤ s.g_max_order := by
                  omega
                obtain ⟨L', hI', hbytes', hcov'⟩ :=
                  free_loop_inv s.g_max_order
                    (s.g_max_order - size_to_order s (round_to_min_block s n))
                    { s with allocated_blocks := dict_del s.allocated_blocks a } L a
                    (size_to_order s (round_to_min_block s n))
                    hI1 rfl (by omega) hlo0 hhi0 hal0 hdisj1
                refine ⟨L', hI', ?_, ?_⟩
                · have hb2 : blocks_bytes s.g_min_block L s.allocated_blocks =
                      s.g_min_block <<< size_to_order s (round_to_min_block s n) +
                        blocks_bytes s.g_min_block L (dict_del s.allocated_blocks a) :=
                    blocks_bytes_perm happ
                  have hb1 : blocks_bytes s.g_min_block L'
                      (free_loop s.g_max_order
                        (s.g_max_order - size_to_order s (round_to_min_block s n))
                        { s with allocated_blocks := dict_del s.allocated_blocks a } a
                        (size_to_order s (round_to_min_block s n))
                        (order_to_size s
                          (size_to_order s (round_to_min_block s n)))).2.allocated_blocks =
                      blocks_bytes s.g_min_block L (dict_del s.allocated_blocks a) +
                        s.g_min_block <<< size_to_order s (round_to_min_block s n) :=
                    hbytes'
                  omega
                · intro p hp t ht
                  have hcv := hcov' p hp t ht
                  rcases hcv with hin | hex
                  · exact ⟨_, hmemall, hin⟩
                  · obtain ⟨q, hq, hqt⟩ := hex
                    exact ⟨q, happ.symm.mem_iff.mp (List.mem_cons_of_mem _ hq), hqt⟩

/-- The canonical continuation pointer of a represented suffix. -/
def chain_ptr (ys : List Nat) : Option Nat :=
  match ys with
  | [] => none
  | y :: _ => some y

/-- A suffix of a represented chain is itself represented, from its
canonical pointer. -/
theorem ChainRepr_suffix {mem : Nat → Nat} :
    ∀ (xs ys : List Nat) (cur : Option Nat), ChainRepr mem cur (xs ++ ys) →
      ChainRepr mem (chain_ptr ys) ys := by
  intro xs
  induction xs with
  | nil =>
    intro ys cur h
    cases ys with
    | nil => trivial
    | cons y t =>
      cases cur with
      | none => exact absurd h (by simp [ChainRepr])
      | some v =>
        obtain ⟨h1, h2⟩ := h
        exact ⟨rfl, h2⟩
  | cons x xs ih =>
    intro ys cur h
    cases cur with
    | none => exact absurd h (by simp [ChainRepr])
    | some v =>
      obtain ⟨h1, h2⟩ := h
      exact ih ys _ h2

/-- A represented list pins its pointer to the canonical one. -/
theorem ChainRepr_ptr_eq {mem : Nat → Nat} {cur : Option Nat} {ys : List Nat}
    (h : ChainRepr mem cur ys) : cur = chain_ptr ys := by
  cases ys with
  | nil => rw [ChainRepr_nil_none h]; rfl
  | cons y t =>
    cases cur with
    | none => exact absurd h (by simp [ChainRepr])
    | some v =>
      obtain ⟨h1, _⟩ := h
      rw [h1]
      rfl

/-- A block whose interval passed the overlap test is disjoint from the
reserved range. -/
theorem checked_disjoint {c S rs re : Nat} (hrsre : rs ≤ re)
    (hn : c + S ≤ rs ∨ re ≤ c) : blk_disjoint (c, S) (rs, re - rs) := by
  unfold blk_disjoint
  simp only
  omega

/-- One optional fragment re-insertion step of the reserved range walk. -/
theorem frag_step {s : PMM} {L : Nat → List Nat} (h : PMMInv s L) (cond : Prop)
    [Decidable cond] {a b : Nat}
    (hdisj : cond → ∀ q ∈ all_blocks s.g_min_block L s.allocated_blocks,
      blk_disjoint (a, b - a) q) :
    ∃ L', PMMInv (if cond then (mark_free_range s a b).2 else s) L' ∧
      FreelistOnly s (if cond then (mark_free_range s a b).2 else s) ∧
      (∀ p ∈ all_blocks s.g_min_block L' s.allocated_blocks,
        p ∈ all_blocks s.g_min_block L s.allocated_blocks ∨
        (a ≤ p.1 ∧ p.1 + p.2 ≤ b)) ∧
      (∀ o2, b - a < s.g_min_block <<< o2 → L' o2 = L o2) := by
  by_cases hc : cond
  · rw [if_pos hc]
    obtain ⟨L', hI, hcov, hut⟩ := mark_free_range_inv h (hdisj hc)
    exact ⟨L', hI, freelistOnly_mark_free_range .., hcov, hut⟩
  · rw [if_neg hc]
    exact ⟨L, h, FreelistOnly.refl s, fun p hp => Or.inl hp, fun o2 _ => rfl⟩

/-- One step of the reserved range walk, written out. -/
theorem mark_res_walk_step (rs re o c : Nat) (fl : Nat) (s : PMM) :
    mark_res_walk rs re o (some c) (fl + 1) s =
      if ¬ (c + s.g_min_block <<< o ≤ rs ∨ re ≤ c) then
        mark_res_walk rs re o
          (if read_next_word s c ≠ 0 then some (read_next_word s c) else none) fl
          (if re < c + s.g_min_block <<< o then
            (mark_free_range
              (if c < rs then
                (mark_free_range (remove_specific s o c).2 c rs).2
              else (remove_specific s o c).2) re (c + s.g_min_block <<< o)).2
          else
            (if c < rs then
              (mark_free_range (remove_specific s o c).2 c rs).2
            else (remove_specific s o c).2))
      else
        mark_res_walk rs re o
          (if read_next_word s c ≠ 0 then some (read_next_word s c) else none) fl s := by
  rfl

/-- The per order walk of mark_reserved_range: it preserves the
invariant, leaves every surviving block of its order disjoint from the
reserved range, does not touch higher orders, and re-inserted fragments
stay inside removed blocks. -/
theorem mark_res_walk_inv (rs re o : Nat) (hrsre : rs ≤ re) :
    ∀ (rest : List Nat) (fuel : Nat) (s : PMM) (L : Nat → List Nat) (kept : List Nat)
      (cur : Option Nat),
      PMMInv s L →
      L o = kept ++ rest →
      ChainRepr s.memory_state cur rest →
      (∀ x ∈ kept, blk_disjoint (x, s.g_min_block <<< o) (rs, re - rs)) →
      rest.length < fuel →
      ∃ L', PMMInv (mark_res_walk rs re o cur fuel s) L' ∧
        (∀ x ∈ L' o, blk_disjoint (x, s.g_min_block <<< o) (rs, re - rs)) ∧
        (∀ o2, o < o2 → L' o2 = L o2) ∧
        (∀ p ∈ all_blocks s.g_min_block L' s.allocated_blocks,
          p ∈ all_blocks s.g_min_block L s.allocated_blocks ∨
          ∃ q ∈ all_blocks s.g_min_block L s.allocated_blocks,
            q.1 ≤ p.1 ∧ p.1 + p.2 ≤ q.1 + q.2) := by
  intro rest
  induction rest with
  | nil =>
    intro fuel s L kept cur h hsplit hchain hkept hlen
    have hcur : cur = none := ChainRepr_nil_none hchain
    subst hcur
    have hid : mark_res_walk rs re o none fuel s = s := by
      cases fuel with
      | zero => rfl
      | succ fl => rfl
    rw [hid]
    refine ⟨L, h, ?_, fun o2 _ => rfl, fun p hp => Or.inl hp⟩
    intro x hx
    rw [hsplit, List.append_nil] at hx
    exact hkept x hx
  | cons c rest' ih =>
    intro fuel s L kept cur h hsplit hchain hkept hlen
    cases fuel with
    | zero => simp at hlen
    | succ fl =>
      cases cur with
      | none => exact absurd hchain (by simp [ChainRepr])
      | some v =>
        obtain ⟨hv, htail⟩ := hchain
        rw [hv]
        rw [mark_res_walk_step]
        have hnxt2 : (if read_next_word s c ≠ 0 then some (read_next_word s c) else none) =
            chain_ptr rest' := by
          rw [ite_ne_zero_comm]
          exact ChainRepr_ptr_eq htail
        rw [hnxt2]
        have hlen2 : rest'.length < fl := by
          simp only [List.length_cons] at hlen
          omega
        by_cases hov : c + s.g_min_block <<< o ≤ rs ∨ re ≤ c
        · rw [if_neg (not_not_intro hov)]
          have hch2 : ChainRepr s.memory_state (chain_ptr rest') rest' := by
            rw [← ChainRepr_ptr_eq htail]
            exact htail
          exact ih fl s L (kept ++ [c]) (chain_ptr rest') h
            (by rw [hsplit, List.append_assoc]; rfl)
            hch2
            (by
              intro x hx
              rcases List.mem_append.mp hx with hxk | hxc
              · exact hkept x hxk
              · have hxc2 : x = c := by simpa using hxc
                subst hxc2
                exact checked_disjoint hrsre hov)
            hlen2
        · rw [if_pos hov]
          push_neg at hov
          have hc : c ∈ L o := by
            rw [hsplit]
            exact List.mem_append.mpr (Or.inr (List.mem_cons_self c rest'))
          obtain ⟨-, hremInv, hremPerm⟩ := remove_specific_found h hc
          have hnd := h.nodup_at o
          rw [hsplit] at hnd
          have hnc : c ∉ kept := by
            intro hk
            exact (List.nodup_append.mp hnd).2.2 hk (List.mem_cons_self c rest')
          have herase : (L o).erase c = kept ++ rest' := by
            rw [hsplit, List.erase_append_right _ hnc, List.erase_cons_head]
          rw [herase] at hremInv hremPerm
          have hf1 := freelistOnly_remove_specific s o c
          have hpw := (List.Perm.pairwise_iff
            (fun hab => blk_disjoint_symm hab) hremPerm).mp h.disj
          have hbd : ∀ q ∈ all_blocks s.g_min_block (upd L o (kept ++ rest'))
              s.allocated_blocks,
              blk_disjoint (c, s.g_min_block <<< o) q := (List.pairwise_cons.mp hpw).1
          have hcmem : (c, s.g_min_block <<< o) ∈
              all_blocks s.g_min_block L s.allocated_blocks :=
            hremPerm.mem_iff.mpr (List.mem_cons_self _ _)
          have hSpos : 0 < s.g_min_block <<< o := size_pos h.Bpos o
          obtain ⟨L2, hI2, hfo2, hcov2, hut2⟩ :=
            frag_step (a := c) (b := rs) hremInv (c < rs)
              (by
                intro _ q hq
                rw [hf1.minb, hf1.alloc] at hq
                exact blk_disjoint_mono (hbd q hq) (Nat.le_refl c) (by omega))
          rw [hf1.minb, hf1.alloc] at hcov2
          rw [hf1.minb] at hut2
          have hfB : FreelistOnly s
              (if c < rs then (mark_free_range (remove_specific s o c).2 c rs).2
               else (remove_specific s o c).2) := hf1.trans hfo2
          obtain ⟨L3, hI3, hfo3, hcov3, hut3⟩ :=
            frag_step (a := re) (b := c + s.g_min_block <<< o) hI2
              (re < c + s.g_min_block <<< o)
              (by
                intro hrb q hq
                rw [hfB.minb, hfB.alloc] at hq
                rcases hcov2 q hq with hqo | hqin
                · exact blk_disjoint_mono (hbd q hqo) (by omega) (by omega)
                · unfold blk_disjoint
                  simp only
                  omega)
          rw [hfB.minb, hfB.alloc] at hcov3
          rw [hfB.minb] at hut3
          have hfC : FreelistOnly s
              (if re < c + s.g_min_block <<< o then
                (mark_free_range
                  (if c < rs then (mark_free_range (remove_specific s o c).2 c rs).2
                   else (remove_specific s o c).2) re (c + s.g_min_block <<< o)).2
               else
                (if c < rs then (mark_free_range (remove_specific s o c).2 c rs).2
                 else (remove_specific s o c).2)) := hfB.trans hfo3
          have hL3o : L3 o = kept ++ rest' := by
            rw [hut3 o (by omega), hut2 o (by omega)]
            exact upd_same L o _
          have hch3 : ChainRepr
              (if re < c + s.g_min_block <<< o then
                (mark_free_range
                  (if c < rs then (mark_free_range (remove_specific s o c).2 c rs).2
                   else (remove_specific s o c).2) re (c + s.g_min_block <<< o)).2
               else
                (if c < rs then (mark_free_range (remove_specific s o c).2 c rs).2
                 else (remove_specific s o c).2)).memory_state
              (chain_ptr rest') rest' := by
            have hchains := hI3.chains o
            rw [hL3o] at hchains
            exact ChainRepr_suffix kept rest' _ hchains
          obtain ⟨L', hI', hxo', hhio', hcov'⟩ :=
            ih fl _ L3 kept (chain_ptr rest') hI3 hL3o hch3
              (by
                intro x hx
                rw [hfC.minb]
                exact hkept x hx)
              hlen2
          rw [hfC.minb] at hxo'
          rw [hfC.minb, hfC.alloc] at hcov'
          refine ⟨L', hI', hxo', ?_, ?_⟩
          · intro o2 ho2
            have hmono : s.g_min_block <<< o ≤ s.g_min_block <<< o2 :=
              shift_le_shift _ (by omega)
            rw [hhio' o2 ho2, hut3 o2 (by omega), hut2 o2 (by omega),
              upd_other L o _ (by omega)]
          · have htrace : ∀ p ∈ all_blocks s.g_min_block L3 s.allocated_blocks,
                p ∈ all_blocks s.g_min_block L s.allocated_blocks ∨
                ∃ q ∈ all_blocks s.g_min_block L s.allocated_blocks,
                  q.1 ≤ p.1 ∧ p.1 + p.2 ≤ q.1 + q.2 := by
              intro p hp3
              rcases hcov3 p hp3 with hp2 | hpin3
              · rcases hcov2 p hp2 with hp1 | hpin2
                · exact Or.inl (hremPerm.mem_iff.mpr (List.mem_cons_of_mem _ hp1))
                · exact Or.inr ⟨(c, s.g_min_block <<< o), hcmem, by simp only; omega⟩
              · exact Or.inr ⟨(c, s.g_min_block <<< o), hcmem, by simp only; omega⟩
            intro p hp
            rcases hcov' p hp with hp3 | ⟨q, hq3, hqc⟩
            · exact htrace p hp3
            · rcases htrace q hq3 with hqL | ⟨q2, hq2, hq2c⟩
              · exact Or.inr ⟨q, hqL, hqc⟩
              · exact Or.inr ⟨q2, hq2, by omega⟩

/-- The order loop of mark_reserved_range: after processing orders below
n, every free block of an order already processed (all of them once n
reaches 0) is disjoint from the reserved range, and block space only
shrinks. -/
theorem mark_res_orders_inv (rs re : Nat) (hrsre : rs ≤ re) :
    ∀ (n : Nat) (s : PMM) (L : Nat → List Nat),
      PMMInv s L →
      (∀ o2, n ≤ o2 → ∀ x ∈ L o2, blk_disjoint (x, s.g_min_block <<< o2) (rs, re - rs)) →
      ∃ L', PMMInv (mark_res_orders rs re n s) L' ∧
        (∀ o2, ∀ x ∈ L' o2, blk_disjoint (x, s.g_min_block <<< o2) (rs, re - rs)) ∧
        (∀ p ∈ all_blocks s.g_min_block L' s.allocated_blocks,
          p ∈ all_blocks s.g_min_block L s.allocated_blocks ∨
          ∃ q ∈ all_blocks s.g_min_block L s.allocated_blocks,
            q.1 ≤ p.1 ∧ p.1 + p.2 ≤ q.1 + q.2) := by
  intro n
  induction n with
  | zero =>
    intro s L h hdone
    exact ⟨L, h, fun o2 => hdone o2 (Nat.zero_le o2), fun p hp => Or.inl hp⟩
  | succ n ih =>
    intro s L h hdone
    obtain ⟨L1, hI1, hxn, hhi1, hcovW⟩ :=
      mark_res_walk_inv rs re n hrsre (L n) (s.g_range_end + 1) s L []
        (s.g_free_heads n) h (by rw [List.nil_append]) (h.chains n)
        (by intro x hx; cases hx)
        (by have := h.len_le n; omega)
    have hfw := freelistOnly_mark_res_walk rs re n (s.g_range_end + 1)
      (s.g_free_heads n) s
    obtain ⟨L', hI', hall', hcov'⟩ :=
      ih (mark_res_walk rs re n (s.g_free_heads n) (s.g_range_end + 1) s) L1 hI1
        (by
          intro o2 ho2 x hx
          rw [hfw.minb]
          rcases Nat.eq_or_lt_of_le ho2 with he | hlt
          · subst he
            exact hxn x hx
          · rw [hhi1 o2 hlt] at hx
            exact hdone o2 (by omega) x hx)
    rw [hfw.minb] at hall'
    rw [hfw.minb, hfw.alloc] at hcov'
    refine ⟨L', hI', hall', ?_⟩
    intro p hp
    rcases hcov' p hp with hp1 | ⟨q, hq1, hqc⟩
    · rcases hcovW p hp1 with hpL | hqq
      · exact Or.inl hpL
      · exact Or.inr hqq
    · rcases hcovW q hq1 with hqL | ⟨q2, hq2, hq2c⟩
      · exact Or.inr ⟨q, hqL, hqc⟩
      · exact Or.inr ⟨q2, hq2, by omega⟩

/-- mark_reserved_range preserves the invariant, never grows block space,
and on success leaves every free block disjoint from the aligned reserved
range. -/
theorem mark_reserved_range_inv {s : PMM} {L : Nat → List Nat} (h : PMMInv s L)
    (a b : Nat) :
    ∃ L', PMMInv (mark_reserved_range s a b).2 L' ∧
      (∀ p ∈ all_blocks s.g_min_block L' s.allocated_blocks,
        p ∈ all_blocks s.g_min_block L s.allocated_blocks ∨
        ∃ q ∈ all_blocks s.g_min_block L s.allocated_blocks,
          q.1 ≤ p.1 ∧ p.1 + p.2 ≤ q.1 + q.2) ∧
      ((mark_reserved_range s a b).1 = PMMStatus.OK →
        align_down (max a s.g_range_start) s.g_min_block <
          align_up (min b s.g_range_end) s.g_min_block ∧
        ∀ o2, ∀ x ∈ L' o2,
          blk_disjoint (x, s.g_min_block <<< o2)
            (align_down (max a s.g_range_start) s.g_min_block,
             align_up (min b s.g_range_end) s.g_min_block -
               align_down (max a s.g_range_start) s.g_min_block)) := by
  unfold mark_reserved_range
  dsimp only
  split
  · exact ⟨L, h, fun p hp => Or.inl hp, fun hOK => PMMStatus.noConfusion hOK⟩
  · split
    · exact ⟨L, h, fun p hp => Or.inl hp, fun hOK => PMMStatus.noConfusion hOK⟩
    · next hba =>
      split
      · exact ⟨L, h, fun p hp => Or.inl hp, fun hOK => PMMStatus.noConfusion hOK⟩
      · next hlt1 =>
        have hrsre : align_down (max a s.g_range_start) s.g_min_block ≤
            align_up (min b s.g_range_end) s.g_min_block := by
          have h1 := align_down_le (max a s.g_range_start) s.g_min_block
          have h2 := le_align_up h.Bpos (min b s.g_range_end)
          omega
        have hstrict : align_down (max a s.g_range_start) s.g_min_block <
            align_up (min b s.g_range_end) s.g_min_block := by
          have h1 := align_down_le (max a s.g_range_start) s.g_min_block
          have h2 := le_align_up h.Bpos (min b s.g_range_end)
          omega
        obtain ⟨L', hI', hall', hcov'⟩ :=
          mark_res_orders_inv (align_down (max a s.g_range_start) s.g_min_block)
            (align_up (min b s.g_range_end) s.g_min_block) hrsre
            (s.g_max_order + 1) s L h
            (by
              intro o2 ho2 x hx
              rw [h.hi_empty o2 (by omega)] at hx
              cases hx)
        exact ⟨L', hI', hcov', fun _ => ⟨hstrict, hall'⟩⟩

/-- A successful init with positive start establishes the invariant: the
freelists partition exactly the aligned range, nothing is allocated. -/
theorem init_inv (s : PMM) (a b m : Nat) (ha : 0 < a)
    (hOK : (init s a b m).1 = PMMStatus.OK) :
    ∃ L, PMMInv (init s a b m).2 L ∧
      (init s a b m).2.g_inited = true ∧
      (init s a b m).2.g_range_start = align_up a m ∧
      (init s a b m).2.g_range_end = align_down b m ∧
      (init s a b m).2.g_min_block = m ∧
      (init s a b m).2.allocated_blocks = [] ∧
      blocks_bytes m L [] = align_down b m - align_up a m := by
  unfold init at hOK ⊢
  dsimp only at hOK ⊢
  split at hOK
  · exact PMMStatus.noConfusion hOK
  · next hni =>
    split at hOK
    · exact PMMStatus.noConfusion hOK
    · next hba =>
      split at hOK
      · exact PMMStatus.noConfusion hOK
      · next hm3 =>
        split at hOK
        · exact PMMStatus.noConfusion hOK
        · next hm8 =>
          split at hOK
          · exact PMMStatus.noConfusion hOK
          · next hlt =>
            rw [if_neg hni, if_neg hba, if_neg hm3, if_neg hm8, if_neg hlt]
            obtain ⟨MO, hMO⟩ : ∃ v,
                max_order_loop ((align_down b m - align_up a m) / m)
                  ((align_down b m - align_up a m) / m) = v := ⟨_, rfl⟩
            rw [hMO]
            have hpow : is_pow2_u64 m = true := by
              cases hb : is_pow2_u64 m with
              | false => exact absurd (Or.inr hb) hm3
              | true => rfl
            have hmz : m ≠ 0 := fun h0 => hm3 (Or.inl h0)
            have hmpos : 0 < m := Nat.pos_of_ne_zero hmz
            have hpow2 : ∃ k, m = 2 ^ k := (is_pow2_u64_iff m).mp hpow
            have hSA : a ≤ align_up a m := le_align_up hmpos a
            have hnil : ∀ (B : Nat),
                all_blocks B (fun _ => []) ([] : List (Nat × Nat)) = [] := by
              intro B
              simp [all_blocks, abs_blocks, blocks_at]
            have hI3 : PMMInv
                { s with
                  g_min_block := m
                  g_range_start := align_up a m
                  g_range_end := align_down b m
                  g_max_order :=
                    if PMM_MAX_ORDERS ≤ MO then PMM_MAX_ORDERS - 1 else MO
                  g_order_count :=
                    (if PMM_MAX_ORDERS ≤ MO then PMM_MAX_ORDERS - 1 else MO) + 1
                  g_free_heads := fun _ => none
                  memory_state := fun _ => 0
                  allocated_blocks := [] } (fun _ => []) := by
              refine ⟨by show 0 < align_up a m; omega, ?_, hpow2, align_up_dvd a m,
                align_down_dvd b m, by intro o; exact True.intro, fun o _ => rfl,
                ?_, ?_⟩
              · show (if PMM_MAX_ORDERS ≤ MO then PMM_MAX_ORDERS - 1 else MO) <
                  PMM_MAX_ORDERS
                unfold PMM_MAX_ORDERS
                split <;> omega
              · intro p hp
                rw [hnil m] at hp
                cases hp
              · rw [hnil m]
                exact List.Pairwise.nil
            obtain ⟨L', hIp, hbytes, hcov, hut⟩ :=
              partition_go_inv (align_down b m) (align_down b m) (align_up a m) _ _
                hI3 (align_up_dvd a m) (align_down_dvd b m) (Nat.le_refl _)
                (Nat.le_refl _) (Nat.sub_le _ _)
                (by
                  intro q hq
                  rw [hnil m] at hq
                  cases hq)
            have hzero : blocks_bytes m (fun _ => ([] : List Nat))
                ([] : List (Nat × Nat)) = 0 := by
              unfold blocks_bytes
              rw [hnil m]
              rfl
            have hfp := freelistOnly_partition
              { s with
                g_min_block := m
                g_range_start := align_up a m
                g_range_end := align_down b m
                g_max_order :=
                  if PMM_MAX_ORDERS ≤ MO then PMM_MAX_ORDERS - 1 else MO
                g_order_count :=
                  (if PMM_MAX_ORDERS ≤ MO then PMM_MAX_ORDERS - 1 else MO) + 1
                g_free_heads := fun _ => none
                memory_state := fun _ => 0
                allocated_blocks := [] }
              (align_up a m) (align_down b m)
            refine ⟨L', ⟨hIp.base_pos, hIp.maxlt, hIp.pow2B, hIp.baseAl, hIp.limitAl,
              hIp.chains, hIp.hi_empty, hIp.fit, hIp.disj⟩, rfl,
              hfp.rstart, hfp.rend, hfp.minb, hfp.alloc, ?_⟩
            have hb2 : blocks_bytes m L' ([] : List (Nat × Nat)) =
                blocks_bytes m (fun _ => []) ([] : List (Nat × Nat)) +
                  (align_down b m - align_up a m) := hbytes
            omega

theorem sum_flatMap_snd {α : Type} (f : α → List (Nat × Nat)) :
    ∀ (l : List α), ((l.flatMap f).map (fun p => p.2)).sum =
      (l.map (fun x => (((f x).map (fun p => p.2)).sum))).sum := by
  intro l
  induction l with
  | nil => rfl
  | cons x t ih =>
    simp only [List.flatMap_cons, List.map_cons, List.map_append, List.sum_append,
      List.sum_cons]
    rw [ih]

theorem blocks_at_bytes (B : Nat) (l : List Nat) (o : Nat) :
    ((l.map (fun b => (b, B <<< o))).map (fun p => p.2)).sum = l.length * (B <<< o) := by
  induction l with
  | nil => simp
  | cons x t ih =>
    simp only [List.map_cons, List.sum_cons, List.length_cons, ih]
    rw [Nat.succ_mul]
    omega

/-- The reachable freelists of an invariant state are exactly the
abstraction. -/
theorem free_block_list_eq {s : PMM} {L : Nat → List Nat} (h : PMMInv s L) :
    free_block_list s = abs_blocks s.g_min_block L := by
  unfold free_block_list abs_blocks
  apply List.flatMap_congr
  intro o _
  unfold free_list_at
  rw [walk_chain_eq s (L o) (s.g_free_heads o) (s.g_range_end + 1) (h.chains o)
    (by have := h.len_le o; omega)]
  rfl

/-- free_bytes of an invariant state sums the abstract free blocks. -/
theorem free_bytes_abs {s : PMM} {L : Nat → List Nat} (h : PMMInv s L) :
    free_bytes s = ((abs_blocks s.g_min_block L).map (fun p => p.2)).sum := by
  unfold free_bytes abs_blocks
  rw [sum_flatMap_snd]
  apply congrArg List.sum
  apply List.map_congr_left
  intro o _
  unfold free_list_at
  rw [walk_chain_eq s (L o) (s.g_free_heads o) (s.g_range_end + 1) (h.chains o)
    (by have := h.len_le o; omega)]
  unfold blocks_at
  rw [blocks_at_bytes]
  rfl

/-- Free plus live bytes of an invariant state are the total block
bytes. -/
theorem free_live_bytes_eq {s : PMM} {L : Nat → List Nat} (h : PMMInv s L) :
    free_bytes s + live_bytes s =
      blocks_bytes s.g_min_block L s.allocated_blocks := by
  unfold blocks_bytes all_blocks
  rw [List.map_append, List.sum_append, ← free_bytes_abs h]
  rfl

/-- The public mutating operations, as steps of a call trace. -/
inductive Op where
  | alloc (n : Nat)
  | free (a n : Nat)
  | markRes (a b : Nat)
  | markFree (a b : Nat)

/-- Apply one public operation, keeping only the state. -/
def applyOp (s : PMM) : Op → PMM
  | Op.alloc n => (alloc s n).2.2
  | Op.free a n => (free s a n).2
  | Op.markRes a b => (mark_reserved_range s a b).2
  | Op.markFree a b => (mark_free_range s a b).2

/-- Run a trace of public operations. -/
def execTrace (s : PMM) : List Op → PMM
  | [] => s
  | op :: rest => execTrace (applyOp s op) rest

/-- The free call precondition: the call errors out, or the address is a
live allocation of the matching size class. -/
def freeOk (s : PMM) (a n : Nat) : Bool :=
  decide ((free s a n).1 ≠ PMMStatus.OK) ||
  decide ((a, order_to_size s (size_to_order s (round_to_min_block s n))) ∈
    s.allocated_blocks)

/-- The mark_free_range precondition: the call errors out, or the range
does not touch any current free or live block. -/
def markFreeOk (s : PMM) (a b : Nat) : Bool :=
  decide ((mark_free_range s a b).1 ≠ PMMStatus.OK) ||
  decide (∀ q ∈ free_block_list s ++ s.allocated_blocks, blk_disjoint (a, b - a) q)

/-- Validity of one call: alloc and mark_reserved_range are
unconditional, free and mark_free_range carry their preconditions. -/
def opOk (s : PMM) : Op → Bool
  | Op.alloc _ => true
  | Op.free a n => freeOk s a n
  | Op.markRes _ _ => true
  | Op.markFree a b => markFreeOk s a b

/-- Validity of a whole trace, each call judged in its own state. -/
def trace_ok (s : PMM) : List Op → Bool
  | [] => true
  | op :: rest => opOk s op && trace_ok (applyOp s op) rest

/-- A trace using only alloc and free. -/
def alloc_free_only : List Op → Bool
  | [] => true
  | Op.alloc _ :: rest => alloc_free_only rest
  | Op.free _ _ :: rest => alloc_free_only rest
  | _ => false

/-- No block (free or live) touches the range R. -/
def NoTouch (R : Nat × Nat) (B : Nat) (L : Nat → List Nat)
    (alloc : List (Nat × Nat)) : Prop :=
  ∀ p ∈ all_blocks B L alloc, blk_disjoint p R

/-- The mark_free_range precondition away from a reserved range R. -/
def markFreeOkR (R : Nat × Nat) (s : PMM) (a b : Nat) : Bool :=
  decide ((mark_free_range s a b).1 ≠ PMMStatus.OK) ||
  (decide (∀ q ∈ free_block_list s ++ s.allocated_blocks, blk_disjoint (a, b - a) q) &&
   decide (blk_disjoint (a, b - a) R))

/-- Validity of one call while a reserved range R must stay clear. -/
def opOkR (R : Nat × Nat) (s : PMM) : Op → Bool
  | Op.markFree a b => markFreeOkR R s a b
  | op => opOk s op

/-- Validity of a whole trace while R must stay clear. -/
def trace_okR (R : Nat × Nat) (s : PMM) : List Op → Bool
  | [] => true
  | op :: rest => opOkR R s op && trace_okR R (applyOp s op) rest

/-- alloc preserves the invariant and the total block bytes, never
creates block space outside the old blocks, and on success records the
returned address as a live allocation of the inferred order. -/
theorem alloc_inv {s : PMM} {L : Nat → List Nat} (h : PMMInv s L) (n : Nat) :
    ∃ L', PMMInv (alloc s n).2.2 L' ∧
      blocks_bytes s.g_min_block L' (alloc s n).2.2.allocated_blocks =
        blocks_bytes s.g_min_block L s.allocated_blocks ∧
      (∀ p ∈ all_blocks s.g_min_block L' (alloc s n).2.2.allocated_blocks,
        ∀ t, in_blk p t →
          ∃ q ∈ all_blocks s.g_min_block L s.allocated_blocks, in_blk q t) ∧
      ((alloc s n).1 = PMMStatus.OK →
        ((alloc s n).2.1,
          s.g_min_block <<< size_to_order s (round_to_min_block s n)) ∈
          (alloc s n).2.2.allocated_blocks) := by
  unfold alloc
  dsimp only
  split
  · exact ⟨L, h, rfl, fun p hp t ht => ⟨p, hp, ht⟩, fun hOK => PMMStatus.noConfusion hOK⟩
  · split
    · exact ⟨L, h, rfl, fun p hp t ht => ⟨p, hp, ht⟩, fun hOK => PMMStatus.noConfusion hOK⟩
    · split
      · exact ⟨L, h, rfl, fun p hp t ht => ⟨p, hp, ht⟩,
          fun hOK => PMMStatus.noConfusion hOK⟩
      · exact alloc_block_inv h _

/-- Valid alloc and free traces preserve the invariant and the total
block bytes. -/
theorem trace_conserves :
    ∀ (ops : List Op) (s : PMM) (L : Nat → List Nat), PMMInv s L →
      alloc_free_only ops = true → trace_ok s ops = true →
      ∃ L', PMMInv (execTrace s ops) L' ∧
        CoreSame s (execTrace s ops) ∧
        blocks_bytes s.g_min_block L' (execTrace s ops).allocated_blocks =
          blocks_bytes s.g_min_block L s.allocated_blocks := by
  intro ops
  induction ops with
  | nil =>
    intro s L h _ _
    exact ⟨L, h, CoreSame.same s, rfl⟩
  | cons op rest ih =>
    intro s L h haf hok
    simp only [trace_ok, Bool.and_eq_true] at hok
    cases op with
    | alloc n =>
      have haf2 : alloc_free_only rest = true := haf
      obtain ⟨L1, hI1, hbytes1, hcov1, -⟩ := alloc_inv h n
      have hcore1 : CoreSame s (alloc s n).2.2 := alloc_core s n
      obtain ⟨L2, hI2, hcore2, hbytes2⟩ :=
        ih (alloc s n).2.2 L1 hI1 haf2 hok.2
      refine ⟨L2, hI2, hcore1.comp hcore2, ?_⟩
      show blocks_bytes s.g_min_block L2
          (execTrace (alloc s n).2.2 rest).allocated_blocks =
        blocks_bytes s.g_min_block L s.allocated_blocks
      rw [hcore1.minb] at hbytes2
      omega
    | free a n =>
      have haf2 : alloc_free_only rest = true := haf
      have hfv : freeOk s a n = true := hok.1
      simp only [freeOk, Bool.or_eq_true, decide_eq_true_eq] at hfv
      obtain ⟨L1, hI1, hbytes1, hcov1⟩ := free_inv h hfv
      have hcore1 : CoreSame s (free s a n).2 := free_core s a n
      obtain ⟨L2, hI2, hcore2, hbytes2⟩ :=
        ih (free s a n).2 L1 hI1 haf2 hok.2
      refine ⟨L2, hI2, hcore1.comp hcore2, ?_⟩
      show blocks_bytes s.g_min_block L2
          (execTrace (free s a n).2 rest).allocated_blocks =
        blocks_bytes s.g_min_block L s.allocated_blocks
      rw [hcore1.minb] at hbytes2
      omega
    | markRes a b => exact Bool.noConfusion haf
    | markFree a b => exact Bool.noConfusion haf

/-- Valid traces of all four public operations preserve the invariant. -/
theorem trace_inv :
    ∀ (ops : List Op) (s : PMM) (L : Nat → List Nat), PMMInv s L →
      trace_ok s ops = true →
      ∃ L', PMMInv (execTrace s ops) L' ∧ CoreSame s (execTrace s ops) := by
  intro ops
  induction ops with
  | nil =>
    intro s L h _
    exact ⟨L, h, CoreSame.same s⟩
  | cons op rest ih =>
    intro s L h hok
    simp only [trace_ok, Bool.and_eq_true] at hok
    cases op with
    | alloc n =>
      obtain ⟨L1, hI1, -, -, -⟩ := alloc_inv h n
      obtain ⟨L2, hI2, hcore2⟩ := ih (alloc s n).2.2 L1 hI1 hok.2
      exact ⟨L2, hI2, (alloc_core s n).comp hcore2⟩
    | free a n =>
      have hfv : freeOk s a n = true := hok.1
      simp only [freeOk, Bool.or_eq_true, decide_eq_true_eq] at hfv
      obtain ⟨L1, hI1, -, -⟩ := free_inv h hfv
      obtain ⟨L2, hI2, hcore2⟩ := ih (free s a n).2 L1 hI1 hok.2
      exact ⟨L2, hI2, (free_core s a n).comp hcore2⟩
    | markRes a b =>
      obtain ⟨L1, hI1, -, -⟩ := mark_reserved_range_inv h a b
      obtain ⟨L2, hI2, hcore2⟩ := ih (mark_reserved_range s a b).2 L1 hI1 hok.2
      exact ⟨L2, hI2, (mark_res_core s a b).comp hcore2⟩
    | markFree a b =>
      have hfv : markFreeOk s a b = true := hok.1
      simp only [markFreeOk, Bool.or_eq_true, decide_eq_true_eq] at hfv
      rcases hfv with hne | hv
      · rcases mark_free_ok_or_id s a b with hOK2 | hid
        · exact absurd hOK2 hne
        · have hok2 : trace_ok (mark_free_range s a b).2 rest = true := hok.2
          rw [hid] at hok2
          obtain ⟨L2, hI2, hcore2⟩ := ih s L h hok2
          refine ⟨L2, ?_, ?_⟩
          · show PMMInv (execTrace (mark_free_range s a b).2 rest) L2
            rw [hid]
            exact hI2
          · show CoreSame s (execTrace (mark_free_range s a b).2 rest)
            rw [hid]
            exact hcore2
      · have hdisj : ∀ q ∈ all_blocks s.g_min_block L s.allocated_blocks,
            blk_disjoint (a, b - a) q := by
          show ∀ q ∈ abs_blocks s.g_min_block L ++ s.allocated_blocks, _
          rw [← free_block_list_eq h]
          exact hv
        obtain ⟨L1, hI1, -, -⟩ := mark_free_range_inv h hdisj
        obtain ⟨L2, hI2, hcore2⟩ := ih (mark_free_range s a b).2 L1 hI1 hok.2
        exact ⟨L2, hI2, (mark_free_core s a b).comp hcore2⟩

theorem mark_free_alloc_eq (s : PMM) (a b : Nat) :
    (mark_free_range s a b).2.allocated_blocks = s.allocated_blocks :=
  (freelistOnly_mark_free_range s a b).alloc

theorem mark_res_alloc_eq (s : PMM) (a b : Nat) :
    (mark_reserved_range s a b).2.allocated_blocks = s.allocated_blocks := by
  unfold mark_reserved_range
  dsimp only
  split
  · rfl
  · split
    · rfl
    · split
      · rfl
      · exact (freelistOnly_mark_res_orders ..).alloc

/-- Pointwise coverage by old blocks transports the clear range
property. -/
theorem NoTouch_of_coverage {B : Nat} {L L' : Nat → List Nat}
    {al al' : List (Nat × Nat)} {R : Nat × Nat} (hR : 0 < R.2)
    (hpos : ∀ p ∈ all_blocks B L al, 0 < p.2)
    (hpos' : ∀ p ∈ all_blocks B L' al', 0 < p.2)
    (hnt : NoTouch R B L al)
    (hcov : ∀ p ∈ all_blocks B L' al', ∀ t, in_blk p t →
      ∃ q ∈ all_blocks B L al, in_blk q t) :
    NoTouch R B L' al' := by
  intro p hp
  refine (blk_disjoint_iff_pointwise (hpos' p hp) hR).mpr ?_
  intro t ht hRt
  obtain ⟨q, hq, hqt⟩ := hcov p hp t ht
  exact (blk_disjoint_iff_pointwise (hpos q hq) hR).mp (hnt q hq) t hqt hRt

/-- Valid traces away from a clear reserved range R keep R clear. -/
theorem trace_notouch :
    ∀ (ops : List Op) (s : PMM) (L : Nat → List Nat) (R : Nat × Nat),
      PMMInv s L → 0 < R.2 →
      NoTouch R s.g_min_block L s.allocated_blocks →
      trace_okR R s ops = true →
      ∃ L', PMMInv (execTrace s ops) L' ∧ CoreSame s (execTrace s ops) ∧
        NoTouch R s.g_min_block L' (execTrace s ops).allocated_blocks := by
  intro ops
  induction ops with
  | nil =>
    intro s L R h hR hnt _
    exact ⟨L, h, CoreSame.same s, hnt⟩
  | cons op rest ih =>
    intro s L R h hR hnt hok
    simp only [trace_okR, Bool.and_eq_true] at hok
    cases op with
    | alloc n =>
      obtain ⟨L1, hI1, -, hcov1, -⟩ := alloc_inv h n
      have hc1 := alloc_core s n
      have hpos1 : ∀ p ∈ all_blocks s.g_min_block L1
          (alloc s n).2.2.allocated_blocks, 0 < p.2 := by
        intro p hp
        apply hI1.blk_pos
        rw [hc1.minb]
        exact hp
      have hnt1 : NoTouch R s.g_min_block L1 (alloc s n).2.2.allocated_blocks :=
        NoTouch_of_coverage hR (fun p hp => h.blk_pos hp) hpos1 hnt hcov1
      obtain ⟨L2, hI2, hcore2, hnt2⟩ :=
        ih (alloc s n).2.2 L1 R hI1 hR (by rw [hc1.minb]; exact hnt1) hok.2
      refine ⟨L2, hI2, hc1.comp hcore2, ?_⟩
      show NoTouch R s.g_min_block L2 (execTrace (alloc s n).2.2 rest).allocated_blocks
      rw [← hc1.minb]
      exact hnt2
    | free a n =>
      have hfv : freeOk s a n = true := hok.1
      simp only [freeOk, Bool.or_eq_true, decide_eq_true_eq] at hfv
      obtain ⟨L1, hI1, -, hcov1⟩ := free_inv h hfv
      have hc1 := free_core s a n
      have hpos1 : ∀ p ∈ all_blocks s.g_min_block L1
          (free s a n).2.allocated_blocks, 0 < p.2 := by
        intro p hp
        apply hI1.blk_pos
        rw [hc1.minb]
        exact hp
      have hnt1 : NoTouch R s.g_min_block L1 (free s a n).2.allocated_blocks :=
        NoTouch_of_coverage hR (fun p hp => h.blk_pos hp) hpos1 hnt hcov1
      obtain ⟨L2, hI2, hcore2, hnt2⟩ :=
        ih (free s a n).2 L1 R hI1 hR (by rw [hc1.minb]; exact hnt1) hok.2
      refine ⟨L2, hI2, hc1.comp hcore2, ?_⟩
      show NoTouch R s.g_min_block L2 (execTrace (free s a n).2 rest).allocated_blocks
      rw [← hc1.minb]
      exact hnt2
    | markRes a b =>
      obtain ⟨L1, hI1, hcov1, -⟩ := mark_reserved_range_inv h a b
      have hc1 := mark_res_core s a b
      have hnt1 : NoTouch R s.g_min_block L1
          (mark_reserved_range s a b).2.allocated_blocks := by
        intro p hp
        rw [mark_res_alloc_eq] at hp
        rcases hcov1 p hp with hpo | ⟨q, hq, hqc⟩
        · exact hnt p hpo
        · exact blk_disjoint_mono (hnt q hq) hqc.1 hqc.2
      obtain ⟨L2, hI2, hcore2, hnt2⟩ :=
        ih (mark_reserved_range s a b).2 L1 R hI1 hR
          (by rw [hc1.minb]; exact hnt1) hok.2
      refine ⟨L2, hI2, hc1.comp hcore2, ?_⟩
      show NoTouch R s.g_min_block L2
        (execTrace (mark_reserved_range s a b).2 rest).allocated_blocks
      rw [← hc1.minb]
      exact hnt2
    | markFree a b =>
      have hfv : markFreeOkR R s a b = true := hok.1
      simp only [markFreeOkR, Bool.or_eq_true, Bool.and_eq_true,
        decide_eq_true_eq] at hfv
      rcases hfv with hne | ⟨hv, hvR⟩
      · rcases mark_free_ok_or_id s a b with hOK2 | hid
        · exact absurd hOK2 hne
        · have hok2 : trace_okR R (mark_free_range s a b).2 rest = true := hok.2
          rw [hid] at hok2
          obtain ⟨L2, hI2, hcore2, hnt2⟩ := ih s L R h hR hnt hok2
          refine ⟨L2, ?_, ?_, ?_⟩
          · show PMMInv (execTrace (mark_free_range s a b).2 rest) L2
            rw [hid]
            exact hI2
          · show CoreSame s (execTrace (mark_free_range s a b).2 rest)
            rw [hid]
            exact hcore2
          · show NoTouch R s.g_min_block L2
              (execTrace (mark_free_range s a b).2 rest).allocated_blocks
            rw [hid]
            exact hnt2
      · have hdisj : ∀ q ∈ all_blocks s.g_min_block L s.allocated_blocks,
            blk_disjoint (a, b - a) q := by
          show ∀ q ∈ abs_blocks s.g_min_block L ++ s.allocated_blocks, _
          rw [← free_block_list_eq h]
          exact hv
        obtain ⟨L1, hI1, hcov1, -⟩ := mark_free_range_inv h hdisj
        have hc1 := mark_free_core s a b
        have hpos1 : ∀ p ∈ all_blocks s.g_min_block L1
            (mark_free_range s a b).2.allocated_blocks, 0 < p.2 := by
          intro p hp
          apply hI1.blk_pos
          rw [hc1.minb]
          exact hp
        have hnt1 : NoTouch R s.g_min_block L1
            (mark_free_range s a b).2.allocated_blocks := by
          intro p hp
          rw [mark_free_alloc_eq] at hp
          have hppos : 0 < p.2 := by
            apply hpos1
            rw [mark_free_alloc_eq]
            exact hp
          rcases hcov1 p hp with hpo | hpin
          · exact hnt p hpo
          · exact blk_disjoint_mono hvR hpin.1 (by omega)
        obtain ⟨L2, hI2, hcore2, hnt2⟩ :=
          ih (mark_free_range s a b).2 L1 R hI1 hR
            (by rw [hc1.minb]; exact hnt1) hok.2
        refine ⟨L2, hI2, hc1.comp hcore2, ?_⟩
        show NoTouch R s.g_min_block L2
          (execTrace (mark_free_range s a b).2 rest).allocated_blocks
        rw [← hc1.minb]
        exact hnt2

/-- C2 (amended): conservation holds for alloc and free traces over a
region with nonzero base whenever every free call either errors out or
frees a live allocation of the matching size class: after the trace, the
reachable free bytes plus the live bytes equal the managed span
limit - base.  (At base 0 the pushed sentinel can drop the block at
address 0, and a bogus free of a never allocated address inflates the
free bytes, so both restrictions are needed; see C2_counterexample.) -/
theorem C2_amended_conservation (a b m : Nat) (ops : List Op)
    (ha : 0 < a)
    (hOK : (init PMM.new a b m).1 = PMMStatus.OK)
    (haf : alloc_free_only ops = true)
    (hok : trace_ok (init PMM.new a b m).2 ops = true) :
    free_bytes (execTrace (init PMM.new a b m).2 ops) +
      live_bytes (execTrace (init PMM.new a b m).2 ops) =
      (init PMM.new a b m).2.g_range_end - (init PMM.new a b m).2.g_range_start := by
  obtain ⟨L0, hI0, -, hrs, hre, hmb, hal0, hb0⟩ := init_inv PMM.new a b m ha hOK
  obtain ⟨L', hI', hcore, hbytes⟩ :=
    trace_conserves ops (init PMM.new a b m).2 L0 hI0 haf hok
  have hfl := free_live_bytes_eq hI'
  rw [hcore.minb] at hfl
  rw [hmb] at hfl hbytes
  rw [hal0] at hbytes
  rw [hrs, hre]
  omega

/-- Witness for C2_amended_conservation: init(0x1000, 0x3000, 4096),
one alloc of 4096 (returning 0x2000) and its matching free. -/
theorem C2_amended_witness :
    (0 < 0x1000 ∧ (init PMM.new 0x1000 0x3000 4096).1 = PMMStatus.OK ∧
      alloc_free_only [Op.alloc 4096, Op.free 0x2000 4096] = true ∧
      trace_ok (init PMM.new 0x1000 0x3000 4096).2
        [Op.alloc 4096, Op.free 0x2000 4096] = true) ∧
    free_bytes (execTrace (init PMM.new 0x1000 0x3000 4096).2
        [Op.alloc 4096, Op.free 0x2000 4096]) +
      live_bytes (execTrace (init PMM.new 0x1000 0x3000 4096).2
        [Op.alloc 4096, Op.free 0x2000 4096]) =
      (init PMM.new 0x1000 0x3000 4096).2.g_range_end -
        (init PMM.new 0x1000 0x3000 4096).2.g_range_start :=
  ⟨⟨by decide, by decide, by decide, by decide⟩,
   C2_amended_conservation 0x1000 0x3000 4096 [Op.alloc 4096, Op.free 0x2000 4096]
     (by decide) (by decide) (by decide) (by decide)⟩

/-- C8 (amended): over a region with nonzero base, after any valid trace
of the four public calls (free calls error out or free a live allocation
of matching size; mark_free_range calls error out or target a range not
touching any current block; alloc and mark_reserved_range unrestricted),
any two distinct reachable free blocks have non overlapping byte
intervals.  (At base 0 the sentinel can duplicate overlap-free structure
only by dropping blocks, and a bogus free or a double mark_free_range
inserts an overlapping block; see C8_counterexample.) -/
theorem C8_amended_disjoint (a b m : Nat) (ops : List Op)
    (ha : 0 < a)
    (hOK : (init PMM.new a b m).1 = PMMStatus.OK)
    (hok : trace_ok (init PMM.new a b m).2 ops = true) :
    (free_block_list (execTrace (init PMM.new a b m).2 ops)).Pairwise blk_disjoint := by
  obtain ⟨L0, hI0, -, -, -, -, -, -⟩ := init_inv PMM.new a b m ha hOK
  obtain ⟨L', hI', -⟩ := trace_inv ops (init PMM.new a b m).2 L0 hI0 hok
  rw [free_block_list_eq hI']
  have hd := hI'.disj
  unfold all_blocks at hd
  exact (List.pairwise_append.mp hd).1

/-- Witness for C8_amended_disjoint: init(0x1000, 0x3000, 4096), a
reservation of [0x1800, 0x2800) and an alloc. -/
theorem C8_amended_witness :
    (0 < 0x1000 ∧ (init PMM.new 0x1000 0x3000 4096).1 = PMMStatus.OK ∧
      trace_ok (init PMM.new 0x1000 0x3000 4096).2
        [Op.markRes 0x1800 0x2800, Op.alloc 4096] = true) ∧
    (free_block_list (execTrace (init PMM.new 0x1000 0x3000 4096).2
        [Op.markRes 0x1800 0x2800, Op.alloc 4096])).Pairwise blk_disjoint :=
  ⟨⟨by decide, by decide, by decide⟩,
   C8_amended_disjoint 0x1000 0x3000 4096 [Op.markRes 0x1800 0x2800, Op.alloc 4096]
     (by decide) (by decide) (by decide)⟩

/-- C3 (amended): reservation exclusion over a region with nonzero base.
After a valid trace, a successful mark_reserved_range whose aligned
reserved range R does not overlap any live allocation, and a further
valid trace whose mark_free_range calls also stay clear of R, every
subsequent successful alloc returns an address whose requested byte
interval (the rounded size) is disjoint from the originally requested
range [rs0, re0).  (A bogus free of a reserved address re-inserts
reserved space and breaks the claim as literally stated; see
C3_counterexample.) -/
theorem C3_amended_reservation_exclusion
    (a0 b0 m : Nat) (pre post : List Op) (rs0 re0 n : Nat)
    (s1 s2 s3 : PMM) (R : Nat × Nat)
    (ha : 0 < a0)
    (hOK : (init PMM.new a0 b0 m).1 = PMMStatus.OK)
    (hpre : trace_ok (init PMM.new a0 b0 m).2 pre = true)
    (hs1 : s1 = execTrace (init PMM.new a0 b0 m).2 pre)
    (hR : R = (align_down (max rs0 s1.g_range_start) s1.g_min_block,
      align_up (min re0 s1.g_range_end) s1.g_min_block -
        align_down (max rs0 s1.g_range_start) s1.g_min_block))
    (hres : (mark_reserved_range s1 rs0 re0).1 = PMMStatus.OK)
    (hs2 : s2 = (mark_reserved_range s1 rs0 re0).2)
    (hlive : ∀ p ∈ s1.allocated_blocks, blk_disjoint p R)
    (hpost : trace_okR R s2 post = true)
    (hs3 : s3 = execTrace s2 post)
    (hallocOK : (alloc s3 n).1 = PMMStatus.OK) :
    ∀ t, (alloc s3 n).2.1 ≤ t →
      t < (alloc s3 n).2.1 + round_to_min_block s3 n →
      ¬ (rs0 ≤ t ∧ t < re0) := by
  subst hs1
  subst hR
  subst hs2
  subst hs3
  obtain ⟨L0, hI0, -, -, -, -, -, -⟩ := init_inv PMM.new a0 b0 m ha hOK
  obtain ⟨L1, hI1, -⟩ :=
    trace_inv pre (init PMM.new a0 b0 m).2 L0 hI0 hpre
  obtain ⟨L2, hI2, hcov2, hOKcl⟩ := mark_reserved_range_inv hI1 rs0 re0
  obtain ⟨hstrict, hall2⟩ := hOKcl hres
  have hc2 := mark_res_core (execTrace (init PMM.new a0 b0 m).2 pre) rs0 re0
  have hRpos : 0 < (align_down
      (max rs0 (execTrace (init PMM.new a0 b0 m).2 pre).g_range_start)
      (execTrace (init PMM.new a0 b0 m).2 pre).g_min_block,
      align_up (min re0 (execTrace (init PMM.new a0 b0 m).2 pre).g_range_end)
        (execTrace (init PMM.new a0 b0 m).2 pre).g_min_block -
      align_down (max rs0 (execTrace (init PMM.new a0 b0 m).2 pre).g_range_start)
        (execTrace (init PMM.new a0 b0 m).2 pre).g_min_block).2 := by
    simp only
    omega
  have hnt2 : NoTouch
      (align_down (max rs0 (execTrace (init PMM.new a0 b0 m).2 pre).g_range_start)
        (execTrace (init PMM.new a0 b0 m).2 pre).g_min_block,
       align_up (min re0 (execTrace (init PMM.new a0 b0 m).2 pre).g_range_end)
         (execTrace (init PMM.new a0 b0 m).2 pre).g_min_block -
       align_down (max rs0 (execTrace (init PMM.new a0 b0 m).2 pre).g_range_start)
         (execTrace (init PMM.new a0 b0 m).2 pre).g_min_block)
      (execTrace (init PMM.new a0 b0 m).2 pre).g_min_block L2
      (mark_reserved_range (execTrace (init PMM.new a0 b0 m).2 pre)
        rs0 re0).2.allocated_blocks := by
    intro p hp
    rw [mark_res_alloc_eq] at hp
    rcases List.mem_append.mp hp with habs | halc
    · obtain ⟨o2, ho2, hmem, hsz⟩ := mem_abs_blocks_elim habs
      have hx := hall2 o2 p.1 hmem
      rw [← hsz] at hx
      exact hx
    · exact hlive p halc
  obtain ⟨L3, hI3, hc3, hnt3⟩ :=
    trace_notouch post (mark_reserved_range (execTrace (init PMM.new a0 b0 m).2 pre)
        rs0 re0).2 L2 _ hI2 hRpos
      (by rw [hc2.minb]; exact hnt2) hpost
  rw [hc2.minb] at hnt3
  obtain ⟨L4, hI4, -, hcov4, hOKe⟩ := alloc_inv hI3 n
  have hca := alloc_core (execTrace (mark_reserved_range
    (execTrace (init PMM.new a0 b0 m).2 pre) rs0 re0).2 post) n
  have hmem4 := hOKe hallocOK
  have hnt3s : NoTouch
      (align_down (max rs0 (execTrace (init PMM.new a0 b0 m).2 pre).g_range_start)
        (execTrace (init PMM.new a0 b0 m).2 pre).g_min_block,
       align_up (min re0 (execTrace (init PMM.new a0 b0 m).2 pre).g_range_end)
         (execTrace (init PMM.new a0 b0 m).2 pre).g_min_block -
       align_down (max rs0 (execTrace (init PMM.new a0 b0 m).2 pre).g_range_start)
         (execTrace (init PMM.new a0 b0 m).2 pre).g_min_block)
      (execTrace (mark_reserved_range (execTrace (init PMM.new a0 b0 m).2 pre)
        rs0 re0).2 post).g_min_block L3
      (execTrace (mark_reserved_range (execTrace (init PMM.new a0 b0 m).2 pre)
        rs0 re0).2 post).allocated_blocks := by
    rw [hc3.minb, hc2.minb]
    exact hnt3
  have hpos3 : ∀ p ∈ all_blocks (execTrace (mark_reserved_range
      (execTrace (init PMM.new a0 b0 m).2 pre) rs0 re0).2 post).g_min_block L3
      (execTrace (mark_reserved_range (execTrace (init PMM.new a0 b0 m).2 pre)
        rs0 re0).2 post).allocated_blocks, 0 < p.2 :=
    fun p hp => hI3.blk_pos hp
  have hpos4 : ∀ p ∈ all_blocks (execTrace (mark_reserved_range
      (execTrace (init PMM.new a0 b0 m).2 pre) rs0 re0).2 post).g_min_block L4
      (alloc (execTrace (mark_reserved_range (execTrace (init PMM.new a0 b0 m).2 pre)
        rs0 re0).2 post) n).2.2.allocated_blocks, 0 < p.2 := by
    intro p hp
    apply hI4.blk_pos
    rw [hca.minb]
    exact hp
  have hnt4 := NoTouch_of_coverage hRpos hpos3 hpos4 hnt3s hcov4
  have hdisjR := hnt4 _ (List.mem_append.mpr (Or.inr hmem4))
  have hmem4all : ((alloc (execTrace (mark_reserved_range
      (execTrace (init PMM.new a0 b0 m).2 pre) rs0 re0).2 post) n).2.1,
      (alloc (execTrace (mark_reserved_range (execTrace (init PMM.new a0 b0 m).2 pre)
        rs0 re0).2 post) n).2.2.g_min_block <<<
        size_to_order (execTrace (mark_reserved_range
          (execTrace (init PMM.new a0 b0 m).2 pre) rs0 re0).2 post)
          (round_to_min_block (execTrace (mark_reserved_range
            (execTrace (init PMM.new a0 b0 m).2 pre) rs0 re0).2 post) n)) ∈
      all_blocks (alloc (execTrace (mark_reserved_range
        (execTrace (init PMM.new a0 b0 m).2 pre) rs0 re0).2 post) n).2.2.g_min_block L4
      (alloc (execTrace (mark_reserved_range (execTrace (init PMM.new a0 b0 m).2 pre)
        rs0 re0).2 post) n).2.2.allocated_blocks := by
    rw [hca.minb]
    exact List.mem_append.mpr (Or.inr hmem4)
  obtain ⟨hfit1, hfit2, -, -⟩ := hI4.fit _ hmem4all
  simp only at hfit1 hfit2
  rw [hca.minb] at hfit2
  have hcS : CoreSame (execTrace (init PMM.new a0 b0 m).2 pre)
      (alloc (execTrace (mark_reserved_range (execTrace (init PMM.new a0 b0 m).2 pre)
        rs0 re0).2 post) n).2.2 := hc2.comp (hc3.comp hca)
  rw [hcS.rstart] at hfit1
  rw [hcS.rend] at hfit2
  have hrle : round_to_min_block (execTrace (mark_reserved_range
      (execTrace (init PMM.new a0 b0 m).2 pre) rs0 re0).2 post) n ≤
      (execTrace (mark_reserved_range (execTrace (init PMM.new a0 b0 m).2 pre)
        rs0 re0).2 post).g_min_block <<<
        size_to_order (execTrace (mark_reserved_range
          (execTrace (init PMM.new a0 b0 m).2 pre) rs0 re0).2 post)
          (round_to_min_block (execTrace (mark_reserved_range
            (execTrace (init PMM.new a0 b0 m).2 pre) rs0 re0).2 post) n) :=
    size_le_order_size hI3.Bpos _
  have hSpos : 0 < (execTrace (mark_reserved_range
      (execTrace (init PMM.new a0 b0 m).2 pre) rs0 re0).2 post).g_min_block <<<
      size_to_order (execTrace (mark_reserved_range
        (execTrace (init PMM.new a0 b0 m).2 pre) rs0 re0).2 post)
        (round_to_min_block (execTrace (mark_reserved_range
          (execTrace (init PMM.new a0 b0 m).2 pre) rs0 re0).2 post) n) :=
    size_pos hI3.Bpos _
  intro t h1 h2 hcontra
  obtain ⟨ht1, ht2⟩ := hcontra
  have hd_le := align_down_le
    (max rs0 (execTrace (init PMM.new a0 b0 m).2 pre).g_range_start)
    (execTrace (init PMM.new a0 b0 m).2 pre).g_min_block
  have hu_ge := le_align_up hI1.Bpos
    (min re0 (execTrace (init PMM.new a0 b0 m).2 pre).g_range_end)
  have hmin3 : (execTrace (mark_reserved_range (execTrace
      (init PMM.new a0 b0 m).2 pre) rs0 re0).2 post).g_min_block =
      (execTrace (init PMM.new a0 b0 m).2 pre).g_min_block := by
    rw [hc3.minb, hc2.minb]
  rw [hmin3] at hrle hSpos hfit2
  have hdisjR2 : blk_disjoint
      ((alloc (execTrace (mark_reserved_range (execTrace (init PMM.new a0 b0 m).2 pre)
          rs0 re0).2 post) n).2.1,
        (execTrace (init PMM.new a0 b0 m).2 pre).g_min_block <<<
          size_to_order (execTrace (mark_reserved_range
            (execTrace (init PMM.new a0 b0 m).2 pre) rs0 re0).2 post)
            (round_to_min_block (execTrace (mark_reserved_range
              (execTrace (init PMM.new a0 b0 m).2 pre) rs0 re0).2 post) n))
      (align_down (max rs0 (execTrace (init PMM.new a0 b0 m).2 pre).g_range_start)
        (execTrace (init PMM.new a0 b0 m).2 pre).g_min_block,
       align_up (min re0 (execTrace (init PMM.new a0 b0 m).2 pre).g_range_end)
         (execTrace (init PMM.new a0 b0 m).2 pre).g_min_block -
       align_down (max rs0 (execTrace (init PMM.new a0 b0 m).2 pre).g_range_start)
         (execTrace (init PMM.new a0 b0 m).2 pre).g_min_block) := by
    rw [hmin3] at hdisjR
    exact hdisjR
  have hpoint := (blk_disjoint_iff_pointwise hSpos hRpos).mp hdisjR2 t
  apply hpoint
  · exact ⟨h1, by simp only; omega⟩
  · unfold in_blk
    simp only
    omega

/-- Witness for C3_amended_reservation_exclusion: init(0x1000, 0x21000,
4096), reserve [0x5000, 0x7000), then a successful alloc(4096), whose
block misses the reserved range. -/
theorem C3_amended_witness :
    ((init PMM.new 0x1000 0x21000 4096).1 = PMMStatus.OK ∧
     (mark_reserved_range (execTrace (init PMM.new 0x1000 0x21000 4096).2 [])
        0x5000 0x7000).1 = PMMStatus.OK ∧
     (alloc (execTrace (mark_reserved_range
        (execTrace (init PMM.new 0x1000 0x21000 4096).2 [])
        0x5000 0x7000).2 []) 4096).1 = PMMStatus.OK) ∧
    (∀ t, (alloc (execTrace (mark_reserved_range
        (execTrace (init PMM.new 0x1000 0x21000 4096).2 [])
        0x5000 0x7000).2 []) 4096).2.1 ≤ t →
      t < (alloc (execTrace (mark_reserved_range
        (execTrace (init PMM.new 0x1000 0x21000 4096).2 [])
        0x5000 0x7000).2 []) 4096).2.1 +
        round_to_min_block (execTrace (mark_reserved_range
          (execTrace (init PMM.new 0x1000 0x21000 4096).2 [])
          0x5000 0x7000).2 []) 4096 →
      ¬ (0x5000 ≤ t ∧ t < 0x7000)) :=
  ⟨⟨by decide, by decide, by decide⟩,
   C3_amended_reservation_exclusion 0x1000 0x21000 4096 [] [] 0x5000 0x7000 4096
     (execTrace (init PMM.new 0x1000 0x21000 4096).2 [])
     (mark_reserved_range (execTrace (init PMM.new 0x1000 0x21000 4096).2 [])
        0x5000 0x7000).2
     (execTrace (mark_reserved_range (execTrace (init PMM.new 0x1000 0x21000 4096).2 [])
        0x5000 0x7000).2 [])
     (0x5000, 0x2000)
     (by decide) (by decide) (by decide) rfl (by decide) (by decide) rfl
     (by decide) (by decide) rfl (by decide)⟩
